import Mathlib

/-!
# Realtime Math (rtm): scalar layer and angle wrapper

A verification development for `includes/rtm/scalard.h` and `includes/rtm/anglef.h`.

The C++ types `double` and `float` are modelled as IEEE-754 binary64 and binary32
data: a value is NaN, a signed infinity, or a signed finite number `m * 2^e` in
canonical form (one NaN stands for all NaN payloads).  Every arithmetic operation
computes the infinitely precise rational result and rounds it once, to nearest with
ties to even, the default rounding of the C++ floating-point environment; `float`
expressions are evaluated in `float`.  The comparisons are those of C++: every
comparison with NaN is false and `-0 == +0`.  The library functions `std::sin` and
`std::cos` are parameters of the development, and the objects assigned through
reference parameters are cells of a store.  All definitions are computable.
-/

namespace rtm

/-! ## Floating-point formats and data -/

/-- Binary floating-point format: `prec` significand bits, `emin` and `emax` the least and
greatest exponent of the unit in the last place of a finite number. -/
structure Fmt where
  prec : Nat
  emin : Int
  emax : Int
deriving DecidableEq, Repr

/-- Well-formed format: at least one significand bit and a non-empty exponent range. -/
def Fmt.wf (F : Fmt) : Prop := 1 ≤ F.prec ∧ F.emin ≤ F.emax

instance (F : Fmt) : Decidable F.wf := inferInstanceAs (Decidable (_ ∧ _))

/-- IEEE-754 binary64, the C++ `double`. -/
def binary64 : Fmt := ⟨53, -1074, 971⟩

/-- IEEE-754 binary32, the C++ `float`. -/
def binary32 : Fmt := ⟨24, -149, 104⟩

/-- Floating-point datum: NaN, a signed infinity, or the finite number `(-1)^neg * m * 2^e`. -/
inductive FP where
  | nan : FP
  | inf (neg : Bool) : FP
  | fin (neg : Bool) (m : Nat) (e : Int) : FP
deriving DecidableEq, Repr

namespace FP

/-- Membership of a datum in a format: a finite number is stored in canonical form, either
normal (`2^(prec-1) ≤ m < 2^prec`) or subnormal (`e = emin`). -/
def valid (F : Fmt) : FP → Prop
  | fin _ m e => m < 2 ^ F.prec ∧ F.emin ≤ e ∧ e ≤ F.emax ∧ (e = F.emin ∨ 2 ^ (F.prec - 1) ≤ m)
  | _ => True

instance (F : Fmt) : (x : FP) → Decidable (x.valid F)
  | nan => isTrue trivial
  | inf _ => isTrue trivial
  | fin _ m e =>
    inferInstanceAs (Decidable
      (m < 2 ^ F.prec ∧ F.emin ≤ e ∧ e ≤ F.emax ∧ (e = F.emin ∨ 2 ^ (F.prec - 1) ≤ m)))

/-- True for finite numbers, false for NaN and the infinities (`std::isfinite`). -/
def isFinite : FP → Bool
  | fin _ _ _ => true
  | _ => false

/-- True for NaN only. -/
def isNaN : FP → Bool
  | nan => true
  | _ => false

/-- Exact rational value of a finite number (`0` by convention for NaN and infinities). -/
def toRat : FP → ℚ
  | fin neg m e => (if neg then -1 else 1) * (m : ℚ) * (2 : ℚ) ^ e
  | _ => 0

end FP

/-! ## Rounding to nearest, ties to even -/

/-- Number of significant bits of `n`, found by halving at most `fuel` times. -/
def bitLenAux : Nat → Nat → Nat
  | 0, _ => 0
  | fuel + 1, n => if n = 0 then 0 else bitLenAux fuel (n / 2) + 1

/-- Number of significant bits of `n` (`0` for `0`). -/
def bitLen (n : Nat) : Nat := bitLenAux n n

/-- Binary exponent `⌊log₂ q⌋` of a positive rational. -/
def ilog2 (q : ℚ) : Int :=
  let k : Int := (bitLen q.num.natAbs : Int) - (bitLen q.den : Int)
  if (2 : ℚ) ^ k ≤ q then k else k - 1

/-- Nearest integer to `y`, a tie going to the even neighbour. -/
def rne (y : ℚ) : Int :=
  let q := ⌊y⌋
  let f := y - q
  if f < 1 / 2 then q else if 1 / 2 < f then q + 1 else if q % 2 = 0 then q else q + 1

/-- Finite number `m * 2^e`, or infinity when the exponent exceeds the format (overflow). -/
def overflow (F : Fmt) (neg : Bool) (m : Nat) (e : Int) : FP :=
  if F.emax < e then FP.inf neg else FP.fin neg m e

/-- Exponent of the unit in the last place of the binade of `v > 0`, not below `emin`. -/
def lsbExp (F : Fmt) (v : ℚ) : Int := max (ilog2 v + 1 - F.prec) F.emin

/-- Correctly rounded datum of sign `neg` and magnitude `v ≥ 0` (round to nearest, ties to
even): the unit in the last place is `2^E`, the significand is the nearest integer to
`v / 2^E`, and a significand that reaches `2^prec` carries into the next binade. -/
def round (F : Fmt) (neg : Bool) (v : ℚ) : FP :=
  if v = 0 then FP.fin neg 0 F.emin
  else
    let E : Int := lsbExp F v
    let q : Nat := (rne (v / (2 : ℚ) ^ E)).toNat
    if q = 2 ^ F.prec then overflow F neg (2 ^ (F.prec - 1)) (E + 1)
    else overflow F neg q E

/-- Correctly rounded datum nearest to the rational `v` (a decimal literal, or a converted
integer); zero is positive. -/
def ofRat (F : Fmt) (v : ℚ) : FP := round F (decide (v < 0)) |v|

/-! ## Arithmetic and comparisons -/

namespace FP

/-- Unary minus. -/
def neg : FP → FP
  | nan => nan
  | inf s => inf (!s)
  | fin s m e => fin (!s) m e

/-- Absolute value (`std::fabs`): clears the sign. -/
def abs : FP → FP
  | nan => nan
  | inf _ => inf false
  | fin _ m e => fin false m e

/-- Addition `x + y`. An exact zero sum is `+0`, except `(-0) + (-0) = -0`. -/
def add (F : Fmt) : FP → FP → FP
  | nan, _ => nan
  | _, nan => nan
  | inf s, inf t => if s = t then inf s else nan
  | inf s, fin _ _ _ => inf s
  | fin _ _ _, inf t => inf t
  | fin s m e, fin t n k =>
    let v := (fin s m e).toRat + (fin t n k).toRat
    if v = 0 then fin (s && t) 0 F.emin else round F (decide (v < 0)) |v|

/-- Subtraction `x - y`. -/
def sub (F : Fmt) (x y : FP) : FP := add F x (neg y)

/-- Multiplication `x * y`. -/
def mul (F : Fmt) : FP → FP → FP
  | nan, _ => nan
  | _, nan => nan
  | inf s, inf t => inf (xor s t)
  | inf s, fin t n _ => if n = 0 then nan else inf (xor s t)
  | fin s m _, inf t => if m = 0 then nan else inf (xor s t)
  | fin s m e, fin t n k => round F (xor s t) (|(fin s m e).toRat| * |(fin t n k).toRat|)

/-- Division `x / y`. -/
def div (F : Fmt) : FP → FP → FP
  | nan, _ => nan
  | _, nan => nan
  | inf _, inf _ => nan
  | inf s, fin t _ _ => inf (xor s t)
  | fin s _ _, inf t => fin (xor s t) 0 F.emin
  | fin s m e, fin t n k =>
    if n = 0 then (if m = 0 then nan else inf (xor s t))
    else round F (xor s t) (|(fin s m e).toRat| / |(fin t n k).toRat|)

/-- Comparison `x < y`; false when either side is NaN. -/
def lt : FP → FP → Bool
  | nan, _ => false
  | _, nan => false
  | inf s, inf t => s && !t
  | inf s, fin _ _ _ => s
  | fin _ _ _, inf t => !t
  | fin s m e, fin t n k => decide ((fin s m e).toRat < (fin t n k).toRat)

/-- Comparison `x <= y`; false when either side is NaN. -/
def le : FP → FP → Bool
  | nan, _ => false
  | _, nan => false
  | inf s, inf t => s || !t
  | inf s, fin _ _ _ => s
  | fin _ _ _, inf t => !t
  | fin s m e, fin t n k => decide ((fin s m e).toRat ≤ (fin t n k).toRat)

/-- Comparison `x == y`; false when either side is NaN, true for `-0 == +0`. -/
def eq : FP → FP → Bool
  | nan, _ => false
  | _, nan => false
  | inf s, inf t => s == t
  | inf _, fin _ _ _ => false
  | fin _ _ _, inf _ => false
  | fin s m e, fin t n k => decide ((fin s m e).toRat = (fin t n k).toRat)

/-- Comparison `x >= y`. -/
def ge (x y : FP) : Bool := le y x

/-- Comparison `x > y`. -/
def gt (x y : FP) : Bool := lt y x

/-- Largest integral value not greater than the argument (`std::floor`). NaN, infinities,
zeros and numbers without fractional bits (`e ≥ 0`) are returned unchanged; otherwise the
`-e` fractional bits of the significand are dropped and, for a negative argument with a
nonzero fractional part, one is added to the magnitude. The integer obtained is exactly
representable; `round` only brings it to canonical form, keeping the sign of the argument. -/
def floor (F : Fmt) : FP → FP
  | nan => nan
  | inf s => inf s
  | fin s m e =>
    if 0 ≤ e then fin s m e
    else
      let q := m / 2 ^ (-e).toNat
      let r := m % 2 ^ (-e).toNat
      round F s ((if s && decide (r ≠ 0) then q + 1 else q : ℕ) : ℚ)

/-- Smallest integral value not less than the argument (`std::ceil`): as `floor`, one being
added to the magnitude for a positive argument with a nonzero fractional part. -/
def ceil (F : Fmt) : FP → FP
  | nan => nan
  | inf s => inf s
  | fin s m e =>
    if 0 ≤ e then fin s m e
    else
      let q := m / 2 ^ (-e).toNat
      let r := m % 2 ^ (-e).toNat
      round F s ((if !s && decide (r ≠ 0) then q + 1 else q : ℕ) : ℚ)

/-- Value of `std::min(a, b)`: `b` when `b < a`, otherwise `a`. -/
def min (a b : FP) : FP := if lt b a then b else a

/-- Value of `std::max(a, b)`: `b` when `a < b`, otherwise `a`. -/
def max (a b : FP) : FP := if lt a b then b else a

/-- Conversion between formats (`(float)x` for a `double` `x`): the nearest datum of the
target format, NaN, infinities and the sign of zero being kept. -/
def cvt (F : Fmt) : FP → FP
  | nan => nan
  | inf s => inf s
  | fin s m e => round F s |(fin s m e).toRat|

/-- Truncation toward zero of a finite number to an integer. -/
def trunc (x : FP) : Int := if 0 ≤ x.toRat then ⌊x.toRat⌋ else ⌈x.toRat⌉

end FP

/-! ## Integral types -/

/-- Integral type of C++, by signedness and width in bits (two's complement). -/
structure IntegralType where
  signed : Bool
  bits : Nat
deriving DecidableEq, Repr

namespace IntegralType

/-- Least value of the type. -/
def lo (T : IntegralType) : Int := if T.signed then -((2 ^ (T.bits - 1) : Nat) : Int) else 0

/-- Greatest value of the type. -/
def hi (T : IntegralType) : Int :=
  if T.signed then ((2 ^ (T.bits - 1) : Nat) : Int) - 1 else ((2 ^ T.bits : Nat) : Int) - 1

/-- The values of the type. -/
def holds (T : IntegralType) (n : Int) : Prop := T.lo ≤ n ∧ n ≤ T.hi

instance (T : IntegralType) (n : Int) : Decidable (T.holds n) :=
  inferInstanceAs (Decidable (_ ∧ _))

end IntegralType

/-- Conversion `double(input)` of an integer: the nearest `double`. -/
def ofInt (F : Fmt) (n : Int) : FP := ofRat F (n : ℚ)

/-- Conversion `SrcIntegralType(input_f)` of a floating-point datum: the fractional part is
discarded; there is no result (the behaviour is undefined in C++) when the truncated value
is not a value of the type, or for NaN and the infinities. -/
def toIntegral (T : IntegralType) (x : FP) : Option Int :=
  if x.isFinite ∧ T.holds x.trunc then some x.trunc else none

/-! ## `rtm/scalard.h` -/

/-- SSE2 register `__m128d`: two `double` lanes. -/
structure M128d where
  lo : FP
  hi : FP
deriving DecidableEq, Repr

/-- Intrinsic `_mm_set1_pd`: both lanes hold the argument. -/
def mm_set1_pd (a : FP) : M128d := ⟨a, a⟩

/-- Intrinsic `_mm_cvtsd_f64`: the low lane. -/
def mm_cvtsd_f64 (a : M128d) : FP := a.lo

/-- Intrinsic `_mm_div_sd`: the low lanes are divided, the high lane is copied from `a`. -/
def mm_div_sd (a b : M128d) : M128d := ⟨FP.div binary64 a.lo b.lo, a.hi⟩

/-- Literal `0.0`. -/
def zero : FP := ofRat binary64 0

/-- Literal `0.5`. -/
def half : FP := ofRat binary64 (1 / 2)

/-- Literal `1.0`. -/
def one : FP := ofRat binary64 1

namespace portable

/-- Without `RTM_SSE2_INTRINSICS`, `scalard` is `double` and `scalar_set` returns its
argument. -/
def scalar_set (xyzw : FP) : FP := xyzw

/-- Without `RTM_SSE2_INTRINSICS`, `scalar_cast` returns its argument. -/
def scalar_cast (input : FP) : FP := input

end portable

namespace sse2

/-- With `RTM_SSE2_INTRINSICS`, `scalard` is `__m128d` and `scalar_set` is `_mm_set1_pd`. -/
def scalar_set (xyzw : FP) : M128d := mm_set1_pd xyzw

/-- With `RTM_SSE2_INTRINSICS`, `scalar_cast` is `_mm_cvtsd_f64`. -/
def scalar_cast (input : M128d) : FP := mm_cvtsd_f64 input

/-- Register overload of `scalar_reciprocal`: `_mm_div_sd(_mm_set1_pd(1.0), input)`. -/
def scalar_reciprocal (input : M128d) : M128d := mm_div_sd (mm_set1_pd one) input

end sse2

/-- Function `scalar_floor`: `std::floor(input)`. -/
def scalar_floor (input : FP) : FP := FP.floor binary64 input

/-- Function `scalar_ceil`: `std::ceil(input)`. -/
def scalar_ceil (input : FP) : FP := FP.ceil binary64 input

/-- Function `scalar_clamp`: `std::min(std::max(input, min), max)`. -/
def scalar_clamp (input min max : FP) : FP := FP.min (FP.max input min) max

/-- Function `scalar_abs`: `std::fabs(input)`. -/
def scalar_abs (input : FP) : FP := FP.abs input

/-- Function `scalar_reciprocal`, `double` overload: `1.0 / input`. -/
def scalar_reciprocal (input : FP) : FP := FP.div binary64 one input

/-- The functions `std::sin` and `std::cos` of `<cmath>`, which the program calls and does
not define: any two functions from doubles to doubles. -/
structure Libm where
  sin : FP → FP
  cos : FP → FP

/-- Function `scalar_sin`: `std::sin(angle)`. -/
def scalar_sin (L : Libm) (angle : FP) : FP := L.sin angle

/-- Function `scalar_cos`: `std::cos(angle)`. -/
def scalar_cos (L : Libm) (angle : FP) : FP := L.cos angle

/-- Objects of type `double` in memory, by address. -/
def Store : Type := Nat → FP

/-- Value of the object at address `p`. -/
def Store.read (σ : Store) (p : Nat) : FP := σ p

/-- Assignment of `v` to the object at address `p`. -/
def Store.write (σ : Store) (p : Nat) (v : FP) : Store := fun q => if q = p then v else σ q

/-- Function `scalar_sincos`: `out_sin = scalar_sin(angle); out_cos = scalar_cos(angle);`.
The reference parameters `out_sin` and `out_cos` are the addresses of the objects assigned,
in this order; `angle` is passed by value. -/
def scalar_sincos (L : Libm) (angle : FP) (out_sin out_cos : Nat) (σ : Store) : Store :=
  (σ.write out_sin (scalar_sin L angle)).write out_cos (scalar_cos L angle)

/-- Function `scalar_min`: `std::min(left, right)`. -/
def scalar_min (left right : FP) : FP := FP.min left right

/-- Function `scalar_max`: `std::max(left, right)`. -/
def scalar_max (left right : FP) : FP := FP.max left right

/-- Default value `0.00001` of the `threshold` parameter of `scalar_near_equal`. -/
def default_threshold : FP := ofRat binary64 (1 / 100000)

/-- Function `scalar_near_equal`: `scalar_abs(lhs - rhs) < threshold`. -/
def scalar_near_equal (lhs rhs threshold : FP) : Bool :=
  FP.lt (scalar_abs (FP.sub binary64 lhs rhs)) threshold

/-- Function `scalar_is_finite`: `std::isfinite(input)`. -/
def scalar_is_finite (input : FP) : Bool := input.isFinite

/-- Function `scalar_symmetric_round`:
`input >= 0.0 ? scalar_floor(input + 0.5) : scalar_ceil(input - 0.5)`. -/
def scalar_symmetric_round (input : FP) : FP :=
  if FP.ge input zero then scalar_floor (FP.add binary64 input half)
  else scalar_ceil (FP.sub binary64 input half)

/-- Function `scalar_fraction`: `value - scalar_floor(value)`. -/
def scalar_fraction (value : FP) : FP := FP.sub binary64 value (scalar_floor value)

/-- Outcome of a function guarded by an assertion: it returns a value, or the assertion
fails, or its behaviour is undefined by the language. -/
inductive Outcome (α : Type) where
  | value (a : α) : Outcome α
  | assert_failed : Outcome α
  | undefined : Outcome α
deriving DecidableEq, Repr

/-- Modelled from the spec: the macro `RTM_ASSERT` of `rtm/error.h`, which is not among the
sources. A violated assertion is a contract violation, not an error value (`assert_failed`);
when the condition itself has no defined value the behaviour is undefined; otherwise the
function goes on to return `k`. -/
def RTM_ASSERT {α : Type} (cond : Option Bool) (k : α) : Outcome α :=
  match cond with
  | none => Outcome.undefined
  | some true => Outcome.value k
  | some false => Outcome.assert_failed

/-- Function `scalar_safe_to_double` at the integral type `T`: `input_f = double(input)`,
the assertion `SrcIntegralType(input_f) == input`, then `input_f` is returned. -/
def scalar_safe_to_double (T : IntegralType) (input : Int) : Outcome FP :=
  let input_f := ofInt binary64 input
  RTM_ASSERT ((toIntegral T input_f).map fun back => decide (back = input)) input_f

/-! ## `rtm/anglef.h` -/

/-- Modelled from the spec: the constant `k_pi` of `rtm/math.h`, which is not among the
sources; a precise value of π, the `double` nearest to `3.14159265358979323846`. -/
def k_pi : FP := ofRat binary64 (314159265358979323846 / 100000000000000000000)

/-- Literal `180.0f`. -/
def f180 : FP := ofRat binary32 180

/-- Function `scalar_deg_to_rad`: `deg * ((float)k_pi / 180.0f)`, in single precision. -/
def scalar_deg_to_rad (deg : FP) : FP :=
  FP.mul binary32 deg (FP.div binary32 (FP.cvt binary32 k_pi) f180)

/-- Function `scalar_rad_to_deg`: `rad * (180.0f / (float)k_pi)`, in single precision. -/
def scalar_rad_to_deg (rad : FP) : FP :=
  FP.mul binary32 rad (FP.div binary32 f180 (FP.cvt binary32 k_pi))

/-- Class `anglef`: the single member `m_radians`. -/
structure anglef where
  m_radians : FP
deriving DecidableEq, Repr

namespace anglef

/-- Default constructor `anglef()`: `m_radians(0.0f)`. -/
def ctor : anglef := ⟨ofRat binary32 0⟩

/-- Member `as_radians`: `m_radians`. -/
def as_radians (a : anglef) : FP := a.m_radians

/-- Member `as_degrees`: `scalar_rad_to_deg(m_radians)`. -/
def as_degrees (a : anglef) : FP := scalar_rad_to_deg a.m_radians

end anglef

/-- Function `radians`: `anglef(rad)`. -/
def radians (rad : FP) : anglef := ⟨rad⟩

/-- Function `degrees`: `anglef(scalar_deg_to_rad(deg))`. -/
def degrees (deg : FP) : anglef := ⟨scalar_deg_to_rad deg⟩

/-! ## Rounding as a function on the rationals -/

/-- Rounded significand times unit in the last place: the value every rounding aims at. -/
def roundVal (F : Fmt) (v : ℚ) : ℚ := (rne (v / 2 ^ lsbExp F v) : ℚ) * 2 ^ lsbExp F v

/-- Rounding to nearest-even as a function on the rationals, with unbounded exponent range
above: the value of the correctly rounded datum when it does not overflow. -/
def fl (F : Fmt) (v : ℚ) : ℚ := if v < 0 then -roundVal F (-v) else roundVal F v

/-- Numbers `± M * 2^k` with `M < 2^prec` and `emin ≤ k`: the finite numbers of the format,
the exponent range being unbounded above. -/
def Rep (F : Fmt) (w : ℚ) : Prop := ∃ (M : ℕ) (k : ℤ), M < 2 ^ F.prec ∧ F.emin ≤ k ∧ |w| = M * 2 ^ k

/-- Sign factor of a datum. -/
def sgn (s : Bool) : ℚ := if s then -1 else 1

/-- The integer `n` is nearest to `q`, a tie being resolved away from zero. -/
def IsRoundAway (q : ℚ) (n : ℤ) : Prop :=
  |q - n| < 1 / 2 ∨ (|q - n| = 1 / 2 ∧ |q| < |(n : ℚ)|)

instance (q : ℚ) (n : ℤ) : Decidable (IsRoundAway q n) := inferInstanceAs (Decidable (_ ∨ _))

/-! ## Properties of the rounding primitives -/

theorem bitLenAux_lt (fuel : Nat) : ∀ n, n ≤ fuel → n < 2 ^ bitLenAux fuel n := by
  induction fuel with
  | zero => intro n hn; simp [bitLenAux]; omega
  | succ f ih =>
    intro n hn
    unfold bitLenAux
    split_ifs with h0
    · subst h0; simp
    · have := ih (n / 2) (by omega)
      rw [pow_succ]; omega

theorem bitLenAux_le (fuel : Nat) : ∀ n, n ≤ fuel → n ≠ 0 → 2 ^ bitLenAux fuel n ≤ 2 * n := by
  induction fuel with
  | zero => intro n hn h0; omega
  | succ f ih =>
    intro n hn h0
    unfold bitLenAux
    rw [if_neg h0, pow_succ]
    by_cases h1 : n / 2 = 0
    · have : n = 1 := by omega
      subst this
      cases f <;> simp [bitLenAux]
    · have := ih (n / 2) (by omega) h1
      omega

theorem lt_two_pow_bitLen (n : Nat) : n < 2 ^ bitLen n := bitLenAux_lt n n le_rfl

theorem two_pow_bitLen_le (n : Nat) (h : n ≠ 0) : 2 ^ bitLen n ≤ 2 * n := bitLenAux_le n n le_rfl h

theorem ilog2_spec (q : ℚ) (hq : 0 < q) : (2 : ℚ) ^ ilog2 q ≤ q ∧ q < (2 : ℚ) ^ (ilog2 q + 1) := by
  have hnum : 0 < q.num := Rat.num_pos.mpr hq
  have hden : 0 < q.den := q.den_pos
  obtain ⟨a, ha⟩ : ∃ a : Nat, q.num = a := ⟨q.num.toNat, (Int.toNat_of_nonneg hnum.le).symm⟩
  have ha0 : a ≠ 0 := by rintro rfl; rw [ha] at hnum; simp at hnum
  have hd : (0 : ℚ) < q.den := by exact_mod_cast hden
  have hqe : q * (q.den : ℚ) = (a : ℚ) := by
    have := Rat.mul_den_eq_num q
    rw [ha] at this
    exact_mod_cast this
  have h1 := lt_two_pow_bitLen a
  have h2 := two_pow_bitLen_le a ha0
  have h3 := lt_two_pow_bitLen q.den
  have h4 := two_pow_bitLen_le q.den (by omega)
  have e1 : ((a : ℚ)) < 2 ^ (bitLen a : ℤ) := by rw [zpow_natCast]; exact_mod_cast h1
  have e2 : (2 : ℚ) ^ (bitLen a : ℤ) ≤ 2 * a := by rw [zpow_natCast]; exact_mod_cast h2
  have e3 : ((q.den : ℚ)) < 2 ^ (bitLen q.den : ℤ) := by rw [zpow_natCast]; exact_mod_cast h3
  have e4 : (2 : ℚ) ^ (bitLen q.den : ℤ) ≤ 2 * q.den := by rw [zpow_natCast]; exact_mod_cast h4
  have hb : (0 : ℚ) < 2 ^ (bitLen q.den : ℤ) := by positivity
  unfold ilog2
  simp only [ha, Int.natAbs_ofNat]
  generalize (bitLen a : ℤ) = A at *
  generalize (bitLen q.den : ℤ) = B at *
  generalize (q.den : ℚ) = d at *
  split_ifs with hk
  · refine ⟨hk, ?_⟩
    rw [show (A - B + 1) = A + 1 - B by ring,
      zpow_sub₀ (by norm_num), zpow_add₀ (by norm_num), zpow_one, lt_div_iff₀ hb]
    nlinarith
  · push_neg at hk
    refine ⟨?_, by simpa using hk⟩
    rw [show (A - B - 1) = A - (B + 1) by ring,
      zpow_sub₀ (by norm_num), zpow_add₀ (by norm_num), zpow_one, div_le_iff₀ (by positivity)]
    nlinarith

theorem two_zpow_le {a b : ℤ} (h : a ≤ b) : (2 : ℚ) ^ a ≤ 2 ^ b :=
  zpow_le_zpow_right₀ (by norm_num) h

theorem two_zpow_lt {a b : ℤ} (h : a < b) : (2 : ℚ) ^ a < 2 ^ b :=
  zpow_lt_zpow_right₀ (by norm_num) h

theorem two_zpow_pos (a : ℤ) : (0 : ℚ) < 2 ^ a := by positivity

theorem two_zpow_add_nat (e : ℤ) (p : ℕ) : (2 : ℚ) ^ (e + p) = 2 ^ p * 2 ^ e := by
  rw [zpow_add₀ (by norm_num), zpow_natCast, mul_comm]

/-- The binary exponent is determined by the binade. -/
theorem ilog2_eq (q : ℚ) (j : ℤ) (h1 : (2 : ℚ) ^ j ≤ q) (h2 : q < (2 : ℚ) ^ (j + 1)) :
    ilog2 q = j := by
  have hq : 0 < q := lt_of_lt_of_le (two_zpow_pos j) h1
  obtain ⟨s1, s2⟩ := ilog2_spec q hq
  by_contra hne
  rcases lt_or_gt_of_ne hne with h | h
  · have : (2 : ℚ) ^ (ilog2 q + 1) ≤ 2 ^ j := two_zpow_le (by omega)
    linarith
  · have : (2 : ℚ) ^ (j + 1) ≤ 2 ^ ilog2 q := two_zpow_le (by omega)
    linarith

theorem rne_abs_sub_le (y : ℚ) : |(rne y : ℚ) - y| ≤ 1 / 2 := by
  have h1 := Int.floor_le y
  have h2 := Int.lt_floor_add_one y
  unfold rne
  simp only
  split_ifs with a b c
  · rw [abs_le]; constructor <;> linarith
  · rw [abs_le]; push_cast; constructor <;> linarith
  · rw [abs_le]; constructor <;> linarith
  · rw [abs_le]; push_cast; constructor <;> linarith

theorem rne_le_of_le (y : ℚ) (n : ℤ) (h : y ≤ n) : rne y ≤ n := by
  have h1 := Int.floor_le y
  have h2 := Int.lt_floor_add_one y
  have h3 : ⌊y⌋ ≤ n := by exact_mod_cast h1.trans h
  unfold rne
  simp only
  split_ifs with a b c
  · exact h3
  · have : (⌊y⌋ : ℚ) < n := by linarith
    have : ⌊y⌋ < n := by exact_mod_cast this
    omega
  · exact h3
  · have : (⌊y⌋ : ℚ) < n := by linarith
    have : ⌊y⌋ < n := by exact_mod_cast this
    omega

theorem le_rne_of_le (y : ℚ) (n : ℤ) (h : (n : ℚ) ≤ y) : n ≤ rne y := by
  have h3 : n ≤ ⌊y⌋ := Int.le_floor.mpr h
  unfold rne
  simp only
  split_ifs <;> omega

theorem lsbExp_ge_emin (F : Fmt) (v : ℚ) : F.emin ≤ lsbExp F v := le_max_right _ _

theorem lsbExp_ge (F : Fmt) (v : ℚ) : ilog2 v + 1 - F.prec ≤ lsbExp F v := le_max_left _ _

theorem scaled_lt (F : Fmt) (v : ℚ) (hv : 0 < v) :
    v / (2 : ℚ) ^ lsbExp F v < ((2 ^ F.prec : ℕ) : ℚ) := by
  have h1 := (ilog2_spec v hv).2
  have h2 : (2 : ℚ) ^ (ilog2 v + 1) ≤ 2 ^ (lsbExp F v + F.prec) :=
    two_zpow_le (by have := lsbExp_ge F v; omega)
  have h3 : (2 : ℚ) ^ (lsbExp F v + F.prec) = 2 ^ F.prec * 2 ^ lsbExp F v := by
    rw [zpow_add₀ (by norm_num), zpow_natCast, mul_comm]
  rw [div_lt_iff₀ (two_zpow_pos _)]
  push_cast
  linarith

/-- The shape of every rounding: a canonical significand and exponent whose value is the
nearest multiple of the unit in the last place. -/
theorem round_eq (F : Fmt) (hF : F.wf) (s : Bool) (v : ℚ) (hv : 0 < v) :
    ∃ m e, round F s v = overflow F s m e ∧ m < 2 ^ F.prec ∧ F.emin ≤ e ∧
      (e = F.emin ∨ 2 ^ (F.prec - 1) ≤ m) ∧
      (m : ℚ) * 2 ^ e = (rne (v / 2 ^ lsbExp F v) : ℚ) * 2 ^ lsbExp F v := by
  have hp : 1 ≤ F.prec := hF.1
  have hy : 0 < v / (2 : ℚ) ^ lsbExp F v := div_pos hv (two_zpow_pos _)
  have hlt := scaled_lt F v hv
  have h0 : 0 ≤ rne (v / 2 ^ lsbExp F v) := le_rne_of_le _ 0 (by simpa using hy.le)
  have h1 : rne (v / 2 ^ lsbExp F v) ≤ ((2 ^ F.prec : ℕ) : ℤ) :=
    rne_le_of_le _ _ (by exact_mod_cast hlt.le)
  obtain ⟨q, hq⟩ : ∃ q : ℕ, rne (v / 2 ^ lsbExp F v) = q := ⟨_, (Int.toNat_of_nonneg h0).symm⟩
  have hq1 : q ≤ 2 ^ F.prec := by rw [hq] at h1; exact_mod_cast h1
  have hround : round F s v =
      if q = 2 ^ F.prec then overflow F s (2 ^ (F.prec - 1)) (lsbExp F v + 1)
      else overflow F s q (lsbExp F v) := by
    unfold round
    rw [if_neg hv.ne']
    simp only [hq, Int.toNat_ofNat]
  rw [hq]
  by_cases hc : q = 2 ^ F.prec
  · refine ⟨2 ^ (F.prec - 1), lsbExp F v + 1, ?_, ?_, ?_, Or.inr le_rfl, ?_⟩
    · rw [hround, if_pos hc]
    · exact Nat.pow_lt_pow_right (by norm_num) (by omega)
    · have := lsbExp_ge_emin F v; omega
    · rw [hc, zpow_add₀ (by norm_num)]
      obtain ⟨p, hp'⟩ : ∃ p, F.prec = p + 1 := ⟨F.prec - 1, by omega⟩
      rw [hp']
      simp only [Nat.add_sub_cancel]
      push_cast
      ring
  · refine ⟨q, lsbExp F v, ?_, ?_, lsbExp_ge_emin F v, ?_, by push_cast; ring⟩
    · rw [hround, if_neg hc]
    · omega
    · by_cases he : lsbExp F v = F.emin
      · exact Or.inl he
      · right
        have hE : lsbExp F v = ilog2 v + 1 - F.prec := by
          unfold lsbExp at he ⊢
          rcases max_cases (ilog2 v + 1 - (F.prec : ℤ)) F.emin with ⟨h, _⟩ | ⟨h, _⟩
          · exact h
          · exact absurd h he
        have h2 : ((2 ^ (F.prec - 1) : ℕ) : ℚ) ≤ v / 2 ^ lsbExp F v := by
          rw [le_div_iff₀ (two_zpow_pos _)]
          have := (ilog2_spec v hv).1
          have e : ilog2 v = ((F.prec - 1 : ℕ) : ℤ) + lsbExp F v := by
            rw [hE]; push_cast [Nat.cast_sub hp]; ring
          rw [e, zpow_add₀ (by norm_num), zpow_natCast] at this
          push_cast
          exact this
        have := le_rne_of_le _ ((2 ^ (F.prec - 1) : ℕ) : ℤ) (by exact_mod_cast h2)
        rw [hq] at this
        exact_mod_cast this

theorem lsbExp_eq_of_ne (F : Fmt) (v : ℚ) (he : lsbExp F v ≠ F.emin) :
    lsbExp F v = ilog2 v + 1 - F.prec := by
  unfold lsbExp at he ⊢
  rcases max_cases (ilog2 v + 1 - (F.prec : ℤ)) F.emin with ⟨h, _⟩ | ⟨h, _⟩
  · exact h
  · exact absurd h he

/-- A rounding either overflows to infinity or is a canonical finite number of the format
whose value is `roundVal`. -/
theorem round_cases (F : Fmt) (hF : F.wf) (s : Bool) (v : ℚ) (hv : 0 < v) :
    (round F s v = FP.inf s ∧ (2 : ℚ) ^ (F.emax + F.prec) ≤ roundVal F v) ∨
    ∃ m e, round F s v = FP.fin s m e ∧ (FP.fin s m e).valid F ∧
      (m : ℚ) * 2 ^ e = roundVal F v := by
  have hp : 1 ≤ F.prec := hF.1
  have hmm : F.emin ≤ F.emax := hF.2
  obtain ⟨m, e, hr, hm, he, hcan, hval⟩ := round_eq F hF s v hv
  by_cases ho : F.emax < e
  · left
    refine ⟨by rw [hr, overflow, if_pos ho], ?_⟩
    unfold roundVal
    rw [← hval]
    have hm2 : 2 ^ (F.prec - 1) ≤ m := by
      rcases hcan with h | h
      · omega
      · exact h
    have hm3 : (2 : ℚ) ^ ((F.prec : ℤ) - 1) ≤ m := by
      have : ((2 ^ (F.prec - 1) : ℕ) : ℚ) ≤ m := by exact_mod_cast hm2
      rw [show (F.prec : ℤ) - 1 = ((F.prec - 1 : ℕ) : ℤ) by push_cast [Nat.cast_sub hp]; ring,
        zpow_natCast]
      exact_mod_cast this
    calc (2 : ℚ) ^ (F.emax + F.prec) ≤ 2 ^ (((F.prec : ℤ) - 1) + e) := two_zpow_le (by omega)
      _ = 2 ^ ((F.prec : ℤ) - 1) * 2 ^ e := zpow_add₀ (by norm_num) _ _
      _ ≤ m * 2 ^ e := mul_le_mul_of_nonneg_right hm3 (two_zpow_pos _).le
  · right
    refine ⟨m, e, by rw [hr, overflow, if_neg ho], ⟨hm, he, by omega, hcan⟩, hval⟩

theorem roundVal_le (F : Fmt) (v : ℚ) (hv : 0 < v) (M : ℕ) (k : ℤ)
    (hM : M < 2 ^ F.prec) (hk : F.emin ≤ k) (h : v ≤ M * 2 ^ k) :
    roundVal F v ≤ M * 2 ^ k := by
  have hE : lsbExp F v ≤ k := by
    by_contra hlt
    push_neg at hlt
    have hne : lsbExp F v ≠ F.emin := by omega
    have e1 := lsbExp_eq_of_ne F v hne
    have h1 : (M : ℚ) * 2 ^ k < 2 ^ ((F.prec : ℤ) + k) := by
      rw [zpow_add₀ (by norm_num), zpow_natCast]
      have : (M : ℚ) < 2 ^ F.prec := by exact_mod_cast hM
      exact mul_lt_mul_of_pos_right this (two_zpow_pos _)
    have h2 : (2 : ℚ) ^ ((F.prec : ℤ) + k) ≤ 2 ^ ilog2 v := two_zpow_le (by omega)
    have := (ilog2_spec v hv).1
    linarith
  obtain ⟨d, hd⟩ : ∃ d : ℕ, k = lsbExp F v + d := ⟨(k - lsbExp F v).toNat, by omega⟩
  have hw : (M : ℚ) * 2 ^ k = ((M * 2 ^ d : ℕ) : ℤ) * 2 ^ lsbExp F v := by
    rw [hd, zpow_add₀ (by norm_num), zpow_natCast]; push_cast; ring
  have hy : v / 2 ^ lsbExp F v ≤ ((M * 2 ^ d : ℕ) : ℤ) := by
    rw [div_le_iff₀ (two_zpow_pos _), ← hw]; exact h
  have := rne_le_of_le _ _ hy
  unfold roundVal
  rw [hw]
  exact mul_le_mul_of_nonneg_right (by exact_mod_cast this) (two_zpow_pos _).le

theorem two_pow_le_scaled (F : Fmt) (hp : 1 ≤ F.prec) (v : ℚ) (hv : 0 < v)
    (he : lsbExp F v ≠ F.emin) : ((2 ^ (F.prec - 1) : ℕ) : ℚ) ≤ v / 2 ^ lsbExp F v := by
  have hE := lsbExp_eq_of_ne F v he
  rw [le_div_iff₀ (two_zpow_pos _)]
  have := (ilog2_spec v hv).1
  have e : ilog2 v = ((F.prec - 1 : ℕ) : ℤ) + lsbExp F v := by
    rw [hE]; push_cast [Nat.cast_sub hp]; ring
  rw [e, zpow_add₀ (by norm_num), zpow_natCast] at this
  push_cast
  exact this

theorem le_roundVal (F : Fmt) (hp : 1 ≤ F.prec) (v : ℚ) (hv : 0 < v) (M : ℕ) (k : ℤ)
    (hM : M < 2 ^ F.prec) (hk : F.emin ≤ k) (h : (M : ℚ) * 2 ^ k ≤ v) :
    (M : ℚ) * 2 ^ k ≤ roundVal F v := by
  by_cases hE : lsbExp F v ≤ k
  · obtain ⟨d, hd⟩ : ∃ d : ℕ, k = lsbExp F v + d := ⟨(k - lsbExp F v).toNat, by omega⟩
    have hw : (M : ℚ) * 2 ^ k = ((M * 2 ^ d : ℕ) : ℤ) * 2 ^ lsbExp F v := by
      rw [hd, zpow_add₀ (by norm_num), zpow_natCast]; push_cast; ring
    have hy : (((M * 2 ^ d : ℕ) : ℤ) : ℚ) ≤ v / 2 ^ lsbExp F v := by
      rw [le_div_iff₀ (two_zpow_pos _), ← hw]; exact h
    have := le_rne_of_le _ _ hy
    unfold roundVal
    rw [hw]
    exact mul_le_mul_of_nonneg_right (by exact_mod_cast this) (two_zpow_pos _).le
  · push_neg at hE
    have hne : lsbExp F v ≠ F.emin := by omega
    have h2 := two_pow_le_scaled F hp v hv hne
    have h3 := le_rne_of_le _ ((2 ^ (F.prec - 1) : ℕ) : ℤ) (by exact_mod_cast h2)
    have h4 : (((2 ^ (F.prec - 1) : ℕ) : ℤ) : ℚ) ≤ (rne (v / 2 ^ lsbExp F v) : ℚ) := by
      exact_mod_cast h3
    have h5 : (M : ℚ) * 2 ^ k ≤ 2 ^ ((F.prec : ℤ) + k) := by
      rw [zpow_add₀ (by norm_num), zpow_natCast]
      have : (M : ℚ) ≤ 2 ^ F.prec := by exact_mod_cast hM.le
      exact mul_le_mul_of_nonneg_right this (two_zpow_pos _).le
    have h6 : (2 : ℚ) ^ ((F.prec : ℤ) + k) ≤ 2 ^ (((F.prec - 1 : ℕ) : ℤ) + lsbExp F v) :=
      two_zpow_le (by push_cast [Nat.cast_sub hp]; omega)
    have h7 : (2 : ℚ) ^ (((F.prec - 1 : ℕ) : ℤ) + lsbExp F v) =
        2 ^ (F.prec - 1) * 2 ^ lsbExp F v := by
      rw [zpow_add₀ (by norm_num), zpow_natCast]
    rw [h7] at h6
    unfold roundVal
    calc (M : ℚ) * 2 ^ k ≤ 2 ^ (F.prec - 1) * 2 ^ lsbExp F v := h5.trans h6
      _ ≤ _ := mul_le_mul_of_nonneg_right (by push_cast at h4; exact h4) (two_zpow_pos _).le

theorem roundVal_abs_sub_le (F : Fmt) (v : ℚ) :
    |roundVal F v - v| ≤ 2 ^ lsbExp F v / 2 := by
  have h := rne_abs_sub_le (v / 2 ^ lsbExp F v)
  have hpos := two_zpow_pos (lsbExp F v)
  have e : roundVal F v - v = ((rne (v / 2 ^ lsbExp F v) : ℚ) - v / 2 ^ lsbExp F v) *
      2 ^ lsbExp F v := by
    unfold roundVal; field_simp
  rw [e, abs_mul, abs_of_pos hpos]
  calc _ ≤ 1 / 2 * (2 : ℚ) ^ lsbExp F v := mul_le_mul_of_nonneg_right h hpos.le
    _ = _ := by ring

theorem roundVal_zero (F : Fmt) : roundVal F 0 = 0 := by
  simp [roundVal, rne]

theorem roundVal_nonneg (F : Fmt) (v : ℚ) (hv : 0 ≤ v) : 0 ≤ roundVal F v := by
  have : 0 ≤ rne (v / 2 ^ lsbExp F v) :=
    le_rne_of_le _ 0 (by simpa using div_nonneg hv (two_zpow_pos _).le)
  exact mul_nonneg (by exact_mod_cast this) (two_zpow_pos _).le

theorem fl_zero (F : Fmt) : fl F 0 = 0 := by simp [fl, roundVal_zero]

theorem fl_neg (F : Fmt) (v : ℚ) : fl F (-v) = -fl F v := by
  unfold fl
  rcases lt_trichotomy v 0 with h | h | h
  · rw [if_neg (by linarith), if_pos h, neg_neg]
  · subst h; simp [roundVal_zero]
  · rw [if_pos (by linarith), if_neg (by linarith), neg_neg]

theorem fl_of_nonneg (F : Fmt) (v : ℚ) (hv : 0 ≤ v) : fl F v = roundVal F v := by
  rw [fl, if_neg (by linarith)]

theorem fl_nonneg (F : Fmt) (v : ℚ) (hv : 0 ≤ v) : 0 ≤ fl F v := by
  rw [fl_of_nonneg F v hv]; exact roundVal_nonneg F v hv

theorem fl_nonpos (F : Fmt) (v : ℚ) (hv : v ≤ 0) : fl F v ≤ 0 := by
  have := fl_nonneg F (-v) (by linarith)
  rw [fl_neg] at this
  linarith

theorem Rep.neg {F : Fmt} {w : ℚ} (h : Rep F w) : Rep F (-w) := by
  obtain ⟨M, k, h1, h2, h3⟩ := h
  exact ⟨M, k, h1, h2, by rw [abs_neg]; exact h3⟩

theorem fl_le_of_le_nonneg (F : Fmt) (v w : ℚ) (hv : 0 ≤ v) (hw : Rep F w) (h : v ≤ w) :
    fl F v ≤ w := by
  obtain ⟨M, k, h1, h2, h3⟩ := hw
  rw [abs_of_nonneg (hv.trans h)] at h3
  rw [fl_of_nonneg F v hv]
  rcases hv.eq_or_lt with h0 | h0
  · rw [← h0, roundVal_zero]; linarith
  · rw [h3] at h ⊢
    exact roundVal_le F v h0 M k h1 h2 h

theorem le_fl_of_le_nonneg (F : Fmt) (hF : F.wf) (v w : ℚ) (hw0 : 0 ≤ w) (hw : Rep F w)
    (h : w ≤ v) : w ≤ fl F v := by
  obtain ⟨M, k, h1, h2, h3⟩ := hw
  rw [abs_of_nonneg hw0] at h3
  have hv : 0 ≤ v := hw0.trans h
  rw [fl_of_nonneg F v hv]
  rcases hv.eq_or_lt with h0 | h0
  · rw [← h0, roundVal_zero]; linarith
  · rw [h3] at h ⊢
    exact le_roundVal F hF.1 v h0 M k h1 h2 h

/-- Rounding never crosses a number of the format (upper bound). -/
theorem fl_le_of_le (F : Fmt) (hF : F.wf) (v w : ℚ) (hw : Rep F w) (h : v ≤ w) : fl F v ≤ w := by
  rcases le_or_lt 0 v with hv | hv
  · exact fl_le_of_le_nonneg F v w hv hw h
  · rcases le_or_lt 0 w with hw0 | hw0
    · exact (fl_nonpos F v hv.le).trans hw0
    · have := le_fl_of_le_nonneg F hF (-v) (-w) (by linarith) hw.neg (by linarith)
      rw [fl_neg] at this
      linarith

/-- Rounding never crosses a number of the format (lower bound). -/
theorem le_fl_of_le (F : Fmt) (hF : F.wf) (v w : ℚ) (hw : Rep F w) (h : w ≤ v) : w ≤ fl F v := by
  have := fl_le_of_le F hF (-v) (-w) hw.neg (by linarith)
  rw [fl_neg] at this
  linarith

/-- Numbers of the format are not changed by rounding. -/
theorem fl_exact (F : Fmt) (hF : F.wf) (w : ℚ) (hw : Rep F w) : fl F w = w :=
  le_antisymm (fl_le_of_le F hF w w hw le_rfl) (le_fl_of_le F hF w w hw le_rfl)

/-- Rounding to nearest is monotone on either side of a number of the format; in general it
is within half a unit in the last place. -/
theorem fl_abs_sub_le (F : Fmt) (v : ℚ) : |fl F v - v| ≤ 2 ^ lsbExp F |v| / 2 := by
  rcases le_or_lt 0 v with hv | hv
  · rw [fl_of_nonneg F v hv, abs_of_nonneg hv]; exact roundVal_abs_sub_le F v
  · rw [fl, if_pos hv, abs_of_neg hv]
    have := roundVal_abs_sub_le F (-v)
    rw [show -roundVal F (-v) - v = -(roundVal F (-v) - -v) by ring, abs_neg]
    exact this

theorem FP.toRat_fin (s : Bool) (m : ℕ) (e : ℤ) :
    (FP.fin s m e).toRat = sgn s * ((m : ℚ) * 2 ^ e) := by
  simp [FP.toRat, sgn, mul_assoc]

theorem FP.abs_toRat_fin (s : Bool) (m : ℕ) (e : ℤ) :
    |(FP.fin s m e).toRat| = (m : ℚ) * 2 ^ e := by
  have h : (0 : ℚ) ≤ (m : ℚ) * 2 ^ e := mul_nonneg (Nat.cast_nonneg m) (two_zpow_pos e).le
  rw [FP.toRat_fin]
  cases s <;> simp [sgn, abs_of_nonneg h]

theorem FP.isFinite_iff (x : FP) : x.isFinite = true ↔ ∃ s m e, x = FP.fin s m e := by
  cases x <;> simp [FP.isFinite]

/-- Valid finite numbers are numbers of the format. -/
theorem FP.valid.rep {F : Fmt} {x : FP} (h : x.valid F) : Rep F x.toRat := by
  cases x with
  | nan => exact ⟨0, F.emin, by positivity, le_rfl, by simp [FP.toRat]⟩
  | inf s => exact ⟨0, F.emin, by positivity, le_rfl, by simp [FP.toRat]⟩
  | fin s m e => exact ⟨m, e, h.1, h.2.1, FP.abs_toRat_fin s m e⟩

/-- A rounding of a magnitude either overflows or yields a valid finite number of value
`fl`. -/
theorem round_spec (F : Fmt) (hF : F.wf) (s : Bool) (v : ℚ) (hv : 0 ≤ v) :
    (round F s v = FP.inf s ∧ (2 : ℚ) ^ (F.emax + F.prec) ≤ fl F v) ∨
    ∃ m e, round F s v = FP.fin s m e ∧ (FP.fin s m e).valid F ∧ (m : ℚ) * 2 ^ e = fl F v := by
  rw [fl_of_nonneg F v hv]
  rcases hv.eq_or_lt with h0 | h0
  · right
    subst h0
    refine ⟨0, F.emin, by simp [round], ⟨by positivity, le_rfl, hF.2, Or.inl rfl⟩, ?_⟩
    simp [roundVal_zero]
  · exact round_cases F hF s v h0

theorem round_valid (F : Fmt) (hF : F.wf) (s : Bool) (v : ℚ) (hv : 0 ≤ v) :
    (round F s v).valid F := by
  rcases round_spec F hF s v hv with ⟨h, _⟩ | ⟨m, e, h, hval, _⟩
  · rw [h]; trivial
  · rw [h]; exact hval

theorem round_toRat (F : Fmt) (hF : F.wf) (s : Bool) (v : ℚ) (hv : 0 ≤ v)
    (hfin : (round F s v).isFinite = true) : (round F s v).toRat = sgn s * fl F v := by
  rcases round_spec F hF s v hv with ⟨h, _⟩ | ⟨m, e, h, _, hval⟩
  · rw [h] at hfin; simp [FP.isFinite] at hfin
  · rw [h, FP.toRat_fin, hval]

theorem round_isFinite_iff (F : Fmt) (hF : F.wf) (s : Bool) (v : ℚ) (hv : 0 ≤ v) :
    (round F s v).isFinite = true ↔ fl F v < (2 : ℚ) ^ (F.emax + F.prec) := by
  rcases round_spec F hF s v hv with ⟨h, hb⟩ | ⟨m, e, h, hval, hv2⟩
  · rw [h]; simp [FP.isFinite]; exact hb
  · rw [h]
    simp only [FP.isFinite, true_iff]
    rw [← hv2]
    have h1 : (m : ℚ) < 2 ^ F.prec := by exact_mod_cast hval.1
    calc (m : ℚ) * 2 ^ e < 2 ^ F.prec * 2 ^ e := mul_lt_mul_of_pos_right h1 (two_zpow_pos _)
      _ = 2 ^ (e + F.prec) := by rw [zpow_add₀ (by norm_num), zpow_natCast, mul_comm]
      _ ≤ 2 ^ (F.emax + F.prec) := two_zpow_le (by have := hval.2.2.1; omega)

theorem round_sign (F : Fmt) (s : Bool) (v : ℚ) :
    round F s v = FP.inf s ∨ ∃ m e, round F s v = FP.fin s m e := by
  unfold round overflow
  simp only
  split_ifs <;> simp

theorem ofRat_valid (F : Fmt) (hF : F.wf) (v : ℚ) : (ofRat F v).valid F :=
  round_valid F hF _ _ (abs_nonneg v)

theorem sgn_mul_fl_abs (F : Fmt) (v : ℚ) : sgn (decide (v < 0)) * fl F |v| = fl F v := by
  rcases lt_or_le v 0 with h | h
  · rw [abs_of_neg h, fl_neg]; simp [sgn, h]
  · rw [abs_of_nonneg h]; simp [sgn, not_lt.mpr h]

theorem abs_fl (F : Fmt) (v : ℚ) : |fl F v| = fl F |v| := by
  rcases lt_or_le v 0 with h | h
  · rw [abs_of_neg h, fl_neg, abs_of_nonpos (fl_nonpos F v h.le)]
  · rw [abs_of_nonneg h, abs_of_nonneg (fl_nonneg F v h)]

theorem ofRat_toRat (F : Fmt) (hF : F.wf) (v : ℚ) (hfin : (ofRat F v).isFinite = true) :
    (ofRat F v).toRat = fl F v := by
  unfold ofRat at hfin ⊢
  rw [round_toRat F hF _ _ (abs_nonneg v) hfin, sgn_mul_fl_abs]

theorem ofRat_isFinite_iff (F : Fmt) (hF : F.wf) (v : ℚ) :
    (ofRat F v).isFinite = true ↔ |fl F v| < (2 : ℚ) ^ (F.emax + F.prec) := by
  unfold ofRat
  rw [round_isFinite_iff F hF _ _ (abs_nonneg v), abs_fl]

/-- Numbers of the format below the overflow threshold are produced exactly. -/
theorem ofRat_exact (F : Fmt) (hF : F.wf) (w : ℚ) (hw : Rep F w)
    (hlt : |w| < (2 : ℚ) ^ (F.emax + F.prec)) :
    (ofRat F w).isFinite = true ∧ (ofRat F w).toRat = w := by
  have h1 : (ofRat F w).isFinite = true := by
    rw [ofRat_isFinite_iff F hF, fl_exact F hF w hw]; exact hlt
  exact ⟨h1, by rw [ofRat_toRat F hF w h1, fl_exact F hF w hw]⟩

/-! ### Addition and subtraction -/

theorem FP.add_fin (F : Fmt) (s : Bool) (m : ℕ) (e : ℤ) (t : Bool) (n : ℕ) (k : ℤ) :
    FP.add F (FP.fin s m e) (FP.fin t n k) =
      if (FP.fin s m e).toRat + (FP.fin t n k).toRat = 0 then FP.fin (s && t) 0 F.emin
      else ofRat F ((FP.fin s m e).toRat + (FP.fin t n k).toRat) := rfl

theorem FP.add_valid (F : Fmt) (hF : F.wf) (x y : FP) : (FP.add F x y).valid F := by
  cases x with
  | nan => cases y <;> trivial
  | inf s =>
    cases y with
    | nan => trivial
    | inf t =>
      show (if s = t then FP.inf s else FP.nan).valid F
      split_ifs <;> trivial
    | fin t n k => trivial
  | fin s m e =>
    cases y with
    | nan => trivial
    | inf t => trivial
    | fin t n k =>
      rw [FP.add_fin]
      split_ifs
      · exact ⟨by positivity, le_rfl, hF.2, Or.inl rfl⟩
      · exact ofRat_valid F hF _

theorem FP.add_toRat (F : Fmt) (hF : F.wf) (x y : FP) (hx : x.isFinite = true)
    (hy : y.isFinite = true) (hfin : (FP.add F x y).isFinite = true) :
    (FP.add F x y).toRat = fl F (x.toRat + y.toRat) := by
  obtain ⟨s, m, e, rfl⟩ := (FP.isFinite_iff x).mp hx
  obtain ⟨t, n, k, rfl⟩ := (FP.isFinite_iff y).mp hy
  rw [FP.add_fin] at hfin ⊢
  split_ifs at hfin ⊢ with h0
  · rw [h0, fl_zero]; simp [FP.toRat]
  · exact ofRat_toRat F hF _ hfin

theorem FP.add_isFinite_iff (F : Fmt) (hF : F.wf) (x y : FP) (hx : x.isFinite = true)
    (hy : y.isFinite = true) :
    (FP.add F x y).isFinite = true ↔ |fl F (x.toRat + y.toRat)| < (2 : ℚ) ^ (F.emax + F.prec) := by
  obtain ⟨s, m, e, rfl⟩ := (FP.isFinite_iff x).mp hx
  obtain ⟨t, n, k, rfl⟩ := (FP.isFinite_iff y).mp hy
  rw [FP.add_fin]
  split_ifs with h0
  · rw [h0, fl_zero]; simp [FP.isFinite]; positivity
  · exact ofRat_isFinite_iff F hF _

theorem FP.neg_toRat (x : FP) : (FP.neg x).toRat = -x.toRat := by
  cases x with
  | nan => simp [FP.neg, FP.toRat]
  | inf s => simp [FP.neg, FP.toRat]
  | fin s m e => cases s <;> simp [FP.neg, FP.toRat]

theorem FP.neg_isFinite (x : FP) : (FP.neg x).isFinite = x.isFinite := by
  cases x <;> rfl

theorem FP.sub_toRat (F : Fmt) (hF : F.wf) (x y : FP) (hx : x.isFinite = true)
    (hy : y.isFinite = true) (hfin : (FP.sub F x y).isFinite = true) :
    (FP.sub F x y).toRat = fl F (x.toRat - y.toRat) := by
  unfold FP.sub at hfin ⊢
  rw [FP.add_toRat F hF x _ hx (by rw [FP.neg_isFinite]; exact hy) hfin, FP.neg_toRat,
    sub_eq_add_neg]

theorem FP.sub_isFinite_iff (F : Fmt) (hF : F.wf) (x y : FP) (hx : x.isFinite = true)
    (hy : y.isFinite = true) :
    (FP.sub F x y).isFinite = true ↔ |fl F (x.toRat - y.toRat)| < (2 : ℚ) ^ (F.emax + F.prec) := by
  unfold FP.sub
  rw [FP.add_isFinite_iff F hF x _ hx (by rw [FP.neg_isFinite]; exact hy), FP.neg_toRat,
    sub_eq_add_neg]

theorem binary64_wf : binary64.wf := by decide

theorem binary32_wf : binary32.wf := by decide

theorem round_exact (F : Fmt) (hF : F.wf) (s : Bool) (a : ℚ) (ha : 0 ≤ a) (hrep : Rep F a)
    (hlt : a < (2 : ℚ) ^ (F.emax + F.prec)) :
    (round F s a).isFinite = true ∧ (round F s a).toRat = sgn s * a := by
  have h1 : (round F s a).isFinite = true := by
    rw [round_isFinite_iff F hF s a ha, fl_exact F hF a hrep]; exact hlt
  exact ⟨h1, by rw [round_toRat F hF s a ha h1, fl_exact F hF a hrep]⟩

theorem sgn_mul_nonneg_false (a : ℚ) : sgn false * a = a := by simp [sgn]

theorem sgn_mul_true (a : ℚ) : sgn true * a = -a := by simp [sgn]

theorem FP.toRat_nonneg_of_pos (m : ℕ) (e : ℤ) : 0 ≤ (FP.fin false m e).toRat := by
  rw [FP.toRat_fin, sgn_mul_nonneg_false]
  exact mul_nonneg (Nat.cast_nonneg m) (two_zpow_pos e).le

theorem FP.toRat_nonpos_of_neg (m : ℕ) (e : ℤ) : (FP.fin true m e).toRat ≤ 0 := by
  rw [FP.toRat_fin, sgn_mul_true]
  have := mul_nonneg (Nat.cast_nonneg m : (0 : ℚ) ≤ m) (two_zpow_pos e).le
  linarith

/-- An integer between the floor and the ceiling of a valid finite number is a number of the
format, below the overflow threshold. -/
theorem int_near_rep (F : Fmt) (hF : F.wf) (h0 : F.emin ≤ 0) (h1 : 0 ≤ F.emax)
    (s : Bool) (m : ℕ) (e : ℤ) (hx : (FP.fin s m e).valid F) (z : ℤ)
    (hz1 : ⌊(FP.fin s m e).toRat⌋ ≤ z) (hz2 : z ≤ ⌈(FP.fin s m e).toRat⌉) :
    Rep F |(z : ℚ)| ∧ |(z : ℚ)| < (2 : ℚ) ^ (F.emax + F.prec) := by
  obtain ⟨hm, he1, he2, hcan⟩ := hx
  have hmq : (m : ℚ) < 2 ^ F.prec := by exact_mod_cast hm
  have hp : 1 ≤ F.prec := hF.1
  by_cases he : 0 ≤ e
  · obtain ⟨d, rfl⟩ : ∃ d : ℕ, e = d := ⟨e.toNat, by omega⟩
    have hv : (FP.fin s m d).toRat = (((if s then -1 else 1) * (m * 2 ^ d : ℕ) : ℤ) : ℚ) := by
      rw [FP.toRat_fin, zpow_natCast]; cases s <;> simp [sgn]
    rw [hv, Int.floor_intCast] at hz1
    rw [hv, Int.ceil_intCast] at hz2
    have hz : (z : ℚ) = (FP.fin s m d).toRat := by
      rw [hv]; exact_mod_cast le_antisymm hz2 hz1
    rw [hz, FP.abs_toRat_fin]
    refine ⟨⟨m, d, hm, he1, abs_of_nonneg (mul_nonneg (Nat.cast_nonneg m) (two_zpow_pos _).le)⟩, ?_⟩
    calc (m : ℚ) * 2 ^ (d : ℤ) < 2 ^ F.prec * 2 ^ (d : ℤ) :=
          mul_lt_mul_of_pos_right hmq (two_zpow_pos _)
      _ = 2 ^ ((d : ℤ) + F.prec) := (two_zpow_add_nat _ _).symm
      _ ≤ 2 ^ (F.emax + F.prec) := two_zpow_le (by omega)
  · push_neg at he
    have hpow : (2 : ℚ) ^ e ≤ 1 / 2 := by
      have : (2 : ℚ) ^ e ≤ 2 ^ (-1 : ℤ) := two_zpow_le (by omega)
      simpa using this
    obtain ⟨p, hp'⟩ : ∃ p, F.prec = p + 1 := ⟨F.prec - 1, by omega⟩
    have habs : |(FP.fin s m e).toRat| < 2 ^ p := by
      rw [FP.abs_toRat_fin]
      have h2 : (m : ℚ) * 2 ^ e ≤ m * (1 / 2) :=
        mul_le_mul_of_nonneg_left hpow (Nat.cast_nonneg m)
      rw [hp', pow_succ] at hmq
      linarith
    rw [abs_lt] at habs
    have hb1 : -((2 ^ p : ℕ) : ℤ) ≤ z := by
      refine le_trans (Int.le_floor.mpr ?_) hz1
      push_cast; linarith
    have hb2 : z ≤ ((2 ^ p : ℕ) : ℤ) := by
      refine le_trans hz2 (Int.ceil_le.mpr ?_)
      push_cast; linarith
    have hzabs : |z| ≤ ((2 ^ p : ℕ) : ℤ) := abs_le.mpr ⟨hb1, hb2⟩
    obtain ⟨N, hN⟩ : ∃ N : ℕ, |z| = N := ⟨|z|.toNat, (Int.toNat_of_nonneg (abs_nonneg z)).symm⟩
    have hNq : |(z : ℚ)| = N := by rw [← Int.cast_abs, hN]; simp
    have hNle : N ≤ 2 ^ p := by rw [hN] at hzabs; exact_mod_cast hzabs
    have hNlt : N < 2 ^ F.prec := by
      have : 0 < 2 ^ p := by positivity
      rw [hp', pow_succ]; omega
    rw [hNq]
    refine ⟨⟨N, 0, hNlt, h0, by simp⟩, ?_⟩
    calc (N : ℚ) < 2 ^ F.prec := by exact_mod_cast hNlt
      _ = 2 ^ ((0 : ℤ) + F.prec) := by rw [zero_add, zpow_natCast]
      _ ≤ 2 ^ (F.emax + F.prec) := two_zpow_le (by omega)

theorem FP.toRat_eq_intCast (s : Bool) (m : ℕ) (e : ℤ) (he : 0 ≤ e) :
    ∃ z : ℤ, (FP.fin s m e).toRat = z := by
  obtain ⟨d, rfl⟩ : ∃ d : ℕ, e = d := ⟨e.toNat, by omega⟩
  refine ⟨(if s then -1 else 1) * (m * 2 ^ d : ℕ), ?_⟩
  rw [FP.toRat_fin, zpow_natCast]; cases s <;> simp [sgn]

/-- Quotient and remainder of the significand by `2^d`, as rationals. -/
theorem significand_split (m d : ℕ) :
    (m : ℚ) * 2 ^ (-(d : ℤ)) = ((m / 2 ^ d : ℕ) : ℚ) + ((m % 2 ^ d : ℕ) : ℚ) / 2 ^ d ∧
      (0 : ℚ) ≤ ((m % 2 ^ d : ℕ) : ℚ) / 2 ^ d ∧ ((m % 2 ^ d : ℕ) : ℚ) / 2 ^ d < 1 := by
  have hpos : (0 : ℚ) < 2 ^ d := by positivity
  have h1 : (m : ℚ) = 2 ^ d * ((m / 2 ^ d : ℕ) : ℚ) + ((m % 2 ^ d : ℕ) : ℚ) := by
    exact_mod_cast (Nat.div_add_mod m (2 ^ d)).symm
  have h2 : ((m % 2 ^ d : ℕ) : ℚ) < 2 ^ d := by
    exact_mod_cast Nat.mod_lt m (by positivity : 0 < 2 ^ d)
  refine ⟨?_, by positivity, by rw [div_lt_one hpos]; exact h2⟩
  rw [zpow_neg, zpow_natCast]
  field_simp
  linarith

/-- Floor and ceiling of `± (Q + ρ)` with `Q` a natural number and `0 ≤ ρ < 1`. -/
theorem floor_ceil_split (Q : ℕ) (ρ : ℚ) (h2 : 0 ≤ ρ) (h3 : ρ < 1) :
    ⌊(Q : ℚ) + ρ⌋ = (Q : ℤ) ∧
    (ρ = 0 → ⌊-((Q : ℚ) + ρ)⌋ = -(Q : ℤ) ∧ ⌈(Q : ℚ) + ρ⌉ = (Q : ℤ)) ∧
    (ρ ≠ 0 → ⌊-((Q : ℚ) + ρ)⌋ = -((Q + 1 : ℕ) : ℤ) ∧ ⌈(Q : ℚ) + ρ⌉ = ((Q + 1 : ℕ) : ℤ)) ∧
    ⌈-((Q : ℚ) + ρ)⌉ = -(Q : ℤ) := by
  refine ⟨?_, ?_, ?_, ?_⟩
  · exact Int.floor_eq_iff.mpr ⟨by simp only [Int.cast_natCast]; linarith,
      by simp only [Int.cast_natCast]; linarith⟩
  · intro h0
    subst h0
    refine ⟨Int.floor_eq_iff.mpr ⟨?_, ?_⟩, Int.ceil_eq_iff.mpr ⟨?_, ?_⟩⟩ <;>
      simp only [Int.cast_natCast, Int.cast_neg] <;> linarith
  · intro h0
    have hgt : 0 < ρ := lt_of_le_of_ne h2 (Ne.symm h0)
    refine ⟨Int.floor_eq_iff.mpr ⟨?_, ?_⟩, Int.ceil_eq_iff.mpr ⟨?_, ?_⟩⟩ <;>
      push_cast <;> linarith
  · refine Int.ceil_eq_iff.mpr ⟨?_, ?_⟩ <;>
      simp only [Int.cast_natCast, Int.cast_neg] <;> linarith

/-- The magnitude computed by `floor` is the magnitude of the integer part `⌊x⌋`. -/
theorem floor_magnitude (s : Bool) (m : ℕ) (e : ℤ) (he : e < 0) :
    (((if s && decide (m % 2 ^ (-e).toNat ≠ 0) then m / 2 ^ (-e).toNat + 1
      else m / 2 ^ (-e).toNat : ℕ)) : ℚ) = |((⌊(FP.fin s m e).toRat⌋ : ℤ) : ℚ)| := by
  obtain ⟨d, hd⟩ : ∃ d : ℕ, e = -(d : ℤ) := ⟨(-e).toNat, by omega⟩
  subst hd
  simp only [neg_neg, Int.toNat_ofNat]
  obtain ⟨h1, h2, h3⟩ := significand_split m d
  have hr : ((m % 2 ^ d : ℕ) : ℚ) / 2 ^ d = 0 ↔ m % 2 ^ d = 0 := by
    rw [div_eq_zero_iff]
    constructor
    · rintro (h | h)
      · exact_mod_cast h
      · exact absurd h (by positivity)
    · intro h; left; exact_mod_cast h
  obtain ⟨f1, f2, f3, -⟩ := floor_ceil_split (m / 2 ^ d) _ h2 h3
  rw [FP.toRat_fin, h1]
  generalize m / 2 ^ d = Q at *
  cases s with
  | false =>
    rw [sgn_mul_nonneg_false, f1]
    simp
  | true =>
    rw [sgn_mul_true]
    by_cases h0 : m % 2 ^ d = 0
    · rw [(f2 (hr.mpr h0)).1]
      simp [h0]
    · rw [(f3 (fun h => h0 (hr.mp h))).1]
      simp only [h0, ne_eq, not_false_eq_true, decide_True, Bool.and_self, if_true,
        Int.cast_neg, Int.cast_natCast, abs_neg]
      rw [abs_of_nonneg (by positivity)]

/-- The magnitude computed by `ceil` is the magnitude of `⌈x⌉`. -/
theorem ceil_magnitude (s : Bool) (m : ℕ) (e : ℤ) (he : e < 0) :
    (((if !s && decide (m % 2 ^ (-e).toNat ≠ 0) then m / 2 ^ (-e).toNat + 1
      else m / 2 ^ (-e).toNat : ℕ)) : ℚ) = |((⌈(FP.fin s m e).toRat⌉ : ℤ) : ℚ)| := by
  obtain ⟨d, hd⟩ : ∃ d : ℕ, e = -(d : ℤ) := ⟨(-e).toNat, by omega⟩
  subst hd
  simp only [neg_neg, Int.toNat_ofNat]
  obtain ⟨h1, h2, h3⟩ := significand_split m d
  have hr : ((m % 2 ^ d : ℕ) : ℚ) / 2 ^ d = 0 ↔ m % 2 ^ d = 0 := by
    rw [div_eq_zero_iff]
    constructor
    · rintro (h | h)
      · exact_mod_cast h
      · exact absurd h (by positivity)
    · intro h; left; exact_mod_cast h
  obtain ⟨-, f2, f3, f4⟩ := floor_ceil_split (m / 2 ^ d) _ h2 h3
  rw [FP.toRat_fin, h1]
  generalize m / 2 ^ d = Q at *
  cases s with
  | true =>
    rw [sgn_mul_true, f4]
    simp
  | false =>
    rw [sgn_mul_nonneg_false]
    by_cases h0 : m % 2 ^ d = 0
    · rw [(f2 (hr.mpr h0)).2]
      simp [h0]
    · rw [(f3 (fun h => h0 (hr.mp h))).2]
      simp only [h0, ne_eq, not_false_eq_true, decide_True, Bool.not_false, Bool.and_self,
        if_true, Int.cast_natCast]
      rw [abs_of_nonneg (by positivity)]

theorem FP.floor_fin_neg (F : Fmt) (s : Bool) (m : ℕ) (e : ℤ) (he : e < 0) :
    FP.floor F (FP.fin s m e) = round F s |((⌊(FP.fin s m e).toRat⌋ : ℤ) : ℚ)| := by
  rw [← floor_magnitude s m e he]
  simp only [FP.floor, if_neg (not_le.mpr he)]

theorem FP.ceil_fin_neg (F : Fmt) (s : Bool) (m : ℕ) (e : ℤ) (he : e < 0) :
    FP.ceil F (FP.fin s m e) = round F s |((⌈(FP.fin s m e).toRat⌉ : ℤ) : ℚ)| := by
  rw [← ceil_magnitude s m e he]
  simp only [FP.ceil, if_neg (not_le.mpr he)]

/-- On a valid finite number `floor` is exact: a finite number of value `⌊x⌋`. -/
theorem FP.floor_spec (F : Fmt) (hF : F.wf) (h0 : F.emin ≤ 0) (h1 : 0 ≤ F.emax) (x : FP)
    (hx : x.valid F) (hfin : x.isFinite = true) :
    (FP.floor F x).isFinite = true ∧ (FP.floor F x).valid F ∧
      (FP.floor F x).toRat = (⌊x.toRat⌋ : ℤ) := by
  obtain ⟨s, m, e, rfl⟩ := (FP.isFinite_iff x).mp hfin
  by_cases he : 0 ≤ e
  · have hfl : FP.floor F (FP.fin s m e) = FP.fin s m e := by simp only [FP.floor, if_pos he]
    obtain ⟨z, hz⟩ := FP.toRat_eq_intCast s m e he
    rw [hfl]
    exact ⟨rfl, hx, by rw [hz, Int.floor_intCast]⟩
  · push_neg at he
    obtain ⟨hrep, hlt⟩ := int_near_rep F hF h0 h1 s m e hx ⌊(FP.fin s m e).toRat⌋ le_rfl
      (Int.floor_le_ceil _)
    have hrep' : Rep F |((⌊(FP.fin s m e).toRat⌋ : ℤ) : ℚ)| := hrep
    obtain ⟨r1, r2⟩ := round_exact F hF s _ (abs_nonneg _) hrep' hlt
    rw [FP.floor_fin_neg F s m e he]
    refine ⟨r1, round_valid F hF s _ (abs_nonneg _), ?_⟩
    rw [r2]
    cases s with
    | false =>
      have : (0 : ℚ) ≤ ⌊(FP.fin false m e).toRat⌋ := by
        exact_mod_cast Int.floor_nonneg.mpr (FP.toRat_nonneg_of_pos m e)
      rw [sgn_mul_nonneg_false, abs_of_nonneg this]
    | true =>
      have : ((⌊(FP.fin true m e).toRat⌋ : ℤ) : ℚ) ≤ 0 :=
        (Int.floor_le _).trans (FP.toRat_nonpos_of_neg m e)
      rw [sgn_mul_true, abs_of_nonpos this, neg_neg]

/-- On a valid finite number `ceil` is exact: a finite number of value `⌈x⌉`. -/
theorem FP.ceil_spec (F : Fmt) (hF : F.wf) (h0 : F.emin ≤ 0) (h1 : 0 ≤ F.emax) (x : FP)
    (hx : x.valid F) (hfin : x.isFinite = true) :
    (FP.ceil F x).isFinite = true ∧ (FP.ceil F x).valid F ∧
      (FP.ceil F x).toRat = (⌈x.toRat⌉ : ℤ) := by
  obtain ⟨s, m, e, rfl⟩ := (FP.isFinite_iff x).mp hfin
  by_cases he : 0 ≤ e
  · have hfl : FP.ceil F (FP.fin s m e) = FP.fin s m e := by simp only [FP.ceil, if_pos he]
    obtain ⟨z, hz⟩ := FP.toRat_eq_intCast s m e he
    rw [hfl]
    exact ⟨rfl, hx, by rw [hz, Int.ceil_intCast]⟩
  · push_neg at he
    obtain ⟨hrep, hlt⟩ := int_near_rep F hF h0 h1 s m e hx ⌈(FP.fin s m e).toRat⌉
      (Int.floor_le_ceil _) le_rfl
    have hrep' : Rep F |((⌈(FP.fin s m e).toRat⌉ : ℤ) : ℚ)| := hrep
    obtain ⟨r1, r2⟩ := round_exact F hF s _ (abs_nonneg _) hrep' hlt
    rw [FP.ceil_fin_neg F s m e he]
    refine ⟨r1, round_valid F hF s _ (abs_nonneg _), ?_⟩
    rw [r2]
    cases s with
    | false =>
      have : (0 : ℚ) ≤ ⌈(FP.fin false m e).toRat⌉ := by
        exact_mod_cast Int.ceil_nonneg (FP.toRat_nonneg_of_pos m e)
      rw [sgn_mul_nonneg_false, abs_of_nonneg this]
    | true =>
      have : ((⌈(FP.fin true m e).toRat⌉ : ℤ) : ℚ) ≤ 0 := by
        exact_mod_cast (Int.ceil_le.mpr (by simpa using FP.toRat_nonpos_of_neg m e) :
          ⌈(FP.fin true m e).toRat⌉ ≤ 0)
      rw [sgn_mul_true, abs_of_nonpos this, neg_neg]

/-! ### Comparisons -/

theorem FP.lt_eq_false_of_le {a b : FP} (h : FP.le a b = true) : FP.lt b a = false := by
  cases a with
  | nan => simp [FP.le] at h
  | inf s =>
    cases b with
    | nan => simp [FP.le] at h
    | inf t => cases s <;> cases t <;> simp_all [FP.le, FP.lt]
    | fin t n k => cases s <;> simp_all [FP.le, FP.lt]
  | fin s m e =>
    cases b with
    | nan => simp [FP.le] at h
    | inf t => cases t <;> simp_all [FP.le, FP.lt]
    | fin t n k =>
      simp only [FP.le, decide_eq_true_eq] at h
      simp only [FP.lt, decide_eq_false_iff_not, not_lt]
      exact h

theorem FP.le_of_lt_eq_false {a b : FP} (ha : a.isNaN = false) (hb : b.isNaN = false)
    (h : FP.lt b a = false) : FP.le a b = true := by
  cases a with
  | nan => simp [FP.isNaN] at ha
  | inf s =>
    cases b with
    | nan => simp [FP.isNaN] at hb
    | inf t => cases s <;> cases t <;> simp_all [FP.le, FP.lt]
    | fin t n k => cases s <;> simp_all [FP.le, FP.lt]
  | fin s m e =>
    cases b with
    | nan => simp [FP.isNaN] at hb
    | inf t => cases t <;> simp_all [FP.le, FP.lt]
    | fin t n k =>
      simp only [FP.lt, decide_eq_false_iff_not, not_lt] at h
      simp only [FP.le, decide_eq_true_eq]
      exact h

theorem FP.le_refl_of_not_nan {a : FP} (ha : a.isNaN = false) : FP.le a a = true := by
  cases a with
  | nan => simp [FP.isNaN] at ha
  | inf s => cases s <;> simp [FP.le]
  | fin s m e => simp [FP.le]

theorem FP.not_nan_of_le {a b : FP} (h : FP.le a b = true) :
    a.isNaN = false ∧ b.isNaN = false := by
  cases a <;> cases b <;> simp_all [FP.le, FP.isNaN]

theorem FP.le_of_lt {a b : FP} (h : FP.lt a b = true) : FP.le a b = true := by
  cases a with
  | nan => simp [FP.lt] at h
  | inf s =>
    cases b with
    | nan => simp [FP.lt] at h
    | inf t => cases s <;> cases t <;> simp_all [FP.le, FP.lt]
    | fin t n k => cases s <;> simp_all [FP.le, FP.lt]
  | fin s m e =>
    cases b with
    | nan => simp [FP.lt] at h
    | inf t => cases t <;> simp_all [FP.le, FP.lt]
    | fin t n k =>
      simp only [FP.lt, decide_eq_true_eq] at h
      simp only [FP.le, decide_eq_true_eq]
      exact h.le

theorem FP.lt_of_le_of_lt {a b c : FP} (h1 : FP.le a b = true) (h2 : FP.lt b c = true) :
    FP.lt a c = true := by
  cases a with
  | nan => simp [FP.le] at h1
  | inf s =>
    cases b with
    | nan => simp [FP.le] at h1
    | inf t => cases c <;> cases s <;> cases t <;> simp_all [FP.le, FP.lt]
    | fin t n k => cases c <;> cases s <;> simp_all [FP.le, FP.lt]
  | fin s m e =>
    cases b with
    | nan => simp [FP.le] at h1
    | inf t => cases c <;> cases t <;> simp_all [FP.le, FP.lt]
    | fin t n k =>
      cases c with
      | nan => simp [FP.lt] at h2
      | inf u => cases u <;> simp_all [FP.le, FP.lt]
      | fin u p q =>
        simp only [FP.lt, decide_eq_true_eq] at h2 ⊢
        simp only [FP.le, decide_eq_true_eq] at h1
        exact h1.trans_lt h2

theorem FP.lt_asymm {a b : FP} (h : FP.lt a b = true) : FP.lt b a = false :=
  FP.lt_eq_false_of_le (FP.le_of_lt h)

theorem zero_eq : zero = FP.fin false 0 (-1074) := by decide!

theorem FP.lt_of_isFinite {x y : FP} (hx : x.isFinite = true) (hy : y.isFinite = true) :
    FP.lt x y = decide (x.toRat < y.toRat) := by
  obtain ⟨s, m, e, rfl⟩ := (FP.isFinite_iff x).mp hx
  obtain ⟨t, n, k, rfl⟩ := (FP.isFinite_iff y).mp hy
  rfl

theorem FP.le_of_isFinite {x y : FP} (hx : x.isFinite = true) (hy : y.isFinite = true) :
    FP.le x y = decide (x.toRat ≤ y.toRat) := by
  obtain ⟨s, m, e, rfl⟩ := (FP.isFinite_iff x).mp hx
  obtain ⟨t, n, k, rfl⟩ := (FP.isFinite_iff y).mp hy
  rfl

theorem FP.abs_isFinite (x : FP) : (FP.abs x).isFinite = x.isFinite := by
  cases x <;> rfl

theorem FP.abs_toRat (x : FP) : (FP.abs x).toRat = |x.toRat| := by
  cases x with
  | nan => simp [FP.abs, FP.toRat]
  | inf s => simp [FP.abs, FP.toRat]
  | fin s m e =>
    rw [FP.abs_toRat_fin]
    simp [FP.abs, FP.toRat]

/-- Valid finite numbers are below the overflow threshold. -/
theorem FP.valid.abs_lt {F : Fmt} {x : FP} (h : x.valid F) :
    |x.toRat| < (2 : ℚ) ^ (F.emax + F.prec) := by
  cases x with
  | nan => simp [FP.toRat]; positivity
  | inf s => simp [FP.toRat]; positivity
  | fin s m e =>
    rw [FP.abs_toRat_fin]
    have h1 : (m : ℚ) < 2 ^ F.prec := by exact_mod_cast h.1
    calc (m : ℚ) * 2 ^ e < 2 ^ F.prec * 2 ^ e := mul_lt_mul_of_pos_right h1 (two_zpow_pos _)
      _ = 2 ^ (e + F.prec) := (two_zpow_add_nat _ _).symm
      _ ≤ 2 ^ (F.emax + F.prec) := two_zpow_le (by have := h.2.2.1; omega)

theorem zero_toRat : zero.toRat = 0 := by rw [zero_eq]; simp [FP.toRat]

theorem zero_isFinite : zero.isFinite = true := by rw [zero_eq]; rfl

theorem FP.add_fin_cases (F : Fmt) (x y : FP) (hx : x.isFinite = true) (hy : y.isFinite = true) :
    (∃ u, FP.add F x y = FP.inf u) ∨ (FP.add F x y).isFinite = true := by
  obtain ⟨s, m, e, rfl⟩ := (FP.isFinite_iff x).mp hx
  obtain ⟨t, n, k, rfl⟩ := (FP.isFinite_iff y).mp hy
  rw [FP.add_fin]
  split_ifs
  · right; rfl
  · unfold ofRat
    rcases round_sign F (decide ((FP.fin s m e).toRat + (FP.fin t n k).toRat < 0))
      |(FP.fin s m e).toRat + (FP.fin t n k).toRat| with h | ⟨m', e', h⟩
    · left; exact ⟨_, h⟩
    · right; rw [h]; rfl

theorem rne_eq_of_lt_half (y : ℚ) (n : ℤ) (h1 : (n : ℚ) ≤ y) (h2 : y < n + 1 / 2) :
    rne y = n := by
  have hf : ⌊y⌋ = n := Int.floor_eq_iff.mpr ⟨h1, by linarith⟩
  unfold rne
  simp only [hf]
  rw [if_pos (by linarith)]

theorem rne_eq_succ_of_half_lt (y : ℚ) (n : ℤ) (h1 : (n : ℚ) + 1 / 2 < y) (h2 : y < n + 1) :
    rne y = n + 1 := by
  have hf : ⌊y⌋ = n := Int.floor_eq_iff.mpr ⟨by linarith, h2⟩
  unfold rne
  simp only [hf]
  rw [if_neg (by linarith), if_pos (by linarith)]

theorem rne_tie (n : ℤ) : rne ((n : ℚ) + 1 / 2) = if n % 2 = 0 then n else n + 1 := by
  have hf : ⌊(n : ℚ) + 1 / 2⌋ = n := Int.floor_eq_iff.mpr ⟨by linarith, by linarith⟩
  unfold rne
  simp only [hf]
  rw [if_neg (by linarith), if_neg (by linarith)]

theorem lsbExp_of_binade (F : Fmt) (v : ℚ) (j : ℤ) (h1 : (2 : ℚ) ^ j ≤ v)
    (h2 : v < (2 : ℚ) ^ (j + 1)) : lsbExp F v = max (j + 1 - F.prec) F.emin := by
  unfold lsbExp; rw [ilog2_eq v j h1 h2]

theorem rep_of_nat_mul_zpow (F : Fmt) (M : ℕ) (k : ℤ) (hM : M < 2 ^ F.prec) (hk : F.emin ≤ k) :
    Rep F ((M : ℚ) * 2 ^ k) :=
  ⟨M, k, hM, hk, abs_of_nonneg (mul_nonneg (Nat.cast_nonneg M) (two_zpow_pos k).le)⟩

theorem rep_one_binary64 : Rep binary64 1 := by
  have := rep_of_nat_mul_zpow binary64 1 0 (by decide) (by decide)
  simpa using this

/-- The difference of a finite number `± m * 2^e`, `e < 0`, and an integer is an integral
multiple of `2^e`. -/
theorem sub_int_eq (s : Bool) (m : ℕ) (e : ℤ) (he : e < 0) (z : ℤ) :
    ∃ N : ℤ, (FP.fin s m e).toRat - z = (N : ℚ) * 2 ^ e := by
  obtain ⟨d, hd⟩ : ∃ d : ℕ, e = -(d : ℤ) := ⟨(-e).toNat, by omega⟩
  refine ⟨(if s then -1 else 1) * (m : ℤ) - z * 2 ^ d, ?_⟩
  have h2 : (2 : ℚ) ^ d * 2 ^ e = 1 := by
    rw [hd, zpow_neg, zpow_natCast]; field_simp
  rw [FP.toRat_fin]
  push_cast
  have : (z : ℚ) = z * ((2 : ℚ) ^ d * 2 ^ e) := by rw [h2, mul_one]
  rw [sub_mul, mul_assoc (z : ℚ), ← this]
  cases s <;> simp [sgn]

/-- Below `1 - 2^-54` the rounding to binary64 stays below `1`. -/
theorem fl_lt_one (v : ℚ) (h0 : 0 ≤ v) (h : v < 1 - 2 ^ (-54 : ℤ)) : fl binary64 v < 1 := by
  rcases lt_or_le v (1 / 2) with hv | hv
  · have hrep : Rep binary64 (1 / 2) := by
      have := rep_of_nat_mul_zpow binary64 1 (-1) (by decide) (by decide)
      norm_num at this; simpa using this
    have := fl_le_of_le binary64 binary64_wf v (1 / 2) hrep hv.le
    linarith
  · have hE : lsbExp binary64 v = -53 := by
      rw [lsbExp_of_binade binary64 v (-1) (by norm_num; linarith) (by norm_num at h ⊢; linarith)]
      decide
    have := fl_abs_sub_le binary64 v
    rw [abs_of_nonneg h0, hE, abs_le] at this
    norm_num at this h
    linarith [this.2]

/-- From `1 - 2^-54` up to `1` the rounding to binary64 is `1`. -/
theorem fl_eq_one (v : ℚ) (h1 : 1 - 2 ^ (-54 : ℤ) ≤ v) (h2 : v < 1) : fl binary64 v = 1 := by
  have h0 : 0 ≤ v := by norm_num at h1; linarith
  have hE : lsbExp binary64 v = -53 := by
    rw [lsbExp_of_binade binary64 v (-1) (by norm_num at h1 ⊢; linarith) (by norm_num; linarith)]
    decide
  rw [fl_of_nonneg binary64 v h0, roundVal, hE]
  have hy : rne (v / 2 ^ (-53 : ℤ)) = ((2 ^ 53 - 1 : ℤ)) + 1 := by
    rcases h1.eq_or_lt with heq | hlt
    · have : v / 2 ^ (-53 : ℤ) = ((2 ^ 53 - 1 : ℤ) : ℚ) + 1 / 2 := by
        rw [← heq]; norm_num
      rw [this, rne_tie, if_neg (by decide)]
    · apply rne_eq_succ_of_half_lt
      · norm_num at hlt ⊢; linarith
      · norm_num; linarith
  rw [hy]
  norm_num

/-! ### Multiplication -/

theorem sgn_xor (s t : Bool) : sgn (xor s t) = sgn s * sgn t := by
  cases s <;> cases t <;> simp [sgn]

theorem sgn_mul_fl (F : Fmt) (s : Bool) (v : ℚ) : sgn s * fl F v = fl F (sgn s * v) := by
  cases s
  · simp [sgn]
  · simp only [sgn, if_true]; rw [neg_one_mul, neg_one_mul, fl_neg]

theorem FP.toRat_eq_sgn_abs (s : Bool) (m : ℕ) (e : ℤ) :
    (FP.fin s m e).toRat = sgn s * |(FP.fin s m e).toRat| := by
  rw [FP.abs_toRat_fin, FP.toRat_fin]

theorem FP.mul_fin (F : Fmt) (s : Bool) (m : ℕ) (e : ℤ) (t : Bool) (n : ℕ) (k : ℤ) :
    FP.mul F (FP.fin s m e) (FP.fin t n k) =
      round F (xor s t) (|(FP.fin s m e).toRat| * |(FP.fin t n k).toRat|) := rfl

theorem FP.mul_isFinite_iff (F : Fmt) (hF : F.wf) (x y : FP) (hx : x.isFinite = true)
    (hy : y.isFinite = true) :
    (FP.mul F x y).isFinite = true ↔ |fl F (x.toRat * y.toRat)| < (2 : ℚ) ^ (F.emax + F.prec) := by
  obtain ⟨s, m, e, rfl⟩ := (FP.isFinite_iff x).mp hx
  obtain ⟨t, n, k, rfl⟩ := (FP.isFinite_iff y).mp hy
  rw [FP.mul_fin, round_isFinite_iff F hF _ _ (mul_nonneg (abs_nonneg _) (abs_nonneg _)),
    abs_fl, abs_mul]

theorem FP.mul_toRat (F : Fmt) (hF : F.wf) (x y : FP) (hx : x.isFinite = true)
    (hy : y.isFinite = true) (hfin : (FP.mul F x y).isFinite = true) :
    (FP.mul F x y).toRat = fl F (x.toRat * y.toRat) := by
  obtain ⟨s, m, e, rfl⟩ := (FP.isFinite_iff x).mp hx
  obtain ⟨t, n, k, rfl⟩ := (FP.isFinite_iff y).mp hy
  rw [FP.mul_fin] at hfin ⊢
  rw [round_toRat F hF _ _ (mul_nonneg (abs_nonneg _) (abs_nonneg _)) hfin, sgn_mul_fl, sgn_xor]
  congr 1
  rw [FP.toRat_eq_sgn_abs s m e, FP.toRat_eq_sgn_abs t n k, abs_mul, abs_mul, abs_abs, abs_abs]
  have h1 : |sgn s| = 1 := by cases s <;> simp [sgn]
  have h2 : |sgn t| = 1 := by cases t <;> simp [sgn]
  rw [h1, h2]; ring

theorem FP.mul_valid (F : Fmt) (hF : F.wf) (x y : FP) : (FP.mul F x y).valid F := by
  cases x with
  | nan => cases y <;> trivial
  | inf s =>
    cases y with
    | nan => trivial
    | inf t => trivial
    | fin t n k =>
      show (if n = 0 then FP.nan else FP.inf (xor s t)).valid F
      split_ifs <;> trivial
  | fin s m e =>
    cases y with
    | nan => trivial
    | inf t =>
      show (if m = 0 then FP.nan else FP.inf (xor s t)).valid F
      split_ifs <;> trivial
    | fin t n k =>
      rw [FP.mul_fin]
      exact round_valid F hF _ _ (mul_nonneg (abs_nonneg _) (abs_nonneg _))

/-! ### Error of a rounding -/

theorem ilog2_lt_of_lt (v : ℚ) (hv : 0 < v) (j : ℤ) (h : v < (2 : ℚ) ^ j) : ilog2 v < j := by
  by_contra hge
  push_neg at hge
  have := (ilog2_spec v hv).1
  have := two_zpow_le hge
  linarith

theorem le_ilog2_of_le (v : ℚ) (hv : 0 < v) (j : ℤ) (h : (2 : ℚ) ^ j ≤ v) : j ≤ ilog2 v := by
  by_contra hlt
  push_neg at hlt
  have := (ilog2_spec v hv).2
  have : (2 : ℚ) ^ (ilog2 v + 1) ≤ 2 ^ j := two_zpow_le (by omega)
  linarith

/-- Below `2^(j+1)` a rounding errs by at most half a unit in the last place of the binade
of `2^j`. -/
theorem fl_err_le (F : Fmt) (v : ℚ) (j : ℤ) (hv : |v| < (2 : ℚ) ^ (j + 1)) :
    |fl F v - v| ≤ 2 ^ (max (j + 1 - F.prec) F.emin) / 2 := by
  rcases eq_or_ne v 0 with h0 | h0
  · subst h0; rw [fl_zero]; simp; positivity
  · have hpos : 0 < |v| := abs_pos.mpr h0
    have h1 := ilog2_lt_of_lt |v| hpos (j + 1) hv
    have h2 : lsbExp F |v| ≤ max (j + 1 - F.prec) F.emin := by
      unfold lsbExp
      exact max_le_max (by omega) le_rfl
    have h3 := fl_abs_sub_le F v
    have h4 : (2 : ℚ) ^ lsbExp F |v| ≤ 2 ^ (max (j + 1 - F.prec) F.emin) := two_zpow_le h2
    linarith

/-- In the binade of `2^j` a rounding is an integral multiple of the unit in the last
place. -/
theorem fl_grid (F : Fmt) (v : ℚ) (j : ℤ) (h1 : (2 : ℚ) ^ j ≤ v) (h2 : v < (2 : ℚ) ^ (j + 1)) :
    ∃ z : ℤ, fl F v = z * 2 ^ (max (j + 1 - F.prec) F.emin) := by
  have hv : 0 ≤ v := le_trans (two_zpow_pos j).le h1
  refine ⟨rne (v / 2 ^ lsbExp F v), ?_⟩
  rw [fl_of_nonneg F v hv, roundVal, lsbExp_of_binade F v j h1 h2]

/-- A valid finite number of magnitude at least `2^j` is an integral multiple of the unit in
the last place of that binade. -/
theorem FP.valid.grid {F : Fmt} {s : Bool} {m : ℕ} {e : ℤ} (h : (FP.fin s m e).valid F) (j : ℤ)
    (hj : (2 : ℚ) ^ j ≤ (m : ℚ) * 2 ^ e) :
    ∃ z : ℤ, (m : ℚ) * 2 ^ e = z * 2 ^ (j + 1 - F.prec) := by
  have hm : (m : ℚ) < 2 ^ F.prec := by exact_mod_cast h.1
  have hlt : (2 : ℚ) ^ j < 2 ^ (e + F.prec) := by
    rw [two_zpow_add_nat]
    exact hj.trans_lt (mul_lt_mul_of_pos_right hm (two_zpow_pos _))
  have he : j + 1 - F.prec ≤ e := by
    by_contra hcon
    push_neg at hcon
    have : (2 : ℚ) ^ (e + F.prec) ≤ 2 ^ j := two_zpow_le (by omega)
    linarith
  obtain ⟨d, hd⟩ : ∃ d : ℕ, e = (j + 1 - F.prec) + d := ⟨(e - (j + 1 - F.prec)).toNat, by omega⟩
  refine ⟨(m * 2 ^ d : ℕ), ?_⟩
  rw [hd, two_zpow_add_nat]
  push_cast
  ring

/-! ### The degree round trip -/

theorem deg_to_rad_const :
    FP.div binary32 (FP.cvt binary32 k_pi) f180 = FP.fin false 9370165 (-29) := by decide!

theorem rad_to_deg_const :
    FP.div binary32 f180 (FP.cvt binary32 k_pi) = FP.fin false 15019744 (-18) := by decide!

/-- An integer multiple of `u > 0` that is below `(n + 1) * u` in magnitude is at most
`n * u` in magnitude. -/
theorem abs_int_mul_le (Z : ℤ) (n : ℕ) (u x : ℚ) (hu : 0 < u) (hx : x = Z * u)
    (h : |x| < (n + 1 : ℕ) * u) : |x| ≤ n * u := by
  rw [hx, abs_mul, abs_of_pos hu] at h ⊢
  have h1 : |(Z : ℚ)| < (n + 1 : ℕ) := lt_of_mul_lt_mul_right h hu.le
  have h2 : |Z| < (n + 1 : ℕ) := by
    have : ((|Z| : ℤ) : ℚ) < ((n + 1 : ℕ) : ℤ) := by push_cast; push_cast at h1; exact h1
    exact_mod_cast this
  have h3 : |Z| ≤ (n : ℤ) := by push_cast at h2; omega
  have h4 : |(Z : ℚ)| ≤ n := by
    have : ((|Z| : ℤ) : ℚ) ≤ ((n : ℤ) : ℚ) := by exact_mod_cast h3
    push_cast at this; exact this
  exact mul_le_mul_of_nonneg_right h4 hu.le

/-- Error analysis of `d ↦ fl(fl(d * c₁) * c₂)` on the binary32 numbers `0 ≤ a ≤ 114.5`, with
`c₁ = 9370165 * 2^-29` and `c₂ = 15019744 * 2^-18` the two conversion factors. -/
theorem deg_roundtrip_core (a : ℚ) (ha0 : 0 ≤ a) (ha : a ≤ 229 / 2)
    (hgrid : ∀ j : ℤ, (2 : ℚ) ^ j ≤ a → ∃ z : ℤ, a = z * 2 ^ (j + 1 - 24)) :
    |fl binary32 (fl binary32 (a * (9370165 / 2 ^ 29)) * (15019744 / 2 ^ 18)) - a| <
      1 / 100000 := by
  have hv1 : 0 ≤ a * (9370165 / 2 ^ 29 : ℚ) := by positivity
  have hr1 := fl_nonneg binary32 _ hv1
  have he1 := fl_err_le binary32 (a * (9370165 / 2 ^ 29)) 0
    (by rw [abs_of_nonneg hv1]; norm_num; linarith)
  rw [show max ((0 : ℤ) + 1 - (binary32.prec : ℤ)) binary32.emin = -23 by decide, abs_le] at he1
  generalize fl binary32 (a * (9370165 / 2 ^ 29)) = r1 at *
  norm_num at he1
  have hv2 : 0 ≤ r1 * (15019744 / 2 ^ 18 : ℚ) := by positivity
  have hr2 := fl_nonneg binary32 _ hv2
  rcases lt_or_le (r1 * (15019744 / 2 ^ 18 : ℚ)) 64 with h64 | h64
  · have he2 := fl_err_le binary32 (r1 * (15019744 / 2 ^ 18)) 5
      (by rw [abs_of_nonneg hv2]; norm_num; linarith)
    rw [show max ((5 : ℤ) + 1 - (binary32.prec : ℤ)) binary32.emin = -18 by decide, abs_le] at he2
    generalize fl binary32 (r1 * (15019744 / 2 ^ 18)) = r2 at *
    norm_num at he2 h64
    rw [abs_lt]
    constructor <;> linarith [he1.1, he1.2, he2.1, he2.2]
  · have h128 : r1 * (15019744 / 2 ^ 18 : ℚ) < 128 := by linarith [he1.2]
    have he2 := fl_err_le binary32 (r1 * (15019744 / 2 ^ 18)) 6
      (by rw [abs_of_nonneg hv2]; norm_num; linarith)
    rw [show max ((6 : ℤ) + 1 - (binary32.prec : ℤ)) binary32.emin = -17 by decide, abs_le] at he2
    obtain ⟨z, hz⟩ := fl_grid binary32 (r1 * (15019744 / 2 ^ 18)) 6 (by norm_num; linarith)
      (by norm_num; linarith)
    rw [show max ((6 : ℤ) + 1 - (binary32.prec : ℤ)) binary32.emin = -17 by decide] at hz
    generalize fl binary32 (r1 * (15019744 / 2 ^ 18)) = r2 at *
    norm_num at he2 h64 h128
    have ha32 : (32 : ℚ) ≤ a := by linarith [he1.1, he1.2]
    rcases lt_or_le a 64 with ha64 | ha64
    · obtain ⟨A, hA⟩ := hgrid 5 (by norm_num; linarith)
      have hx : r2 - a = ((2 * z - A : ℤ) : ℚ) * (1 / 262144) := by
        rw [hz, hA]; push_cast; norm_num; ring
      have hb : |r2 - a| < ((2 + 1 : ℕ) : ℚ) * (1 / 262144) := by
        rw [abs_lt]; norm_num
        constructor <;> linarith [he1.1, he1.2, he2.1, he2.2]
      have := abs_int_mul_le _ 2 _ _ (by norm_num) hx hb
      norm_num at this ⊢
      linarith
    · obtain ⟨A, hA⟩ := hgrid 6 (by norm_num; linarith)
      have hx : r2 - a = ((z - A : ℤ) : ℚ) * (1 / 131072) := by
        rw [hz, hA]; push_cast; norm_num; ring
      have hb : |r2 - a| < ((1 + 1 : ℕ) : ℚ) * (1 / 131072) := by
        rw [abs_lt]; norm_num
        constructor <;> linarith [he1.1, he1.2, he2.1, he2.2]
      have := abs_int_mul_le _ 1 _ _ (by norm_num) hx hb
      norm_num at this ⊢
      linarith

theorem rep_of_nat_binary32 (n : ℕ) (hn : n < 2 ^ 24) : Rep binary32 (n : ℚ) := by
  have := rep_of_nat_mul_zpow binary32 n 0 hn (by decide)
  simpa using this

/-! ### Conversions between integers and doubles -/

/-- At `INT64_MAX = 2^63 - 1` for `int64_t`, `double(input)` is `2^63`, which differs from the
input and is not a value of `int64_t`: C++ gives the conversion back inside the assertion no
defined result, so no double is returned and the evaluation of the assertion is undefined;
likewise for `uint64_t` at `UINT64_MAX = 2^64 - 1`, whose double is `2^64`. -/
theorem scalar_safe_to_double_int64_max :
    (IntegralType.mk true 64).holds (2 ^ 63 - 1) ∧
      ofInt binary64 (2 ^ 63 - 1) = FP.fin false (2 ^ 52) 11 ∧
      (ofInt binary64 (2 ^ 63 - 1)).toRat = 2 ^ 63 ∧
      toIntegral (IntegralType.mk true 64) (ofInt binary64 (2 ^ 63 - 1)) = none ∧
      scalar_safe_to_double (IntegralType.mk true 64) (2 ^ 63 - 1) = Outcome.undefined ∧
      (IntegralType.mk false 64).holds (2 ^ 64 - 1) ∧
      scalar_safe_to_double (IntegralType.mk false 64) (2 ^ 64 - 1) = Outcome.undefined := by
  decide!

/-! ### Rounding to the nearest integer -/

theorem floor_intCast_add_half (z : ℤ) : ⌊(z : ℚ) + 1 / 2⌋ = z :=
  Int.floor_eq_iff.mpr ⟨by linarith, by linarith⟩

/-- Bounds on the significand of a normal binary64 number. -/
theorem significand_bounds (m : ℕ) (e : ℤ) (hv : (FP.fin false m e).valid binary64)
    (he : e ≠ -1074) : (2 : ℚ) ^ 52 ≤ m ∧ (m : ℚ) + 1 ≤ 2 ^ 53 := by
  obtain ⟨hm, -, -, hcan⟩ := hv
  have hm52 : 2 ^ 52 ≤ m := by
    rcases hcan with h | h
    · exact absurd h he
    · exact h
  have hm53 : m + 1 ≤ 2 ^ 53 := hm
  exact ⟨by exact_mod_cast hm52, by exact_mod_cast hm53⟩

/-- Adding `0.5` to a double of exponent `e ≥ 1` (an even integer of magnitude at least
`2^53`) rounds back to it. -/
theorem fl_add_half_big (m : ℕ) (e : ℤ) (hv : (FP.fin false m e).valid binary64) (he : 1 ≤ e) :
    fl binary64 ((m : ℚ) * 2 ^ e + 1 / 2) = (m : ℚ) * 2 ^ e := by
  obtain ⟨hmq2, hmq⟩ := significand_bounds m e hv (by omega)
  have hpos := two_zpow_pos e
  have h2e : (2 : ℚ) ≤ 2 ^ e := by
    have : (2 : ℚ) ^ (1 : ℤ) ≤ 2 ^ e := two_zpow_le he
    simpa using this
  have hb1 : (2 : ℚ) ^ (52 + e) ≤ (m : ℚ) * 2 ^ e + 1 / 2 := by
    rw [zpow_add₀ (by norm_num)]
    have : (2 : ℚ) ^ (52 : ℤ) * 2 ^ e ≤ m * 2 ^ e :=
      mul_le_mul_of_nonneg_right (by exact_mod_cast hmq2) hpos.le
    linarith
  have hb2 : (m : ℚ) * 2 ^ e + 1 / 2 < (2 : ℚ) ^ (52 + e + 1) := by
    rw [show (52 : ℤ) + e + 1 = 53 + e by ring, zpow_add₀ (by norm_num)]
    have h53 : (2 : ℚ) ^ (53 : ℤ) = 2 ^ 53 := by norm_num
    rw [h53]
    nlinarith
  have hv0 : (0 : ℚ) ≤ (m : ℚ) * 2 ^ e + 1 / 2 := by positivity
  have hE : lsbExp binary64 ((m : ℚ) * 2 ^ e + 1 / 2) = e := by
    rw [lsbExp_of_binade binary64 _ (52 + e) hb1 hb2]
    simp only [binary64]
    omega
  rw [fl_of_nonneg _ _ hv0, roundVal, hE]
  have hy : ((m : ℚ) * 2 ^ e + 1 / 2) / 2 ^ e = m + 1 / 2 / 2 ^ e := by
    field_simp
    ring
  have hsmall : (1 : ℚ) / 2 / 2 ^ e < 1 / 2 := by
    rw [div_lt_iff₀ hpos]; linarith
  have hsmall0 : (0 : ℚ) ≤ 1 / 2 / 2 ^ e := by positivity
  rw [hy, rne_eq_of_lt_half _ (m : ℤ) (by push_cast; linarith) (by push_cast; linarith)]
  push_cast
  ring

/-- Adding `0.5` to an even integer double of exponent `0` (magnitude in `[2^52, 2^53)`) is a
tie that rounds back to it. -/
theorem fl_add_half_even (m : ℕ) (hv : (FP.fin false m 0).valid binary64) (hm2 : m % 2 = 0) :
    fl binary64 ((m : ℚ) + 1 / 2) = m := by
  obtain ⟨hmq2, hmq⟩ := significand_bounds m 0 hv (by omega)
  have hE : lsbExp binary64 ((m : ℚ) + 1 / 2) = 0 := by
    rw [lsbExp_of_binade binary64 _ 52
      (by rw [show ((52 : ℤ)) = ((52 : ℕ) : ℤ) by rfl, zpow_natCast]; linarith)
      (by rw [show ((52 : ℤ) + 1) = ((53 : ℕ) : ℤ) by rfl, zpow_natCast]; linarith)]
    decide
  rw [fl_of_nonneg _ _ (by positivity), roundVal, hE]
  have : ((m : ℚ) + 1 / 2) / 2 ^ (0 : ℤ) = ((m : ℤ) : ℚ) + 1 / 2 := by simp
  rw [this, rne_tie, if_pos (by omega)]
  simp

/-- Adding `0.5` to a non-negative double below `2^52` (exponent `e ≤ -1`), the double just
below `0.5` apart, does not change the integer part: the rounded sum lies in the same unit
interval as the exact sum. -/
theorem fl_add_half_small (m : ℕ) (e : ℤ) (hv : (FP.fin false m e).valid binary64)
    (he : e ≤ -1) (hne : ¬(e = -54 ∧ m = 2 ^ 53 - 1)) :
    ((⌊(m : ℚ) * 2 ^ e + 1 / 2⌋ : ℤ) : ℚ) ≤ fl binary64 ((m : ℚ) * 2 ^ e + 1 / 2) ∧
      fl binary64 ((m : ℚ) * 2 ^ e + 1 / 2) < (⌊(m : ℚ) * 2 ^ e + 1 / 2⌋ : ℤ) + 1 := by
  have hm : m < 2 ^ 53 := hv.1
  have hemin : -1074 ≤ e := hv.2.1
  have hmq : (m : ℚ) + 1 ≤ 2 ^ 53 := by exact_mod_cast (show m + 1 ≤ 2 ^ 53 from hm)
  have hpos := two_zpow_pos e
  have ha0 : (0 : ℚ) ≤ (m : ℚ) * 2 ^ e := by positivity
  have haB : (m : ℚ) * 2 ^ e < 2 ^ (e + 53) := by
    rw [show e + 53 = e + ((53 : ℕ) : ℤ) by rfl, two_zpow_add_nat]
    exact mul_lt_mul_of_pos_right (by linarith) hpos
  have hB52 : (2 : ℚ) ^ (e + 53) ≤ 2 ^ 52 := by
    have : (2 : ℚ) ^ (e + 53) ≤ 2 ^ (52 : ℤ) := two_zpow_le (by omega)
    rw [show ((52 : ℤ)) = ((52 : ℕ) : ℤ) by rfl, zpow_natCast] at this
    exact this
  obtain ⟨v, hvdef⟩ : ∃ v : ℚ, v = (m : ℚ) * 2 ^ e + 1 / 2 := ⟨_, rfl⟩
  rw [← hvdef]
  have hv0 : 0 ≤ v := by rw [hvdef]; positivity
  have hvlt : v < 2 ^ 52 + 1 / 2 := by linarith
  have hn1 : ((⌊v⌋ : ℤ) : ℚ) ≤ v := Int.floor_le v
  have hn2 : v < (⌊v⌋ : ℤ) + 1 := Int.lt_floor_add_one v
  have hn0 : 0 ≤ ⌊v⌋ := Int.floor_nonneg.mpr hv0
  -- the integer part is a number of the format
  obtain ⟨N, hN⟩ : ∃ N : ℕ, ⌊v⌋ = N := ⟨_, (Int.toNat_of_nonneg hn0).symm⟩
  have hNle : N ≤ 2 ^ 52 := by
    have h1 : ((N : ℤ) : ℚ) < 2 ^ 52 + 1 / 2 := by rw [← hN]; linarith
    have h2 : ((N : ℤ) : ℚ) < ((2 ^ 52 + 1 : ℤ) : ℚ) := by push_cast at h1 ⊢; linarith
    have h3 : (N : ℤ) < 2 ^ 52 + 1 := by exact_mod_cast h2
    omega
  have hrepN : Rep binary64 ((⌊v⌋ : ℤ) : ℚ) := by
    have := rep_of_nat_mul_zpow binary64 N 0 (by simp only [binary64]; omega) (by decide)
    rw [hN]; simpa using this
  refine ⟨le_fl_of_le binary64 binary64_wf v _ hrepN hn1, ?_⟩
  -- upper bound
  by_cases he54 : e ≤ -54
  · have hvone : v < 1 - 2 ^ (-54 : ℤ) := by
      by_cases he55 : e ≤ -55
      · have h1 : (2 : ℚ) ^ (e + 53) ≤ 1 / 4 := by
          have : (2 : ℚ) ^ (e + 53) ≤ 2 ^ (-2 : ℤ) := two_zpow_le (by omega)
          have h2 : (2 : ℚ) ^ (-2 : ℤ) = 1 / 4 := by norm_num
          rw [h2] at this; exact this
        have h3 : (2 : ℚ) ^ (-54 : ℤ) = 1 / 18014398509481984 := by norm_num
        rw [h3]
        linarith
      · have he' : e = -54 := by omega
        subst he'
        have hm2 : m + 2 ≤ 2 ^ 53 := by omega
        have hmq2 : (m : ℚ) + 2 ≤ 2 ^ 53 := by exact_mod_cast hm2
        have h2 : (2 : ℚ) ^ (-54 : ℤ) = 1 / 2 ^ 54 := by norm_num
        rw [hvdef, h2]
        have : (m : ℚ) * (1 / 2 ^ 54) ≤ (2 ^ 53 - 2) * (1 / 2 ^ 54) :=
          mul_le_mul_of_nonneg_right (by linarith) (by positivity)
        norm_num at this ⊢
        linarith
    have := fl_lt_one v hv0 hvone
    have : (0 : ℚ) ≤ (⌊v⌋ : ℤ) := by exact_mod_cast hn0
    linarith
  · push_neg at he54
    by_cases he1 : e = -1
    · subst he1
      have hrep : Rep binary64 v := by
        have hveq : v = ((m + 1 : ℕ) : ℚ) * 2 ^ (-1 : ℤ) := by
          rw [hvdef]; push_cast; norm_num; ring
        by_cases hm1 : m + 1 < 2 ^ 53
        · rw [hveq]
          exact rep_of_nat_mul_zpow binary64 (m + 1) (-1) hm1 (by decide)
        · have hm' : m + 1 = 2 ^ 53 := by omega
          have := rep_of_nat_mul_zpow binary64 (2 ^ 52) 0 (by decide) (by decide)
          rw [hveq, hm']
          norm_num at this ⊢
          exact this
      rw [fl_exact binary64 binary64_wf v hrep]
      exact hn2
    · have he2 : e ≤ -2 := by omega
      obtain ⟨d, hd⟩ : ∃ d : ℕ, e = -((d : ℤ) + 2) := ⟨(-e - 2).toNat, by omega⟩
      have h2d : (2 : ℚ) ^ e * 2 ^ (d + 2) = 1 := by
        rw [hd, zpow_neg, ← zpow_natCast]; push_cast; field_simp
      -- the gap to the next integer is a positive multiple of `2^e`
      have hgap : (2 : ℚ) ^ e ≤ (⌊v⌋ : ℤ) + 1 - v := by
        have hK : ((⌊v⌋ : ℤ) : ℚ) + 1 - v =
            (((⌊v⌋ + 1) * 2 ^ (d + 2) - m - 2 ^ (d + 1) : ℤ) : ℚ) * 2 ^ e := by
          push_cast
          have : (2 : ℚ) ^ (d + 1) * 2 ^ e = 1 / 2 := by
            have : (2 : ℚ) ^ (d + 2) = 2 ^ (d + 1) * 2 := by ring
            rw [this] at h2d
            linarith
          linear_combination (-(⌊v⌋ : ℚ) - 1) * h2d + this - hvdef
        have hKpos : (0 : ℚ) < (((⌊v⌋ + 1) * 2 ^ (d + 2) - m - 2 ^ (d + 1) : ℤ) : ℚ) := by
          have : (0 : ℚ) < ((⌊v⌋ : ℤ) : ℚ) + 1 - v := by linarith
          rw [hK] at this
          exact (mul_pos_iff_of_pos_right hpos).mp this
        have hK1 : (1 : ℚ) ≤ (((⌊v⌋ + 1) * 2 ^ (d + 2) - m - 2 ^ (d + 1) : ℤ) : ℚ) := by
          have : (0 : ℤ) < (⌊v⌋ + 1) * 2 ^ (d + 2) - m - 2 ^ (d + 1) := by exact_mod_cast hKpos
          exact_mod_cast (show (1 : ℤ) ≤ _ from this)
        rw [hK]
        calc (2 : ℚ) ^ e = 1 * 2 ^ e := (one_mul _).symm
          _ ≤ _ := mul_le_mul_of_nonneg_right hK1 hpos.le
      by_cases hvB : v < 2 ^ (e + 53)
      · have herr := fl_err_le binary64 v (e + 52)
          (by rw [abs_of_nonneg hv0, show e + 52 + 1 = e + 53 by ring]; exact hvB)
        have hmax : max (e + 52 + 1 - (binary64.prec : ℤ)) binary64.emin = e := by
          simp only [binary64]; omega
        rw [hmax, abs_le] at herr
        linarith [herr.2]
      · push_neg at hvB
        obtain ⟨k, hk⟩ : ∃ k : ℕ, e + 53 = k := ⟨(e + 53).toNat, by omega⟩
        have hk51 : k ≤ 51 := by omega
        rw [hk, zpow_natCast] at hvB haB
        have hBn : ((2 ^ k : ℕ) : ℤ) ≤ ⌊v⌋ := Int.le_floor.mpr (by push_cast; exact hvB)
        have hBnq : ((2 : ℚ) ^ k) ≤ (⌊v⌋ : ℤ) := by exact_mod_cast hBn
        have hrep : Rep binary64 ((2 : ℚ) ^ k + 1 / 2) := by
          have hlt : 2 ^ (k + 1) + 1 < 2 ^ 53 := by
            have : 2 ^ (k + 1) ≤ 2 ^ 52 := Nat.pow_le_pow_right (by norm_num) (by omega)
            omega
          have := rep_of_nat_mul_zpow binary64 (2 ^ (k + 1) + 1) (-1) hlt (by decide)
          have heq : (((2 ^ (k + 1) + 1 : ℕ) : ℚ)) * 2 ^ (-1 : ℤ) = 2 ^ k + 1 / 2 := by
            push_cast; rw [pow_succ]; norm_num; ring
          rw [heq] at this
          exact this
        have := fl_le_of_le binary64 binary64_wf v _ hrep (by rw [hvdef]; linarith)
        linarith

/-- Adding `0.5` to a non-negative double and rounding keeps the integer part of the exact
sum, except at the double just below `0.5` and at the odd integers of `[2^52, 2^53)`. -/
theorem round_half_core (m : ℕ) (e : ℤ) (hv : (FP.fin false m e).valid binary64)
    (hne1 : ¬(e = -54 ∧ m = 2 ^ 53 - 1)) (hne2 : ¬(e = 0 ∧ m % 2 = 1)) :
    |fl binary64 ((m : ℚ) * 2 ^ e + 1 / 2)| < (2 : ℚ) ^ (binary64.emax + binary64.prec) ∧
      ⌊fl binary64 ((m : ℚ) * 2 ^ e + 1 / 2)⌋ = ⌊(m : ℚ) * 2 ^ e + 1 / 2⌋ := by
  have habs : |(m : ℚ) * 2 ^ e| < (2 : ℚ) ^ (binary64.emax + binary64.prec) := by
    have := hv.abs_lt
    rw [FP.abs_toRat_fin] at this
    rw [abs_of_nonneg (by positivity)]
    exact this
  have hint : 0 ≤ e → ∃ z : ℤ, (m : ℚ) * 2 ^ e = z := by
    intro he
    obtain ⟨z, hz⟩ := FP.toRat_eq_intCast false m e he
    rw [FP.toRat_fin, sgn_mul_nonneg_false] at hz
    exact ⟨z, hz⟩
  rcases lt_trichotomy e 0 with he | he | he
  · obtain ⟨h1, h2⟩ := fl_add_half_small m e hv (by omega) hne1
    have hfl0 : 0 ≤ fl binary64 ((m : ℚ) * 2 ^ e + 1 / 2) := fl_nonneg _ _ (by positivity)
    refine ⟨?_, Int.floor_eq_iff.mpr ⟨h1, h2⟩⟩
    rw [abs_of_nonneg hfl0]
    have hm : (m : ℚ) < 2 ^ 53 := by exact_mod_cast hv.1
    have h2e : (2 : ℚ) ^ e ≤ 1 := by
      have : (2 : ℚ) ^ e ≤ 2 ^ (0 : ℤ) := two_zpow_le he.le
      simpa using this
    have hpos := two_zpow_pos e
    have hfloor : ((⌊(m : ℚ) * 2 ^ e + 1 / 2⌋ : ℤ) : ℚ) ≤ (m : ℚ) * 2 ^ e + 1 / 2 :=
      Int.floor_le _
    have hprod : (m : ℚ) * 2 ^ e ≤ 2 ^ 53 := by nlinarith
    have hbig : (2 : ℚ) ^ 53 + 2 < (2 : ℚ) ^ (binary64.emax + binary64.prec) := by
      norm_num [binary64]
    linarith
  · subst he
    have hm2 : m % 2 = 0 := by
      have : ¬ m % 2 = 1 := fun h => hne2 ⟨rfl, h⟩
      omega
    have hfl := fl_add_half_even m hv hm2
    simp only [zpow_zero, mul_one] at habs ⊢
    rw [hfl]
    refine ⟨habs, ?_⟩
    have h1 : ⌊(m : ℚ)⌋ = (m : ℤ) := by exact_mod_cast Int.floor_intCast (m : ℤ)
    have h2 := floor_intCast_add_half (m : ℤ)
    push_cast at h2
    rw [h1, h2]
  · have hfl := fl_add_half_big m e hv (by omega)
    rw [hfl]
    refine ⟨habs, ?_⟩
    obtain ⟨z, hz⟩ := hint he.le
    rw [hz, Int.floor_intCast, floor_intCast_add_half]

theorem isRoundAway_floor_add_half (q : ℚ) (hq : 0 ≤ q) : IsRoundAway q ⌊q + 1 / 2⌋ := by
  have h1 := Int.floor_le (q + 1 / 2)
  have h2 := Int.lt_floor_add_one (q + 1 / 2)
  unfold IsRoundAway
  rcases h1.eq_or_lt with heq | hlt
  · right
    have hn : ((⌊q + 1 / 2⌋ : ℤ) : ℚ) = q + 1 / 2 := heq
    rw [hn]
    refine ⟨?_, ?_⟩
    · rw [show q - (q + 1 / 2) = -(1 / 2) by ring]; norm_num
    · rw [abs_of_nonneg hq, abs_of_nonneg (by linarith)]; linarith
  · left
    rw [abs_lt]; constructor <;> linarith

theorem isRoundAway_neg (q : ℚ) (n : ℤ) (h : IsRoundAway q n) : IsRoundAway (-q) (-n) := by
  unfold IsRoundAway at h ⊢
  have e1 : -q - ((-n : ℤ) : ℚ) = -(q - n) := by push_cast; ring
  have e2 : |((-n : ℤ) : ℚ)| = |(n : ℚ)| := by push_cast; exact abs_neg _
  rw [e1, abs_neg, abs_neg, e2]
  exact h

theorem FP.sub_valid (F : Fmt) (hF : F.wf) (x y : FP) : (FP.sub F x y).valid F :=
  FP.add_valid F hF x (FP.neg y)

theorem half_eq : half = FP.fin false (2 ^ 52) (-53) := by decide!

theorem half_toRat : half.toRat = 1 / 2 := by
  rw [half_eq, FP.toRat_fin]; norm_num [sgn]

/-! ### Further properties of comparisons, negation and magnitude -/

theorem FP.lt_of_lt_of_le {a b c : FP} (h1 : FP.lt a b = true) (h2 : FP.le b c = true) :
    FP.lt a c = true := by
  cases a with
  | nan => simp [FP.lt] at h1
  | inf s =>
    cases b with
    | nan => simp [FP.lt] at h1
    | inf t => cases c <;> cases s <;> cases t <;> simp_all [FP.le, FP.lt]
    | fin t n k => cases c <;> cases s <;> simp_all [FP.le, FP.lt]
  | fin s m e =>
    cases b with
    | nan => simp [FP.lt] at h1
    | inf t => cases c <;> cases t <;> simp_all [FP.le, FP.lt]
    | fin t n k =>
      cases c with
      | nan => simp [FP.le] at h2
      | inf u => cases u <;> simp_all [FP.le, FP.lt]
      | fin u p q =>
        simp only [FP.lt, decide_eq_true_eq] at h1 ⊢
        simp only [FP.le, decide_eq_true_eq] at h2
        exact h1.trans_le h2

theorem FP.not_nan_of_lt {a b : FP} (h : FP.lt a b = true) :
    a.isNaN = false ∧ b.isNaN = false := by
  cases a <;> cases b <;> simp_all [FP.lt, FP.isNaN]

theorem FP.abs_round (F : Fmt) (s : Bool) (v : ℚ) : FP.abs (round F s v) = round F false v := by
  unfold round overflow
  simp only
  split_ifs <;> rfl

theorem FP.neg_round (F : Fmt) (s : Bool) (v : ℚ) : FP.neg (round F s v) = round F (!s) v := by
  unfold round overflow
  simp only
  split_ifs <;> rfl

/-- The magnitude of a difference does not depend on the order of the operands. -/
theorem FP.abs_sub_comm (F : Fmt) (a b : FP) :
    FP.abs (FP.sub F a b) = FP.abs (FP.sub F b a) := by
  cases a with
  | nan => cases b <;> rfl
  | inf s =>
    cases b with
    | nan => rfl
    | inf t => cases s <;> cases t <;> rfl
    | fin t n k => rfl
  | fin s m e =>
    cases b with
    | nan => rfl
    | inf t => rfl
    | fin t n k =>
      unfold FP.sub
      simp only [FP.neg]
      rw [FP.add_fin, FP.add_fin]
      have h1 : (FP.fin (!t) n k).toRat = -(FP.fin t n k).toRat := FP.neg_toRat (FP.fin t n k)
      have h2 : (FP.fin (!s) m e).toRat = -(FP.fin s m e).toRat := FP.neg_toRat (FP.fin s m e)
      rw [h1, h2]
      have h3 : (FP.fin t n k).toRat + -(FP.fin s m e).toRat
          = -((FP.fin s m e).toRat + -(FP.fin t n k).toRat) := by ring
      rw [h3]
      generalize (FP.fin s m e).toRat + -(FP.fin t n k).toRat = v
      by_cases hv : v = 0
      · rw [if_pos hv, if_pos (by rw [hv, neg_zero])]
        rfl
      · rw [if_neg hv, if_neg (by rwa [neg_eq_zero])]
        unfold ofRat
        rw [FP.abs_round, FP.abs_round, abs_neg]

theorem FP.neg_neg (x : FP) : FP.neg (FP.neg x) = x := by
  cases x <;> simp [FP.neg]

theorem FP.neg_isNaN (x : FP) : (FP.neg x).isNaN = x.isNaN := by
  cases x <;> rfl

theorem FP.eq_self {a : FP} (ha : a.isNaN = false) : FP.eq a a = true := by
  cases a with
  | nan => simp [FP.isNaN] at ha
  | inf s => simp [FP.eq]
  | fin s m e => simp [FP.eq]

theorem round_isNaN (F : Fmt) (s : Bool) (v : ℚ) : (round F s v).isNaN = false := by
  rcases round_sign F s v with h | ⟨m, e, h⟩ <;> rw [h] <;> rfl

theorem ofRat_neg (F : Fmt) (w : ℚ) (hw : w ≠ 0) : ofRat F (-w) = FP.neg (ofRat F w) := by
  unfold ofRat
  rw [FP.neg_round, abs_neg]
  congr 1
  rcases lt_or_gt_of_ne hw with h | h
  · have h2 : ¬ (-w < 0) := by linarith
    simp [h, h2]
  · have h2 : ¬ (w < 0) := by linarith
    have h3 : -w < 0 := by linarith
    simp [h2, h]

/-- Negating both operands negates a sum that is not an exact zero. -/
theorem FP.add_neg_neg (F : Fmt) (x y : FP) (hx : x.isFinite = true) (hy : y.isFinite = true)
    (h : x.toRat + y.toRat ≠ 0) : FP.add F (FP.neg x) (FP.neg y) = FP.neg (FP.add F x y) := by
  obtain ⟨s, m, e, rfl⟩ := (FP.isFinite_iff x).mp hx
  obtain ⟨t, n, k, rfl⟩ := (FP.isFinite_iff y).mp hy
  have h1 : (FP.fin (!s) m e).toRat = -(FP.fin s m e).toRat := FP.neg_toRat (FP.fin s m e)
  have h2 : (FP.fin (!t) n k).toRat = -(FP.fin t n k).toRat := FP.neg_toRat (FP.fin t n k)
  show FP.add F (FP.fin (!s) m e) (FP.fin (!t) n k) = FP.neg (FP.add F (FP.fin s m e) (FP.fin t n k))
  rw [FP.add_fin, FP.add_fin, h1, h2, if_neg h,
    show -(FP.fin s m e).toRat + -(FP.fin t n k).toRat
      = -((FP.fin s m e).toRat + (FP.fin t n k).toRat) by ring,
    if_neg (by rwa [neg_eq_zero]), ofRat_neg F _ h]

theorem FP.add_isNaN_of_isFinite (F : Fmt) (x y : FP) (hx : x.isFinite = true)
    (hy : y.isFinite = true) : (FP.add F x y).isNaN = false := by
  rcases FP.add_fin_cases F x y hx hy with ⟨u, h⟩ | h
  · rw [h]; rfl
  · obtain ⟨s, m, e, h2⟩ := (FP.isFinite_iff _).mp h
    rw [h2]; rfl

/-- The ceiling of the opposite is the opposite of the floor. -/
theorem FP.ceil_neg (F : Fmt) (y : FP) : FP.ceil F (FP.neg y) = FP.neg (FP.floor F y) := by
  cases y with
  | nan => rfl
  | inf s => rfl
  | fin s m e =>
    show FP.ceil F (FP.fin (!s) m e) = FP.neg (FP.floor F (FP.fin s m e))
    by_cases he : 0 ≤ e
    · simp only [FP.ceil, FP.floor, if_pos he]; rfl
    · simp only [FP.ceil, FP.floor, if_neg he, Bool.not_not]
      rw [FP.neg_round]

/-- The floor of the opposite is the opposite of the ceiling. -/
theorem FP.floor_neg (F : Fmt) (y : FP) : FP.floor F (FP.neg y) = FP.neg (FP.ceil F y) := by
  have h := FP.ceil_neg F (FP.neg y)
  rw [FP.neg_neg] at h
  rw [h, FP.neg_neg]

theorem FP.floor_isNaN (F : Fmt) (y : FP) : (FP.floor F y).isNaN = y.isNaN := by
  cases y with
  | nan => rfl
  | inf s => rfl
  | fin s m e =>
    simp only [FP.floor]
    split_ifs
    · rfl
    · rw [round_isNaN]; rfl
    · rw [round_isNaN]; rfl

theorem FP.ceil_isNaN (F : Fmt) (y : FP) : (FP.ceil F y).isNaN = y.isNaN := by
  cases y with
  | nan => rfl
  | inf s => rfl
  | fin s m e =>
    simp only [FP.ceil]
    split_ifs
    · rfl
    · rw [round_isNaN]; rfl
    · rw [round_isNaN]; rfl

/-! ### Oddness of the symmetric rounding -/

theorem FP.ge_zero_of_isFinite {x : FP} (hx : x.isFinite = true) :
    FP.ge x zero = decide (0 ≤ x.toRat) := by
  unfold FP.ge
  rw [FP.le_of_isFinite zero_isFinite hx, zero_toRat]

/-- For a positive finite `x` the two signs take the two branches of `scalar_symmetric_round`,
and the results are opposite. -/
theorem symmetric_round_neg_of_pos (x : FP) (hx : x.isFinite = true) (hpos : 0 < x.toRat) :
    scalar_symmetric_round x = scalar_floor (FP.add binary64 x half) ∧
    scalar_symmetric_round (FP.neg x) = scalar_ceil (FP.sub binary64 (FP.neg x) half) ∧
    scalar_symmetric_round (FP.neg x) = FP.neg (scalar_symmetric_round x) := by
  have hnx : (FP.neg x).isFinite = true := by rw [FP.neg_isFinite]; exact hx
  have h1 : FP.ge x zero = true := by
    rw [FP.ge_zero_of_isFinite hx]; exact decide_eq_true hpos.le
  have h2 : FP.ge (FP.neg x) zero = false := by
    rw [FP.ge_zero_of_isFinite hnx, FP.neg_toRat]
    exact decide_eq_false (by linarith)
  have e1 : scalar_symmetric_round x = scalar_floor (FP.add binary64 x half) := by
    unfold scalar_symmetric_round; rw [if_pos h1]
  have e2 : scalar_symmetric_round (FP.neg x)
      = scalar_ceil (FP.sub binary64 (FP.neg x) half) := by
    unfold scalar_symmetric_round; rw [if_neg (by rw [h2]; simp)]
  refine ⟨e1, e2, ?_⟩
  rw [e2, e1]
  unfold FP.sub scalar_ceil scalar_floor
  rw [FP.add_neg_neg binary64 x half hx (by rw [half_eq]; rfl)
    (by rw [half_toRat]; linarith), FP.ceil_neg]

/-- For a negative finite `x` likewise. -/
theorem symmetric_round_neg_of_neg (x : FP) (hx : x.isFinite = true) (hneg : x.toRat < 0) :
    scalar_symmetric_round x = scalar_ceil (FP.sub binary64 x half) ∧
    scalar_symmetric_round (FP.neg x) = scalar_floor (FP.add binary64 (FP.neg x) half) ∧
    scalar_symmetric_round (FP.neg x) = FP.neg (scalar_symmetric_round x) := by
  have hnx : (FP.neg x).isFinite = true := by rw [FP.neg_isFinite]; exact hx
  have hp : 0 < (FP.neg x).toRat := by rw [FP.neg_toRat]; linarith
  obtain ⟨e1, e2, e3⟩ := symmetric_round_neg_of_pos (FP.neg x) hnx hp
  rw [FP.neg_neg] at e2 e3
  exact ⟨e2, e1, by rw [e3, FP.neg_neg]⟩

theorem symmetric_round_isNaN (x : FP) (hx : x.isFinite = true) :
    (scalar_symmetric_round x).isNaN = false := by
  unfold scalar_symmetric_round scalar_floor scalar_ceil FP.sub
  split_ifs
  · rw [FP.floor_isNaN]
    exact FP.add_isNaN_of_isFinite binary64 x half hx (by rw [half_eq]; rfl)
  · rw [FP.ceil_isNaN]
    exact FP.add_isNaN_of_isFinite binary64 x (FP.neg half) hx (by rw [half_eq]; rfl)

/-- Both zeros are rounded to `+0`. -/
theorem symmetric_round_zero (s : Bool) (e : ℤ) :
    scalar_symmetric_round (FP.fin s 0 e) = zero := by
  have h1 : FP.ge (FP.fin s 0 e) zero = true := by
    rw [FP.ge_zero_of_isFinite (x := FP.fin s 0 e) rfl, FP.toRat_fin]; simp
  unfold scalar_symmetric_round
  rw [if_pos h1, half_eq, FP.add_fin, FP.toRat_fin, ← half_eq, half_toRat]
  simp only [Nat.cast_zero, zero_mul, mul_zero, zero_add]
  rw [if_neg (by norm_num)]
  decide!

/-! ### The conversion constants and `π` -/

theorem k_pi_eq : k_pi = FP.fin false 7074237752028440 (-51) := by decide!

theorem k_pi_float : FP.cvt binary32 k_pi = FP.fin false 13176795 (-22) := by decide!

/-- The constant `k_pi` is the double nearest to `π`: it is within half a unit in the last
place, `2^-52`, of `π`. -/
theorem k_pi_near_pi : |((k_pi.toRat : ℚ) : ℝ) - Real.pi| < 1 / 2 ^ 52 := by
  have h : k_pi.toRat = 7074237752028440 / 2 ^ 51 := by
    rw [k_pi_eq, FP.toRat_fin]; simp [sgn]; norm_num
  rw [h, abs_lt]
  have h1 := Real.pi_gt_d20
  have h2 := Real.pi_lt_d20
  push_cast
  constructor <;> norm_num at h1 h2 ⊢ <;> linarith

/-- The multiplier `(float)k_pi / 180.0f` of `scalar_deg_to_rad` is the float nearest to
`π / 180`: it is within half a unit in the last place, `2^-30`. -/
theorem deg_to_rad_const_near :
    |(((FP.div binary32 (FP.cvt binary32 k_pi) f180).toRat : ℚ) : ℝ) - Real.pi / 180|
      < 1 / 2 ^ 30 := by
  have h : (FP.div binary32 (FP.cvt binary32 k_pi) f180).toRat = 9370165 / 2 ^ 29 := by
    rw [deg_to_rad_const, FP.toRat_fin]; simp [sgn]; norm_num
  rw [h, abs_lt]
  have h1 := Real.pi_gt_d20
  have h2 := Real.pi_lt_d20
  push_cast
  constructor <;> norm_num at h1 h2 ⊢ <;> linarith

/-- The multiplier `180.0f / (float)k_pi` of `scalar_rad_to_deg` is within one unit in the
last place, `2^-18`, of `180 / π` (it is the float just below the nearest one). -/
theorem rad_to_deg_const_near :
    |(((FP.div binary32 f180 (FP.cvt binary32 k_pi)).toRat : ℚ) : ℝ) - 180 / Real.pi|
      < 1 / 2 ^ 18 := by
  have h : (FP.div binary32 f180 (FP.cvt binary32 k_pi)).toRat = 15019744 / 2 ^ 18 := by
    rw [rad_to_deg_const, FP.toRat_fin]; simp [sgn]; norm_num
  have hpi : 0 < Real.pi := Real.pi_pos
  have h1 := Real.pi_gt_d20
  have h2 := Real.pi_lt_d20
  have k1 : 180 / Real.pi < (15019745 : ℝ) / 2 ^ 18 := by
    rw [div_lt_iff₀ hpi]
    norm_num at h1 h2 ⊢
    linarith
  have k2 : (15019744 : ℝ) / 2 ^ 18 < 180 / Real.pi := by
    rw [lt_div_iff₀ hpi]
    norm_num at h1 h2 ⊢
    linarith
  rw [h, abs_lt]
  push_cast
  constructor <;> norm_num at k1 k2 ⊢ <;> linarith

/-! ### The reciprocal -/

theorem FP.div_fin (F : Fmt) (s : Bool) (m : ℕ) (e : ℤ) (t : Bool) (n : ℕ) (k : ℤ) :
    FP.div F (FP.fin s m e) (FP.fin t n k) =
      if n = 0 then (if m = 0 then FP.nan else FP.inf (xor s t))
      else round F (xor s t) (|(FP.fin s m e).toRat| / |(FP.fin t n k).toRat|) := rfl

theorem one_eq : one = FP.fin false (2 ^ 52) (-52) := by decide!

theorem one_toRat : one.toRat = 1 := by decide!

/-- The reciprocal of a nonzero finite number is the rounding of the exact reciprocal of its
magnitude, with its sign. -/
theorem scalar_reciprocal_fin (t : Bool) (n : ℕ) (k : ℤ) (hn : n ≠ 0) :
    scalar_reciprocal (FP.fin t n k) = round binary64 t (1 / |(FP.fin t n k).toRat|) := by
  unfold scalar_reciprocal
  rw [one_eq, FP.div_fin, if_neg hn, ← one_eq, one_toRat]
  simp

/-- The rounded reciprocal of `a < 2^1024` times `a` is within `2^-51` of one. -/
theorem fl_reciprocal_mul (a : ℚ) (ha : 0 < a) (hlt : a < 2 ^ (1024 : ℤ)) :
    |fl binary64 (1 / a) * a - 1| ≤ 2 ^ (-51 : ℤ) := by
  have hv : 0 < 1 / a := by positivity
  obtain ⟨h1, h2⟩ := ilog2_spec (1 / a) hv
  have herr := fl_err_le binary64 (1 / a) (ilog2 (1 / a)) (by rw [abs_of_pos hv]; exact h2)
  have hsplit : fl binary64 (1 / a) * a - 1 = (fl binary64 (1 / a) - 1 / a) * a := by
    field_simp
  rw [hsplit, abs_mul, abs_of_pos ha]
  rcases le_or_lt (binary64.emin) (ilog2 (1 / a) + 1 - binary64.prec) with hc | hc
  · rw [max_eq_left hc] at herr
    have h3 : (2 : ℚ) ^ (ilog2 (1 / a) + 1 - binary64.prec) / 2
        = 2 ^ ilog2 (1 / a) * 2 ^ (-53 : ℤ) := by
      rw [← zpow_add₀ (by norm_num : (2 : ℚ) ≠ 0), div_eq_iff (by norm_num : (2 : ℚ) ≠ 0),
        ← zpow_add_one₀ (by norm_num : (2 : ℚ) ≠ 0)]
      congr 1
      simp [binary64]
      ring
    have h4 : |fl binary64 (1 / a) - 1 / a| ≤ 1 / a * 2 ^ (-53 : ℤ) := by
      rw [h3] at herr
      exact herr.trans (mul_le_mul_of_nonneg_right h1 (two_zpow_pos _).le)
    calc |fl binary64 (1 / a) - 1 / a| * a ≤ 1 / a * 2 ^ (-53 : ℤ) * a :=
          mul_le_mul_of_nonneg_right h4 ha.le
      _ = 2 ^ (-53 : ℤ) := by field_simp
      _ ≤ 2 ^ (-51 : ℤ) := two_zpow_le (by norm_num)
  · rw [max_eq_right hc.le] at herr
    have h3 : (2 : ℚ) ^ binary64.emin / 2 = 2 ^ (-1075 : ℤ) := by
      rw [div_eq_iff (by norm_num : (2 : ℚ) ≠ 0), ← zpow_add_one₀ (by norm_num : (2 : ℚ) ≠ 0)]
      rfl
    rw [h3] at herr
    calc |fl binary64 (1 / a) - 1 / a| * a ≤ 2 ^ (-1075 : ℤ) * 2 ^ (1024 : ℤ) :=
          mul_le_mul herr hlt.le ha.le (two_zpow_pos _).le
      _ = 2 ^ (-51 : ℤ) := by
          rw [← zpow_add₀ (by norm_num : (2 : ℚ) ≠ 0)]; norm_num

theorem tolerance_eq :
    ofRat binary64 (1 / 1000000000) = FP.fin false 4835703278458517 (-82) := by decide!

theorem tolerance_gt : (2 : ℚ) ^ (-51 : ℤ) < (ofRat binary64 (1 / 1000000000)).toRat := by
  rw [tolerance_eq, FP.toRat_fin]
  have h : (2 : ℚ) ^ (-51 : ℤ) = 2 ^ (31 : ℕ) * 2 ^ (-82 : ℤ) := by
    rw [← zpow_natCast, ← zpow_add₀ (by norm_num : (2 : ℚ) ≠ 0)]; norm_num
  rw [h, sgn_mul_nonneg_false]
  exact mul_lt_mul_of_pos_right (by norm_num) (two_zpow_pos _)

/-- A finite double is near-equal to itself within any positive threshold. -/
theorem scalar_near_equal_self (a t : FP) (ha : a.isFinite = true)
    (ht : FP.lt zero t = true) : scalar_near_equal a a t = true := by
  obtain ⟨s, m, e, rfl⟩ := (FP.isFinite_iff a).mp ha
  have h : FP.sub binary64 (FP.fin s m e) (FP.fin s m e) = FP.fin false 0 (-1074) := by
    unfold FP.sub
    show FP.add binary64 (FP.fin s m e) (FP.fin (!s) m e) = _
    rw [FP.add_fin, if_pos (by rw [FP.toRat_fin, FP.toRat_fin]; cases s <;> simp [sgn])]
    cases s <;> rfl
  unfold scalar_near_equal scalar_abs
  rw [h]
  show FP.lt (FP.fin false 0 (-1074)) t = true
  rw [← zero_eq]
  exact ht

/-- A valid double of magnitude above `2^-1024` has magnitude at least
`(2^50 + 1) * 2^-1074`. -/
theorem magnitude_above (t : Bool) (n : ℕ) (k : ℤ) (hv : (FP.fin t n k).valid binary64)
    (hb : (2 : ℚ) ^ (-1024 : ℤ) < (n : ℚ) * 2 ^ k) :
    ((2 : ℚ) ^ 50 + 1) * 2 ^ (-1074 : ℤ) ≤ (n : ℚ) * 2 ^ k := by
  have hk : (-1074 : ℤ) ≤ k := hv.2.1
  obtain ⟨d, hd⟩ : ∃ d : ℕ, k = -1074 + d := ⟨(k + 1074).toNat, by omega⟩
  have h1 : (n : ℚ) * 2 ^ k = ((n * 2 ^ d : ℕ) : ℚ) * 2 ^ (-1074 : ℤ) := by
    rw [hd, two_zpow_add_nat]; push_cast; ring
  have h2 : (2 : ℚ) ^ (-1024 : ℤ) = ((2 ^ 50 : ℕ) : ℚ) * 2 ^ (-1074 : ℤ) := by
    have h : ((2 ^ 50 : ℕ) : ℚ) = (2 : ℚ) ^ (50 : ℤ) := by norm_num
    rw [h, ← zpow_add₀ (by norm_num : (2 : ℚ) ≠ 0)]; norm_num
  rw [h1, h2] at hb
  have h3 : ((2 ^ 50 : ℕ) : ℚ) < ((n * 2 ^ d : ℕ) : ℚ) :=
    lt_of_mul_lt_mul_right hb (two_zpow_pos _).le
  have h4 : 2 ^ 50 + 1 ≤ n * 2 ^ d := by exact_mod_cast h3
  have h5 : ((2 : ℚ) ^ 50 + 1) ≤ ((n * 2 ^ d : ℕ) : ℚ) := by exact_mod_cast h4
  rw [h1]
  exact mul_le_mul_of_nonneg_right h5 (two_zpow_pos _).le

/-- The reciprocal of a magnitude above `2^-1024` rounds to a finite double. -/
theorem fl_reciprocal_lt (a : ℚ) (ha : ((2 : ℚ) ^ 50 + 1) * 2 ^ (-1074 : ℤ) ≤ a) :
    fl binary64 (1 / a) < 2 ^ (1024 : ℤ) := by
  have hpos : 0 < a := lt_of_lt_of_le (by positivity) ha
  have hM : Rep binary64 (((2 ^ 53 - 1 : ℕ) : ℚ) * 2 ^ (971 : ℤ)) :=
    rep_of_nat_mul_zpow binary64 (2 ^ 53 - 1) 971 (by decide) (by decide)
  have h1 : 1 / a ≤ ((2 ^ 53 - 1 : ℕ) : ℚ) * 2 ^ (971 : ℤ) := by
    rw [div_le_iff₀ hpos]
    have h2 : ((2 ^ 53 - 1 : ℕ) : ℚ) * 2 ^ (971 : ℤ) * (((2 : ℚ) ^ 50 + 1) * 2 ^ (-1074 : ℤ))
        = ((2 ^ 53 - 1 : ℕ) : ℚ) * ((2 : ℚ) ^ 50 + 1) * 2 ^ (-103 : ℤ) := by
      have : (2 : ℚ) ^ (-103 : ℤ) = 2 ^ (971 : ℤ) * 2 ^ (-1074 : ℤ) := by
        rw [← zpow_add₀ (by norm_num : (2 : ℚ) ≠ 0)]; norm_num
      rw [this]; ring
    have h3 : (1 : ℚ) ≤ ((2 ^ 53 - 1 : ℕ) : ℚ) * ((2 : ℚ) ^ 50 + 1) * 2 ^ (-103 : ℤ) := by
      have : (2 : ℚ) ^ (-103 : ℤ) = 1 / 2 ^ (103 : ℕ) := by
        rw [zpow_neg, one_div]; norm_cast
      rw [this]
      norm_num
    calc (1 : ℚ) ≤ ((2 ^ 53 - 1 : ℕ) : ℚ) * 2 ^ (971 : ℤ)
          * (((2 : ℚ) ^ 50 + 1) * 2 ^ (-1074 : ℤ)) := by rw [h2]; exact h3
      _ ≤ ((2 ^ 53 - 1 : ℕ) : ℚ) * 2 ^ (971 : ℤ) * a :=
          mul_le_mul_of_nonneg_left ha (by positivity)
  have h4 := fl_le_of_le binary64 binary64_wf (1 / a) _ hM h1
  have h5 : ((2 ^ 53 - 1 : ℕ) : ℚ) * 2 ^ (971 : ℤ) < 2 ^ (1024 : ℤ) := by
    have : (2 : ℚ) ^ (1024 : ℤ) = 2 ^ (53 : ℕ) * 2 ^ (971 : ℤ) := by
      rw [← zpow_natCast, ← zpow_add₀ (by norm_num : (2 : ℚ) ≠ 0)]; norm_num
    rw [this]
    exact mul_lt_mul_of_pos_right (by norm_num) (two_zpow_pos _)
  exact lt_of_le_of_lt h4 h5

/-! ## The claims -/

/-- C1, witness against the claim as stated: at `x = 0.49999999999999994`, the double just
below `0.5`, the sum `x + 0.5` rounds to `1.0` and `scalar_symmetric_round(x)` is `1.0`, while
the integer nearest to `x` is `0`; at the odd integer `x = 2^52 + 1` the result is `2^52 + 2`;
at NaN the result is NaN, not an integer. -/
theorem C1_counterexample :
    ((FP.fin false (2 ^ 53 - 1) (-54)).valid binary64 ∧
      scalar_symmetric_round (FP.fin false (2 ^ 53 - 1) (-54)) = one ∧
      one.toRat = 1 ∧
      ¬ IsRoundAway (FP.fin false (2 ^ 53 - 1) (-54)).toRat 1 ∧
      IsRoundAway (FP.fin false (2 ^ 53 - 1) (-54)).toRat 0) ∧
    ((FP.fin false (2 ^ 52 + 1) 0).valid binary64 ∧
      scalar_symmetric_round (FP.fin false (2 ^ 52 + 1) 0) = FP.fin false (2 ^ 52 + 2) 0 ∧
      ¬ IsRoundAway (FP.fin false (2 ^ 52 + 1) 0).toRat (2 ^ 52 + 2)) ∧
    scalar_symmetric_round FP.nan = FP.nan := by
  decide!

/-- C1 (amended): for every finite double `x` other than `±0.49999999999999994` (the doubles
next to `±0.5` toward zero) and the odd integers of magnitude in `[2^52, 2^53)`,
`scalar_symmetric_round(x)` is the finite double whose value is the integer nearest to `x`,
a tie being rounded away from zero: `⌊x + 1/2⌋` for `x ≥ 0`, computed as `floor(x + 0.5)`,
and `⌈x - 1/2⌉` otherwise, computed as `ceil(x - 0.5)`; `round(1.5) = 2.0`,
`round(1.2) = 1.0`, `round(-1.5) = -2.0`, `round(-1.2) = -1.0`. -/
theorem C1_symmetric_round (x : FP) (hx : x.valid binary64) (hfin : x.isFinite = true)
    (h1 : |x.toRat| ≠ (2 ^ 53 - 1) / 2 ^ 54)
    (h2 : ∀ k : ℤ, 2 ^ 52 ≤ |x.toRat| → |x.toRat| < 2 ^ 53 → |x.toRat| ≠ 2 * k + 1) :
    ((scalar_symmetric_round x).isFinite = true ∧
      ∃ n : ℤ, (scalar_symmetric_round x).toRat = n ∧ IsRoundAway x.toRat n ∧
        n = if 0 ≤ x.toRat then ⌊x.toRat + 1 / 2⌋ else ⌈x.toRat - 1 / 2⌉) ∧
    (scalar_symmetric_round x = if FP.ge x zero then scalar_floor (FP.add binary64 x half)
      else scalar_ceil (FP.sub binary64 x half)) ∧
    (scalar_symmetric_round (ofRat binary64 (15 / 10)) = ofRat binary64 2 ∧
      scalar_symmetric_round (ofRat binary64 (12 / 10)) = ofRat binary64 1 ∧
      scalar_symmetric_round (ofRat binary64 (-15 / 10)) = ofRat binary64 (-2) ∧
      scalar_symmetric_round (ofRat binary64 (-12 / 10)) = ofRat binary64 (-1)) := by
  refine ⟨?_, rfl, by decide!⟩
  obtain ⟨s, m, e, rfl⟩ := (FP.isFinite_iff x).mp hfin
  have hvalid : (FP.fin false m e).valid binary64 := hx
  have habs := FP.abs_toRat_fin s m e
  have hne1 : ¬(e = -54 ∧ m = 2 ^ 53 - 1) := by
    rintro ⟨rfl, rfl⟩
    apply h1
    rw [habs]; norm_num
  have hne2 : ¬(e = 0 ∧ m % 2 = 1) := by
    rintro ⟨rfl, hodd⟩
    obtain ⟨b1, b2⟩ := significand_bounds m 0 hvalid (by omega)
    rw [habs] at h2
    simp only [zpow_zero, mul_one] at h2
    refine h2 (m / 2) b1 (by linarith) ?_
    have : (m : ℤ) = 2 * ((m / 2 : ℕ) : ℤ) + 1 := by omega
    have hq : ((m : ℤ) : ℚ) = ((2 * ((m / 2 : ℕ) : ℤ) + 1 : ℤ) : ℚ) := by rw [← this]
    push_cast at hq
    exact hq
  obtain ⟨c1, c2⟩ := round_half_core m e hvalid hne1 hne2
  have hhalf_fin : half.isFinite = true := by rw [half_eq]; rfl
  unfold scalar_symmetric_round
  rcases le_or_lt 0 (FP.fin s m e).toRat with h0 | h0
  · -- `x ≥ 0`: `floor(x + 0.5)`
    have hxa : (FP.fin s m e).toRat = (m : ℚ) * 2 ^ e := by
      rw [← habs, abs_of_nonneg h0]
    have hge : FP.ge (FP.fin s m e) zero = true := by
      rw [FP.ge, FP.le_of_isFinite zero_isFinite hfin, zero_toRat]
      simpa using h0
    rw [if_pos hge, if_pos h0]
    have hAfin : (FP.add binary64 (FP.fin s m e) half).isFinite = true := by
      rw [FP.add_isFinite_iff binary64 binary64_wf _ _ hfin hhalf_fin, half_toRat, hxa]
      exact c1
    have hAval := FP.add_toRat binary64 binary64_wf _ _ hfin hhalf_fin hAfin
    rw [half_toRat, hxa] at hAval
    obtain ⟨f1, -, f3⟩ := FP.floor_spec binary64 binary64_wf (by decide) (by decide) _
      (FP.add_valid binary64 binary64_wf (FP.fin s m e) half) hAfin
    rw [hAval, c2] at f3
    refine ⟨f1, _, f3, ?_, by rw [hxa]⟩
    rw [hxa]
    exact isRoundAway_floor_add_half _ (by positivity)
  · -- `x < 0`: `ceil(x - 0.5)`
    have hxa : (FP.fin s m e).toRat = -((m : ℚ) * 2 ^ e) := by
      rw [← habs, abs_of_neg h0]; ring
    have hge : FP.ge (FP.fin s m e) zero = false := by
      rw [FP.ge, FP.le_of_isFinite zero_isFinite hfin, zero_toRat]
      simpa using h0
    rw [hge, if_neg (by simp), if_neg (not_le.mpr h0)]
    have hneg : (FP.fin s m e).toRat - 1 / 2 = -((m : ℚ) * 2 ^ e + 1 / 2) := by
      rw [hxa]; ring
    have hAfin : (FP.sub binary64 (FP.fin s m e) half).isFinite = true := by
      rw [FP.sub_isFinite_iff binary64 binary64_wf _ _ hfin hhalf_fin, half_toRat, hneg, fl_neg,
        abs_neg]
      exact c1
    have hAval := FP.sub_toRat binary64 binary64_wf _ _ hfin hhalf_fin hAfin
    rw [half_toRat, hneg, fl_neg] at hAval
    obtain ⟨f1, -, f3⟩ := FP.ceil_spec binary64 binary64_wf (by decide) (by decide) _
      (FP.sub_valid binary64 binary64_wf (FP.fin s m e) half) hAfin
    rw [hAval, Int.ceil_neg, c2] at f3
    refine ⟨f1, _, f3, ?_, by rw [hneg, Int.ceil_neg]⟩
    rw [hxa]
    exact isRoundAway_neg _ _ (isRoundAway_floor_add_half _ (by positivity))

/-- C1, the amended claim at `x = -1.5`, a tie rounded away from zero to `-2`. -/
theorem C1_symmetric_round_witness :
    (scalar_symmetric_round (ofRat binary64 (-15 / 10))).isFinite = true ∧
      ∃ n : ℤ, (scalar_symmetric_round (ofRat binary64 (-15 / 10))).toRat = n ∧
        IsRoundAway (ofRat binary64 (-15 / 10)).toRat n ∧
        n = if 0 ≤ (ofRat binary64 (-15 / 10)).toRat then
          ⌊(ofRat binary64 (-15 / 10)).toRat + 1 / 2⌋
        else ⌈(ofRat binary64 (-15 / 10)).toRat - 1 / 2⌉ :=
  (C1_symmetric_round (ofRat binary64 (-15 / 10)) (by decide!) (by decide!) (by decide!)
    (by
      intro k hk
      exact absurd hk (by decide!))).1

/-- C2, witness against the claim as stated: `scalar_floor(x) <= x` is false at NaN,
`x < scalar_floor(x) + 1` is false at `+Inf` and, the sum being rounded, at the finite
`x = 2^53`; `x <= scalar_ceil(x)` is false at NaN and `scalar_ceil(x) - 1 < x` at `-Inf`. -/
theorem C2_counterexample :
    FP.le (scalar_floor FP.nan) FP.nan = false ∧
    FP.lt (FP.inf false) (FP.add binary64 (scalar_floor (FP.inf false)) one) = false ∧
    ((FP.fin false (2 ^ 52) 1).valid binary64 ∧
      FP.lt (FP.fin false (2 ^ 52) 1)
        (FP.add binary64 (scalar_floor (FP.fin false (2 ^ 52) 1)) one) = false) ∧
    FP.le FP.nan (scalar_ceil FP.nan) = false ∧
    FP.lt (FP.sub binary64 (scalar_ceil (FP.inf true)) one) (FP.inf true) = false := by
  decide!

/-- C2 (amended): for every finite double `x`, `scalar_floor(x)` is the finite double whose
value is the integer `⌊x⌋`, the largest integer not greater than `x`, so that in exact
arithmetic `floor(x) ≤ x < floor(x) + 1`; `scalar_ceil(x)` is the finite double whose value is
`⌈x⌉`, the smallest integer not less than `x`, so that `ceil(x) - 1 < x ≤ ceil(x)`; this holds
for negative `x` as well, and `floor(1.8) = 1.0`, `floor(-1.8) = -2.0`, `ceil(1.8) = 2.0`,
`ceil(-1.8) = -1.0`. -/
theorem C2_floor_ceil (x : FP) (hx : x.valid binary64) (hfin : x.isFinite = true) :
    ((scalar_floor x).isFinite = true ∧ (scalar_floor x).valid binary64 ∧
      (scalar_floor x).toRat = (⌊x.toRat⌋ : ℤ) ∧
      (∀ z : ℤ, (z : ℚ) ≤ x.toRat → (z : ℚ) ≤ (scalar_floor x).toRat) ∧
      (scalar_floor x).toRat ≤ x.toRat ∧ x.toRat < (scalar_floor x).toRat + 1) ∧
    ((scalar_ceil x).isFinite = true ∧ (scalar_ceil x).valid binary64 ∧
      (scalar_ceil x).toRat = (⌈x.toRat⌉ : ℤ) ∧
      (∀ z : ℤ, x.toRat ≤ (z : ℚ) → (scalar_ceil x).toRat ≤ (z : ℚ)) ∧
      (scalar_ceil x).toRat - 1 < x.toRat ∧ x.toRat ≤ (scalar_ceil x).toRat) ∧
    (scalar_floor (ofRat binary64 (18 / 10)) = ofRat binary64 1 ∧
      scalar_floor (ofRat binary64 (-18 / 10)) = ofRat binary64 (-2) ∧
      scalar_ceil (ofRat binary64 (18 / 10)) = ofRat binary64 2 ∧
      scalar_ceil (ofRat binary64 (-18 / 10)) = ofRat binary64 (-1)) := by
  obtain ⟨f1, f2, f3⟩ := FP.floor_spec binary64 binary64_wf (by decide) (by decide) x hx hfin
  obtain ⟨c1, c2, c3⟩ := FP.ceil_spec binary64 binary64_wf (by decide) (by decide) x hx hfin
  refine ⟨⟨f1, f2, f3, ?_, ?_, ?_⟩, ⟨c1, c2, c3, ?_, ?_, ?_⟩, by decide!⟩
  · intro z hz
    show (z : ℚ) ≤ (FP.floor binary64 x).toRat
    rw [f3]; exact_mod_cast Int.le_floor.mpr hz
  · show (FP.floor binary64 x).toRat ≤ _
    rw [f3]; exact Int.floor_le _
  · show _ < (FP.floor binary64 x).toRat + 1
    rw [f3]; exact Int.lt_floor_add_one _
  · intro z hz
    show (FP.ceil binary64 x).toRat ≤ (z : ℚ)
    rw [c3]; exact_mod_cast Int.ceil_le.mpr hz
  · show (FP.ceil binary64 x).toRat - 1 < _
    rw [c3]; linarith [Int.ceil_lt_add_one x.toRat]
  · show _ ≤ (FP.ceil binary64 x).toRat
    rw [c3]; exact Int.le_ceil _

/-- C2, the amended claim at the negative double nearest to `-1.8`. -/
theorem C2_floor_ceil_witness :
    (scalar_floor (ofRat binary64 (-18 / 10))).toRat = (⌊(ofRat binary64 (-18 / 10)).toRat⌋ : ℤ) ∧
    (scalar_ceil (ofRat binary64 (-18 / 10))).toRat = (⌈(ofRat binary64 (-18 / 10)).toRat⌉ : ℤ) :=
  have h := C2_floor_ceil (ofRat binary64 (-18 / 10)) (by decide!) (by decide!)
  ⟨h.1.2.2.1, h.2.1.2.2.1⟩

/-- C3, witness against the claim as stated: at the finite `x = -2^-54` the difference
`x - floor(x) = 1 - 2^-54` rounds to `1.0`, so `scalar_fraction(x)` equals `1` and is not
below `1`; at NaN the result is NaN and `0 <= scalar_fraction(x)` is false. -/
theorem C3_counterexample :
    (FP.fin true (2 ^ 52) (-106)).valid binary64 ∧
      scalar_fraction (FP.fin true (2 ^ 52) (-106)) = one ∧
      FP.lt (scalar_fraction (FP.fin true (2 ^ 52) (-106))) one = false ∧
      FP.le zero (scalar_fraction FP.nan) = false := by
  decide!

/-- C3 (amended): for every finite double `x`, `scalar_fraction(x)` is the finite double
nearest to `x - floor(x)` and `0 <= scalar_fraction(x) <= 1`; it is the exact difference, and
below `1`, for every `x >= 0`; it is below `1` for every `x < -2^-54`; and it is exactly `1`
for `-2^-54 <= x < 0`. -/
theorem C3_fraction (x : FP) (hx : x.valid binary64) (hfin : x.isFinite = true) :
    (scalar_fraction x).isFinite = true ∧
    (scalar_fraction x).toRat = fl binary64 (x.toRat - (⌊x.toRat⌋ : ℤ)) ∧
    (FP.le zero (scalar_fraction x) = true ∧ FP.le (scalar_fraction x) one = true) ∧
    (0 ≤ x.toRat → (scalar_fraction x).toRat = x.toRat - (⌊x.toRat⌋ : ℤ) ∧
      FP.lt (scalar_fraction x) one = true) ∧
    (x.toRat < -(2 : ℚ) ^ (-54 : ℤ) → FP.lt (scalar_fraction x) one = true) ∧
    (-(2 : ℚ) ^ (-54 : ℤ) ≤ x.toRat → x.toRat < 0 → (scalar_fraction x).toRat = 1 ∧
      FP.lt (scalar_fraction x) one = false) := by
  obtain ⟨f1, f2, f3⟩ := FP.floor_spec binary64 binary64_wf (by decide) (by decide) x hx hfin
  have hv0 : 0 ≤ x.toRat - (⌊x.toRat⌋ : ℤ) := by linarith [Int.floor_le x.toRat]
  have hv1 : x.toRat - (⌊x.toRat⌋ : ℤ) < 1 := by linarith [Int.lt_floor_add_one x.toRat]
  have hfl0 := fl_nonneg binary64 _ hv0
  have hfl1 := fl_le_of_le binary64 binary64_wf _ 1 rep_one_binary64 hv1.le
  have hone : one.toRat = 1 := by decide!
  have honef : one.isFinite = true := by decide!
  have hfinite : (scalar_fraction x).isFinite = true := by
    unfold scalar_fraction scalar_floor
    rw [FP.sub_isFinite_iff binary64 binary64_wf x _ hfin f1, f3, abs_of_nonneg hfl0]
    refine lt_of_le_of_lt hfl1 ?_
    norm_num [binary64]
  have hval : (scalar_fraction x).toRat = fl binary64 (x.toRat - (⌊x.toRat⌋ : ℤ)) := by
    have := FP.sub_toRat binary64 binary64_wf x _ hfin f1 hfinite
    rw [f3] at this
    exact this
  have hltone : FP.lt (scalar_fraction x) one =
      decide (fl binary64 (x.toRat - (⌊x.toRat⌋ : ℤ)) < 1) := by
    rw [FP.lt_of_isFinite hfinite honef, hval, hone]
  obtain ⟨s, m, e, rfl⟩ := (FP.isFinite_iff x).mp hfin
  refine ⟨hfinite, hval, ⟨?_, ?_⟩, ?_, ?_, ?_⟩
  · rw [FP.le_of_isFinite zero_isFinite hfinite, zero_toRat, hval]
    simpa using hfl0
  · rw [FP.le_of_isFinite hfinite honef, hval, hone]
    simpa using hfl1
  · intro hx0
    have hrep : Rep binary64 ((FP.fin s m e).toRat - (⌊(FP.fin s m e).toRat⌋ : ℤ)) := by
      by_cases he : 0 ≤ e
      · obtain ⟨z, hz⟩ := FP.toRat_eq_intCast s m e he
        rw [hz, Int.floor_intCast, sub_self]
        exact ⟨0, -1074, by positivity, le_rfl, by simp⟩
      · push_neg at he
        obtain ⟨N, hN⟩ := sub_int_eq s m e he ⌊(FP.fin s m e).toRat⌋
        have hpos := two_zpow_pos e
        have hN0 : 0 ≤ N := by
          rw [hN] at hv0
          have : (0 : ℚ) ≤ N := nonneg_of_mul_nonneg_left hv0 hpos
          exact_mod_cast this
        obtain ⟨K, rfl⟩ : ∃ K : ℕ, N = K := ⟨N.toNat, (Int.toNat_of_nonneg hN0).symm⟩
        have hfl : (0 : ℚ) ≤ (⌊(FP.fin s m e).toRat⌋ : ℤ) := by
          exact_mod_cast Int.floor_nonneg.mpr hx0
        have hle : (K : ℚ) * 2 ^ e ≤ m * 2 ^ e := by
          have h1 : (FP.fin s m e).toRat ≤ m * 2 ^ e := by
            rw [← FP.abs_toRat_fin s m e]; exact le_abs_self _
          have h2 : ((K : ℤ) : ℚ) * 2 ^ e = (K : ℚ) * 2 ^ e := by push_cast; ring
          rw [← h2, ← hN]; linarith
        have hKm : K ≤ m := by
          have := le_of_mul_le_mul_right hle hpos
          exact_mod_cast this
        rw [hN]
        have := rep_of_nat_mul_zpow binary64 K e (lt_of_le_of_lt hKm hx.1) hx.2.1
        simpa using this
    have hex := fl_exact binary64 binary64_wf _ hrep
    refine ⟨by rw [hval, hex], ?_⟩
    rw [hltone, hex]
    simpa using hv1
  · intro hxneg
    rw [hltone, decide_eq_true_eq]
    apply fl_lt_one _ hv0
    by_cases he : 0 ≤ e
    · obtain ⟨z, hz⟩ := FP.toRat_eq_intCast s m e he
      rw [hz, Int.floor_intCast, sub_self]
      norm_num
    · push_neg at he
      by_cases he2 : -53 ≤ e
      · obtain ⟨N, hN⟩ := sub_int_eq s m e he ⌊(FP.fin s m e).toRat⌋
        obtain ⟨d, hd⟩ : ∃ d : ℕ, e = -(d : ℤ) := ⟨(-e).toNat, by omega⟩
        have hpos := two_zpow_pos e
        have h2 : (2 : ℚ) ^ d * 2 ^ e = 1 := by
          rw [hd, zpow_neg, zpow_natCast]; field_simp
        have hNlt : (N : ℚ) < 2 ^ d := by
          rw [hN] at hv1
          rw [← h2] at hv1
          exact lt_of_mul_lt_mul_right hv1 hpos.le
        have hNlt' : N < 2 ^ d := by exact_mod_cast hNlt
        have hNle : (N : ℚ) ≤ 2 ^ d - 1 := by
          have : N ≤ 2 ^ d - 1 := by omega
          exact_mod_cast this
        have hvle : (FP.fin s m e).toRat - (⌊(FP.fin s m e).toRat⌋ : ℤ) ≤ 1 - 2 ^ e := by
          rw [hN]
          calc (N : ℚ) * 2 ^ e ≤ (2 ^ d - 1) * 2 ^ e := mul_le_mul_of_nonneg_right hNle hpos.le
            _ = 1 - 2 ^ e := by rw [sub_mul, h2, one_mul]
        have hge : (2 : ℚ) ^ (-53 : ℤ) ≤ 2 ^ e := two_zpow_le he2
        have h54 : (2 : ℚ) ^ (-54 : ℤ) < 2 ^ (-53 : ℤ) := two_zpow_lt (by norm_num)
        linarith
      · push_neg at he2
        have hsmall : |(FP.fin s m e).toRat| < 1 / 2 := by
          rw [FP.abs_toRat_fin]
          have h1 : (m : ℚ) < 2 ^ 53 := by exact_mod_cast hx.1
          have h2 : (2 : ℚ) ^ e ≤ 2 ^ (-54 : ℤ) := two_zpow_le (by omega)
          have hpos := two_zpow_pos e
          calc (m : ℚ) * 2 ^ e < 2 ^ 53 * 2 ^ e := mul_lt_mul_of_pos_right h1 hpos
            _ ≤ 2 ^ 53 * 2 ^ (-54 : ℤ) := mul_le_mul_of_nonneg_left h2 (by positivity)
            _ = 1 / 2 := by norm_num
        rw [abs_lt] at hsmall
        have hneg : (FP.fin s m e).toRat < 0 := by
          have : (0 : ℚ) < 2 ^ (-54 : ℤ) := by positivity
          linarith
        have hfloor : ⌊(FP.fin s m e).toRat⌋ = -1 :=
          Int.floor_eq_iff.mpr ⟨by push_cast; linarith [hsmall.1], by push_cast; linarith⟩
        rw [hfloor]
        push_cast
        linarith
  · intro hx1 hx2
    have hsmall : -1 ≤ (FP.fin s m e).toRat := by
      have : (2 : ℚ) ^ (-54 : ℤ) ≤ 1 := by norm_num
      linarith
    have hfloor : ⌊(FP.fin s m e).toRat⌋ = -1 :=
      Int.floor_eq_iff.mpr ⟨by push_cast; linarith, by push_cast; linarith⟩
    have hone' : fl binary64 ((FP.fin s m e).toRat - ((⌊(FP.fin s m e).toRat⌋ : ℤ) : ℚ)) = 1 := by
      rw [hfloor]
      apply fl_eq_one
      · push_cast; linarith
      · push_cast; linarith
    refine ⟨by rw [hval, hone'], ?_⟩
    rw [hltone, hone']
    simp

/-- C3, the amended claim at the double nearest to `-1.8`. -/
theorem C3_fraction_witness :
    (scalar_fraction (ofRat binary64 (-18 / 10))).isFinite = true ∧
      FP.le zero (scalar_fraction (ofRat binary64 (-18 / 10))) = true ∧
      FP.lt (scalar_fraction (ofRat binary64 (-18 / 10))) one = true :=
  have h := C3_fraction (ofRat binary64 (-18 / 10)) (by decide!) (by decide!)
  ⟨h.1, h.2.2.1.1, h.2.2.2.2.1 (by decide!)⟩

/-- C4, witness against the claim as stated: with `lo = 0.0 <= hi = 1.0` the NaN input is
returned as NaN, which does not lie in `[lo, hi]`. -/
theorem C4_counterexample :
    FP.le zero one = true ∧ scalar_clamp FP.nan zero one = FP.nan ∧
      FP.le zero (scalar_clamp FP.nan zero one) = false ∧
      FP.le (scalar_clamp FP.nan zero one) one = false := by
  decide!

/-- C4 (amended): for all doubles `x`, `lo`, `hi` with `lo <= hi`, `scalar_clamp(x, lo, hi)`
returns `x` when `lo <= x <= hi`, `lo` when `x < lo` and `hi` when `x > hi`; and whenever `x`
is not NaN the result lies in `[lo, hi]`. -/
theorem C4_clamp (x lo hi : FP) (h : FP.le lo hi = true) :
    (FP.le lo x = true → FP.le x hi = true → scalar_clamp x lo hi = x) ∧
    (FP.lt x lo = true → scalar_clamp x lo hi = lo) ∧
    (FP.gt x hi = true → scalar_clamp x lo hi = hi) ∧
    (x.isNaN = false → FP.le lo (scalar_clamp x lo hi) = true ∧
      FP.le (scalar_clamp x lo hi) hi = true) := by
  obtain ⟨hlo, hhi⟩ := FP.not_nan_of_le h
  have hhl : FP.lt hi lo = false := FP.lt_eq_false_of_le h
  refine ⟨?_, ?_, ?_, ?_⟩
  · intro h1 h2
    simp [scalar_clamp, FP.min, FP.max, FP.lt_eq_false_of_le h1, FP.lt_eq_false_of_le h2]
  · intro h1
    simp [scalar_clamp, FP.min, FP.max, h1, hhl]
  · intro h1
    have h2 : FP.lt x lo = false := FP.lt_asymm (FP.lt_of_le_of_lt h h1)
    simp only [FP.gt] at h1
    simp [scalar_clamp, FP.min, FP.max, h2, h1]
  · intro hx
    simp only [scalar_clamp, FP.min, FP.max]
    cases h1 : FP.lt x lo with
    | true =>
      simp only [if_true, hhl]
      exact ⟨FP.le_refl_of_not_nan hlo, h⟩
    | false =>
      simp only [Bool.false_eq_true, if_false]
      cases h2 : FP.lt hi x with
      | true => simp only [if_true]; exact ⟨h, FP.le_refl_of_not_nan hhi⟩
      | false =>
        simp only [Bool.false_eq_true, if_false]
        exact ⟨FP.le_of_lt_eq_false hlo hx h1, FP.le_of_lt_eq_false hx hhi h2⟩

/-- C4, the amended claim at `x = 0.5`, `lo = 0.0`, `hi = 1.0`. -/
theorem C4_clamp_witness :
    FP.le zero one = true ∧ scalar_clamp half zero one = half ∧
      FP.le zero (scalar_clamp half zero one) = true ∧
      FP.le (scalar_clamp half zero one) one = true :=
  have h := C4_clamp half zero one (by decide!)
  ⟨by decide!, h.1 (by decide!) (by decide!), h.2.2.2 (by decide!)⟩

/-- C5, witness against the claim as stated: at `a = 2^53` and `t = 1.0 > 0` the sum `a + t`
rounds back to `a`, the difference is `0`, and `scalar_near_equal(a, a + t, t)` is true. -/
theorem C5_counterexample :
    (FP.fin false (2 ^ 52) 1).valid binary64 ∧ FP.gt one zero = true ∧
      FP.add binary64 (FP.fin false (2 ^ 52) 1) one = FP.fin false (2 ^ 52) 1 ∧
      scalar_near_equal (FP.fin false (2 ^ 52) 1) (FP.add binary64 (FP.fin false (2 ^ 52) 1) one)
        one = true := by
  decide!

/-- C5 (amended): for every double `a` and every threshold `t > 0` such that the sum `a + t`
is not rounded (whenever `a`, `t` and the double `a + t` are finite, the double `a + t` is
the exact sum), `scalar_near_equal(a, a + t, t)` is false: the test is the strict inequality
`abs(lhs - rhs) < threshold`. -/
theorem C5_near_equal_boundary (a t : FP) (ht : t.valid binary64) (hpos : FP.gt t zero = true)
    (hex : a.isFinite = true → t.isFinite = true → (FP.add binary64 a t).isFinite = true →
      (FP.add binary64 a t).toRat = a.toRat + t.toRat) :
    scalar_near_equal a (FP.add binary64 a t) t = false := by
  unfold scalar_near_equal scalar_abs
  cases a with
  | nan => cases t <;> rfl
  | inf s =>
    cases t with
    | nan => rfl
    | inf u => cases s <;> cases u <;> rfl
    | fin u n k => cases s <;> rfl
  | fin s m e =>
    cases t with
    | nan => rfl
    | inf u =>
      cases u
      · rfl
      · simp [FP.gt, FP.lt, zero_eq] at hpos
    | fin u n k =>
      have htpos : 0 < (FP.fin u n k).toRat := by
        have := hpos
        rw [FP.gt, FP.lt_of_isFinite zero_isFinite (y := FP.fin u n k) rfl, zero_toRat] at this
        simpa using this
      rcases FP.add_fin_cases binary64 (FP.fin s m e) (FP.fin u n k) rfl rfl with ⟨w, hw⟩ | hfin
      · rw [hw]; cases w <;> rfl
      · have hsum := hex rfl rfl hfin
        obtain ⟨s', m', e', hr⟩ := (FP.isFinite_iff _).mp hfin
        rw [hr] at hsum ⊢
        have hv : (FP.fin s m e).toRat + (FP.neg (FP.fin s' m' e')).toRat =
            -(FP.fin u n k).toRat := by
          rw [FP.neg_toRat, hsum]; ring
        have hsub : FP.sub binary64 (FP.fin s m e) (FP.fin s' m' e') =
            ofRat binary64 (-(FP.fin u n k).toRat) := by
          unfold FP.sub
          show FP.add binary64 (FP.fin s m e) (FP.fin (!s') m' e') = _
          rw [FP.add_fin]
          have hv' : (FP.fin s m e).toRat + (FP.fin (!s') m' e').toRat =
              -(FP.fin u n k).toRat := hv
          rw [hv', if_neg (by linarith)]
        obtain ⟨x1, x2⟩ := ofRat_exact binary64 binary64_wf (-(FP.fin u n k).toRat)
          ht.rep.neg (by rw [abs_neg]; exact ht.abs_lt)
        rw [hsub, FP.lt_of_isFinite (by rw [FP.abs_isFinite]; exact x1) (y := FP.fin u n k) rfl,
          FP.abs_toRat, x2,
          abs_neg, abs_of_pos htpos]
        simp

/-- C5, the amended claim at `a = 0.5`, `t = 1.0`, where `a + t = 1.5` is exact. -/
theorem C5_near_equal_boundary_witness :
    scalar_near_equal half (FP.add binary64 half one) one = false :=
  C5_near_equal_boundary half one (by decide!) (by decide!) (fun _ _ _ => by decide!)

/-- C6, witness against the claim as stated: at `a = +Inf` and `t = 1.0 > 0` the difference
`a - a` is NaN and `scalar_near_equal(a, a, t)` is false; likewise at NaN. -/
theorem C6_counterexample :
    FP.gt one zero = true ∧ scalar_near_equal (FP.inf false) (FP.inf false) one = false ∧
      scalar_near_equal FP.nan FP.nan one = false := by
  decide!

/-- C6 (amended): for every finite double `a` and every threshold `t > 0`,
`scalar_near_equal(a, a, t)` is true. -/
theorem C6_near_equal_self (a t : FP) (ha : a.isFinite = true) (ht : FP.gt t zero = true) :
    scalar_near_equal a a t = true := by
  obtain ⟨s, m, e, rfl⟩ := (FP.isFinite_iff a).mp ha
  have h : FP.sub binary64 (FP.fin s m e) (FP.fin s m e) = FP.fin false 0 (-1074) := by
    unfold FP.sub
    simp only [FP.neg]
    rw [FP.add_fin, if_pos (by rw [FP.toRat_fin, FP.toRat_fin]; cases s <;> simp [sgn])]
    cases s <;> rfl
  unfold scalar_near_equal scalar_abs
  rw [h]
  simp only [FP.abs]
  rw [← zero_eq]
  exact ht

/-- C6, the amended claim at `a = 0.5`, `t = 0.00001`. -/
theorem C6_near_equal_self_witness : scalar_near_equal half half default_threshold = true :=
  C6_near_equal_self half default_threshold (by decide!) (by decide!)

/-- C7, witness against the claim as stated: at `d = 117.0f` the round trip
`degrees(d).as_degrees()` is `116.99998474…`, off by `2^-16 ≈ 1.53e-5`, not within `1e-5`; the
least positive float at which the round trip leaves the tolerance is
`15019751 * 2^-17 ≈ 114.5916`. -/
theorem C7_counterexample :
    ((ofRat binary32 117).valid binary32 ∧ (ofRat binary32 117).toRat = 117 ∧
      (degrees (ofRat binary32 117)).as_degrees = FP.fin false 15335422 (-17) ∧
      |(degrees (ofRat binary32 117)).as_degrees.toRat - (ofRat binary32 117).toRat| =
        1 / 65536 ∧
      scalar_near_equal (FP.cvt binary64 (degrees (ofRat binary32 117)).as_degrees)
        (FP.cvt binary64 (ofRat binary32 117)) default_threshold = false) ∧
    ((FP.fin false 15019751 (-17)).valid binary32 ∧
      |(degrees (FP.fin false 15019751 (-17))).as_degrees.toRat -
        (FP.fin false 15019751 (-17)).toRat| = 1 / 65536) := by
  decide!

/-- C7 (amended): for every finite float `d` with `|d| ≤ 114.5`, `degrees(d).as_degrees()`
is finite and within `1e-5` of `d`:
`abs(scalar_rad_to_deg(scalar_deg_to_rad(d)) - d) < 1e-5`, both conversions being single
precision multiplications by the rounded constants `(float)k_pi / 180.0f` and
`180.0f / (float)k_pi`. -/
theorem C7_degrees_roundtrip (d : FP) (hd : d.valid binary32) (hfin : d.isFinite = true)
    (hb : |d.toRat| ≤ 229 / 2) :
    (degrees d).as_degrees.isFinite = true ∧
      |(degrees d).as_degrees.toRat - d.toRat| < 1 / 100000 := by
  have hc1 : (FP.fin false 9370165 (-29)).toRat = 9370165 / 2 ^ 29 := by
    rw [FP.toRat_fin]; norm_num [sgn]
  have hc2 : (FP.fin false 15019744 (-18)).toRat = 15019744 / 2 ^ 18 := by
    rw [FP.toRat_fin]; norm_num [sgn]
  show (FP.mul binary32 (FP.mul binary32 d _) _).isFinite = true ∧
    |(FP.mul binary32 (FP.mul binary32 d _) _).toRat - d.toRat| < 1 / 100000
  rw [deg_to_rad_const, rad_to_deg_const]
  -- first multiplication
  have hb' := abs_le.mp hb
  have h1abs : |d.toRat * (9370165 / 2 ^ 29 : ℚ)| ≤ 2 := by
    rw [abs_mul, abs_of_pos (by norm_num : (0 : ℚ) < 9370165 / 2 ^ 29)]
    linarith
  have h1fl : |fl binary32 (d.toRat * (9370165 / 2 ^ 29))| ≤ 2 := by
    rw [abs_fl]
    exact fl_le_of_le binary32 binary32_wf _ 2 (by exact_mod_cast rep_of_nat_binary32 2 (by norm_num)) h1abs
  have hfin1 : (FP.mul binary32 d (FP.fin false 9370165 (-29))).isFinite = true := by
    rw [FP.mul_isFinite_iff binary32 binary32_wf d (FP.fin false 9370165 (-29)) hfin rfl, hc1]
    refine lt_of_le_of_lt h1fl ?_
    norm_num [binary32]
  have hval1 := FP.mul_toRat binary32 binary32_wf d (FP.fin false 9370165 (-29)) hfin rfl hfin1
  rw [hc1] at hval1
  -- second multiplication
  have h2abs : |fl binary32 (d.toRat * (9370165 / 2 ^ 29)) * (15019744 / 2 ^ 18 : ℚ)| ≤ 128 := by
    rw [abs_mul, abs_of_pos (by norm_num : (0 : ℚ) < 15019744 / 2 ^ 18)]
    linarith
  have h2fl : |fl binary32 (fl binary32 (d.toRat * (9370165 / 2 ^ 29)) *
      (15019744 / 2 ^ 18))| ≤ 128 := by
    rw [abs_fl]
    exact fl_le_of_le binary32 binary32_wf _ 128
      (by exact_mod_cast rep_of_nat_binary32 128 (by norm_num)) h2abs
  have hfin2 : (FP.mul binary32 (FP.mul binary32 d (FP.fin false 9370165 (-29)))
      (FP.fin false 15019744 (-18))).isFinite = true := by
    rw [FP.mul_isFinite_iff binary32 binary32_wf _ (FP.fin false 15019744 (-18)) hfin1 rfl, hc2,
      hval1]
    refine lt_of_le_of_lt h2fl ?_
    norm_num [binary32]
  have hval2 := FP.mul_toRat binary32 binary32_wf _ (FP.fin false 15019744 (-18)) hfin1 rfl hfin2
  rw [hc2, hval1] at hval2
  refine ⟨hfin2, ?_⟩
  rw [hval2]
  -- reduction to the magnitude
  obtain ⟨s, m, e, rfl⟩ := (FP.isFinite_iff d).mp hfin
  have hgrid : ∀ j : ℤ, (2 : ℚ) ^ j ≤ |(FP.fin s m e).toRat| →
      ∃ z : ℤ, |(FP.fin s m e).toRat| = z * 2 ^ (j + 1 - 24) := by
    intro j hj
    rw [FP.abs_toRat_fin] at hj ⊢
    exact hd.grid j hj
  have hcore := deg_roundtrip_core |(FP.fin s m e).toRat| (abs_nonneg _) hb hgrid
  rcases le_or_lt 0 (FP.fin s m e).toRat with h0 | h0
  · rw [abs_of_nonneg h0] at hcore
    exact hcore
  · rw [abs_of_neg h0, neg_mul, fl_neg, neg_mul, fl_neg] at hcore
    rw [show -fl binary32 (fl binary32 ((FP.fin s m e).toRat * (9370165 / 2 ^ 29)) *
        (15019744 / 2 ^ 18)) - -(FP.fin s m e).toRat =
        -(fl binary32 (fl binary32 ((FP.fin s m e).toRat * (9370165 / 2 ^ 29)) *
        (15019744 / 2 ^ 18)) - (FP.fin s m e).toRat) by ring, abs_neg] at hcore
    exact hcore

/-- C7, the amended claim at `d = 90.0f`. -/
theorem C7_degrees_roundtrip_witness :
    (degrees (ofRat binary32 90)).as_degrees.isFinite = true ∧
      |(degrees (ofRat binary32 90)).as_degrees.toRat - (ofRat binary32 90).toRat| <
        1 / 100000 :=
  C7_degrees_roundtrip (ofRat binary32 90) (by decide!) (by decide!) (by decide!)

/-- C8: for every radian value `r`, `radians(r).as_radians()` is `r` itself: the stored datum
is returned with no conversion, whatever `r` is; in particular the C++ comparison
`radians(r).as_radians() == r` holds for every `r` that is not NaN. -/
theorem C8_radians_roundtrip (r : FP) :
    (radians r).as_radians = r ∧ (r.isNaN = false → FP.eq (radians r).as_radians r = true) := by
  refine ⟨rfl, fun h => ?_⟩
  show FP.eq r r = true
  cases r with
  | nan => simp [FP.isNaN] at h
  | inf s => simp [FP.eq]
  | fin s m e => simp [FP.eq]

/-- C8 at the float nearest to `π`. -/
theorem C8_radians_roundtrip_witness :
    (radians (FP.cvt binary32 k_pi)).as_radians = FP.cvt binary32 k_pi ∧
      FP.eq (radians (FP.cvt binary32 k_pi)).as_radians (FP.cvt binary32 k_pi) = true :=
  have h := C8_radians_roundtrip (FP.cvt binary32 k_pi)
  ⟨h.1, h.2 (by decide!)⟩

/-- C9: for every finite double `x`, `scalar_cast(scalar_set(x)) == x`, and the result is `x`
itself, both on the portable path (`scalard` is `double`) and on the SSE2 path (`scalar_set`
replicates `x` into both lanes, `scalar_cast` extracts the low lane). -/
theorem C9_set_cast_roundtrip (x : FP) (hfin : x.isFinite = true) :
    (portable.scalar_cast (portable.scalar_set x) = x ∧
      FP.eq (portable.scalar_cast (portable.scalar_set x)) x = true) ∧
    (sse2.scalar_cast (sse2.scalar_set x) = x ∧
      FP.eq (sse2.scalar_cast (sse2.scalar_set x)) x = true ∧
      (sse2.scalar_set x).lo = x ∧ (sse2.scalar_set x).hi = x) := by
  obtain ⟨s, m, e, rfl⟩ := (FP.isFinite_iff x).mp hfin
  refine ⟨⟨rfl, ?_⟩, rfl, ?_, rfl, rfl⟩
  · show FP.eq (FP.fin s m e) (FP.fin s m e) = true
    simp [FP.eq]
  · show FP.eq (FP.fin s m e) (FP.fin s m e) = true
    simp [FP.eq]

/-- C9 at `x = 0.5`. -/
theorem C9_set_cast_roundtrip_witness :
    FP.eq (portable.scalar_cast (portable.scalar_set half)) half = true ∧
      FP.eq (sse2.scalar_cast (sse2.scalar_set half)) half = true :=
  have h := C9_set_cast_roundtrip half (by decide!)
  ⟨h.1.2, h.2.2.1⟩

/-- C11, witness against the claim as stated: `scalar_abs(NaN)` is NaN, and `NaN >= 0` is
false. -/
theorem C11_counterexample :
    scalar_abs FP.nan = FP.nan ∧ FP.ge (scalar_abs FP.nan) zero = false := by
  decide!

/-- C11 (amended): for every double `x` that is not NaN, `scalar_abs(x) >= 0`; for every
double `x`, `scalar_abs(x) == x` whenever `x >= 0`; and `scalar_abs(NaN)` is NaN. -/
theorem C11_abs (x : FP) :
    (x.isNaN = false → FP.ge (scalar_abs x) zero = true) ∧
    (FP.ge x zero = true → FP.eq (scalar_abs x) x = true) ∧
    (x.isNaN = true → (scalar_abs x).isNaN = true) := by
  cases x with
  | nan => simp [FP.isNaN, scalar_abs, FP.abs, FP.ge, FP.le, zero_eq]
  | inf s =>
    refine ⟨fun _ => ?_, fun h => ?_, fun h => by simp [FP.isNaN] at h⟩
    · simp [scalar_abs, FP.abs, FP.ge, FP.le, zero_eq]
    · cases s
      · simp [scalar_abs, FP.abs, FP.eq]
      · simp [FP.ge, FP.le, zero_eq] at h
  | fin s m e =>
    refine ⟨fun _ => ?_, fun h => ?_, fun h => by simp [FP.isNaN] at h⟩
    · have := FP.toRat_nonneg_of_pos m e
      simp only [scalar_abs, FP.abs, FP.ge]
      rw [FP.le_of_isFinite zero_isFinite (y := FP.fin false m e) rfl, zero_toRat]
      exact decide_eq_true this
    · simp only [FP.ge] at h
      rw [FP.le_of_isFinite zero_isFinite (y := FP.fin s m e) rfl, zero_toRat,
        decide_eq_true_eq] at h
      simp only [scalar_abs, FP.abs, FP.eq, decide_eq_true_eq]
      cases s
      · rfl
      · have h2 := FP.toRat_nonpos_of_neg m e
        have h3 : (FP.fin true m e).toRat = 0 := le_antisymm h2 h
        rw [h3]
        rw [FP.toRat_fin] at h3 ⊢
        simp only [sgn, if_true, neg_mul, one_mul, neg_eq_zero] at h3
        simp [sgn, h3]

/-- C11, the amended claim at `x = -0.5` (absolute value `0.5 >= 0`) and at `x = 0.5 >= 0`. -/
theorem C11_abs_witness :
    FP.ge (scalar_abs (FP.neg half)) zero = true ∧ FP.eq (scalar_abs half) half = true :=
  ⟨(C11_abs (FP.neg half)).1 (by decide!), (C11_abs half).2.1 (by decide!)⟩

/-- C12, witness against the claim as stated: at the smallest subnormal `x = 2^-1074 != 0`
the reciprocal `1.0 / x` overflows to `+Inf`, the product `scalar_reciprocal(x) * x` is
`+Inf` and is not near-equal to `1.0`; the same happens up to `x = 2^-1024`; at
`x = +Inf != 0` the reciprocal is `0` and the product is NaN. -/
theorem C12_counterexample :
    FP.eq (FP.fin false 1 (-1074)) zero = false ∧
      (FP.fin false 1 (-1074)).valid binary64 ∧
      scalar_reciprocal (FP.fin false 1 (-1074)) = FP.inf false ∧
      FP.mul binary64 (scalar_reciprocal (FP.fin false 1 (-1074))) (FP.fin false 1 (-1074))
        = FP.inf false ∧
      scalar_near_equal
        (FP.mul binary64 (scalar_reciprocal (FP.fin false 1 (-1074))) (FP.fin false 1 (-1074)))
        one (ofRat binary64 (1 / 1000000000)) = false ∧
      (FP.fin false (2 ^ 50) (-1074)).valid binary64 ∧
      scalar_reciprocal (FP.fin false (2 ^ 50) (-1074)) = FP.inf false ∧
      FP.eq (FP.inf false) zero = false ∧
      FP.mul binary64 (scalar_reciprocal (FP.inf false)) (FP.inf false) = FP.nan ∧
      scalar_near_equal (FP.mul binary64 (scalar_reciprocal (FP.inf false)) (FP.inf false))
        one (ofRat binary64 (1 / 1000000000)) = false := by
  decide!

/-- C12 (amended): for every finite double `x` with `|x| > 2^-1024`, the reciprocal
`scalar_reciprocal(x)` is finite and `scalar_reciprocal(x) * x` is near-equal to `1.0` within
`1e-9`, the product being within `2^-51` of one; and for every double `y` the register
overload returns the very double that the portable overload returns,
`scalar_cast(scalar_reciprocal(scalar_set(y)))` being `scalar_reciprocal(y)`, so that the two
are near-equal within `1e-9` whenever the reciprocal is finite. -/
theorem C12_reciprocal (x : FP) (hx : x.valid binary64) (hfin : x.isFinite = true)
    (hb : (2 : ℚ) ^ (-1024 : ℤ) < |x.toRat|) :
    (scalar_reciprocal x).isFinite = true ∧
    scalar_near_equal (FP.mul binary64 (scalar_reciprocal x) x) one
      (ofRat binary64 (1 / 1000000000)) = true ∧
    |(FP.mul binary64 (scalar_reciprocal x) x).toRat - 1| ≤ 2 ^ (-51 : ℤ) ∧
    (∀ y : FP, sse2.scalar_cast (sse2.scalar_reciprocal (sse2.scalar_set y))
      = scalar_reciprocal y) ∧
    scalar_near_equal (sse2.scalar_cast (sse2.scalar_reciprocal (sse2.scalar_set x)))
      (scalar_reciprocal x) (ofRat binary64 (1 / 1000000000)) = true := by
  obtain ⟨t, n, k, rfl⟩ := (FP.isFinite_iff x).mp hfin
  rw [FP.abs_toRat_fin] at hb
  have ha := magnitude_above t n k hx hb
  have hpos : (0 : ℚ) < (n : ℚ) * 2 ^ k := lt_trans (two_zpow_pos _) hb
  have hn : n ≠ 0 := by
    rintro rfl
    simp at hpos
  have hlt : (n : ℚ) * 2 ^ k < 2 ^ (1024 : ℤ) := by
    have := FP.valid.abs_lt hx
    rw [FP.abs_toRat_fin] at this
    exact this
  -- the reciprocal
  have hrnn : (0 : ℚ) ≤ 1 / ((n : ℚ) * 2 ^ k) := by positivity
  have hr := scalar_reciprocal_fin t n k hn
  rw [FP.abs_toRat_fin] at hr
  have hrfin : (scalar_reciprocal (FP.fin t n k)).isFinite = true := by
    rw [hr, round_isFinite_iff binary64 binary64_wf _ _ hrnn]
    exact fl_reciprocal_lt _ ha
  have hrval : (scalar_reciprocal (FP.fin t n k)).toRat
      = sgn t * fl binary64 (1 / ((n : ℚ) * 2 ^ k)) := by
    have h := hrfin
    rw [hr] at h ⊢
    exact round_toRat binary64 binary64_wf _ _ hrnn h
  -- the product
  have hprod : (scalar_reciprocal (FP.fin t n k)).toRat * (FP.fin t n k).toRat
      = fl binary64 (1 / ((n : ℚ) * 2 ^ k)) * ((n : ℚ) * 2 ^ k) := by
    rw [hrval, FP.toRat_fin]
    have : sgn t * sgn t = 1 := by cases t <;> simp [sgn]
    linear_combination (fl binary64 (1 / ((n : ℚ) * 2 ^ k)) * ((n : ℚ) * 2 ^ k)) * this
  have herr := fl_reciprocal_mul _ hpos hlt
  obtain ⟨hlo, hhi⟩ := abs_le.mp herr
  have hrepH : Rep binary64 (1 + 2 ^ (-51 : ℤ)) := by
    have := rep_of_nat_mul_zpow binary64 (2 ^ 52 + 2) (-52) (by decide) (by decide)
    have e : (((2 ^ 52 + 2 : ℕ) : ℚ)) * 2 ^ (-52 : ℤ) = 1 + 2 ^ (-51 : ℤ) := by
      rw [zpow_neg, zpow_neg]; norm_num
    rwa [e] at this
  have hrepL : Rep binary64 (1 - 2 ^ (-51 : ℤ)) := by
    have := rep_of_nat_mul_zpow binary64 (2 ^ 53 - 4) (-53) (by decide) (by decide)
    have e : (((2 ^ 53 - 4 : ℕ) : ℚ)) * 2 ^ (-53 : ℤ) = 1 - 2 ^ (-51 : ℤ) := by
      rw [zpow_neg, zpow_neg]; norm_num
    rwa [e] at this
  obtain ⟨p, hp⟩ : ∃ p, p = fl binary64
      (fl binary64 (1 / ((n : ℚ) * 2 ^ k)) * ((n : ℚ) * 2 ^ k)) := ⟨_, rfl⟩
  have hpH : p ≤ 1 + 2 ^ (-51 : ℤ) := by
    rw [hp]; exact fl_le_of_le binary64 binary64_wf _ _ hrepH (by linarith)
  have hpL : 1 - 2 ^ (-51 : ℤ) ≤ p := by
    rw [hp]; exact le_fl_of_le binary64 binary64_wf _ _ hrepL (by linarith)
  have h51 : (2 : ℚ) ^ (-51 : ℤ) < 1 := by
    have := two_zpow_lt (show (-51 : ℤ) < 0 by norm_num)
    simpa using this
  have hbig : (2 : ℚ) < 2 ^ (binary64.emax + binary64.prec) := by
    have := two_zpow_lt (show (1 : ℤ) < binary64.emax + binary64.prec by decide)
    simpa using this
  have h1fin : one.isFinite = true := by rw [one_eq]; rfl
  have hxfin : (FP.fin t n k).isFinite = true := rfl
  have hPfin : (FP.mul binary64 (scalar_reciprocal (FP.fin t n k)) (FP.fin t n k)).isFinite
      = true := by
    rw [FP.mul_isFinite_iff binary64 binary64_wf _ _ hrfin hxfin, hprod, ← hp, abs_lt]
    constructor <;> linarith
  have hPval : (FP.mul binary64 (scalar_reciprocal (FP.fin t n k)) (FP.fin t n k)).toRat = p := by
    rw [FP.mul_toRat binary64 binary64_wf _ _ hrfin hxfin hPfin, hprod, ← hp]
  -- the comparison with one
  have hrep51 : Rep binary64 (2 ^ (-51 : ℤ)) := by
    have := rep_of_nat_mul_zpow binary64 1 (-51) (by decide) (by decide)
    simpa using this
  have hdH : fl binary64 (p - 1) ≤ 2 ^ (-51 : ℤ) :=
    fl_le_of_le binary64 binary64_wf _ _ hrep51 (by linarith)
  have hdL : -(2 : ℚ) ^ (-51 : ℤ) ≤ fl binary64 (p - 1) :=
    le_fl_of_le binary64 binary64_wf _ _ hrep51.neg (by linarith)
  have hSfin : (FP.sub binary64
      (FP.mul binary64 (scalar_reciprocal (FP.fin t n k)) (FP.fin t n k)) one).isFinite
      = true := by
    rw [FP.sub_isFinite_iff binary64 binary64_wf _ _ hPfin h1fin, hPval, one_toRat, abs_lt]
    constructor <;> linarith
  have hSval : (FP.sub binary64
      (FP.mul binary64 (scalar_reciprocal (FP.fin t n k)) (FP.fin t n k)) one).toRat
      = fl binary64 (p - 1) := by
    rw [FP.sub_toRat binary64 binary64_wf _ _ hPfin h1fin hSfin, hPval, one_toRat]
  have htol := tolerance_gt
  refine ⟨hrfin, ?_, ?_, fun y => rfl, ?_⟩
  · unfold scalar_near_equal scalar_abs
    rw [FP.lt_of_isFinite (by rw [FP.abs_isFinite]; exact hSfin) (by rw [tolerance_eq]; rfl),
      FP.abs_toRat, hSval, decide_eq_true_eq]
    exact lt_of_le_of_lt (abs_le.mpr ⟨hdL, hdH⟩) htol
  · rw [hPval, abs_le]
    constructor <;> linarith
  · show scalar_near_equal (scalar_reciprocal (FP.fin t n k)) (scalar_reciprocal (FP.fin t n k))
      (ofRat binary64 (1 / 1000000000)) = true
    exact scalar_near_equal_self _ _ hrfin (by decide!)

/-- C12, the amended claim at `x = 3.0`, where `1.0 / 3.0` is rounded. -/
theorem C12_reciprocal_witness :
    (scalar_reciprocal (ofRat binary64 3)).isFinite = true ∧
      scalar_near_equal (FP.mul binary64 (scalar_reciprocal (ofRat binary64 3))
        (ofRat binary64 3)) one (ofRat binary64 (1 / 1000000000)) = true ∧
      sse2.scalar_cast (sse2.scalar_reciprocal (sse2.scalar_set (ofRat binary64 3)))
        = scalar_reciprocal (ofRat binary64 3) :=
  have h := C12_reciprocal (ofRat binary64 3) (by decide!) (by decide!) (by
    have e : ofRat binary64 3 = FP.fin false (3 * 2 ^ 51) (-51) := by decide!
    rw [e, FP.abs_toRat_fin]
    have h1 : (2 : ℚ) ^ (-1024 : ℤ) < 2 ^ (-51 : ℤ) := two_zpow_lt (by norm_num)
    have h2 : (2 : ℚ) ^ (-51 : ℤ) ≤ ((3 * 2 ^ 51 : ℕ) : ℚ) * 2 ^ (-51 : ℤ) :=
      le_mul_of_one_le_left (two_zpow_pos _).le (by norm_num)
    exact lt_of_lt_of_le h1 h2)
  ⟨h.1, h.2.1, h.2.2.2.1 _⟩

/-- C13: `scalar_deg_to_rad(180.0)` is the float nearest to `π`, near-equal to the constant
`k_pi` within the default threshold `0.00001` and within `0.00001` of `π` itself;
`scalar_rad_to_deg(π)`, the argument being the float nearest to `π`, is `180.0f`, near-equal
to `180.0`. The conversions multiply by the float constants `(float)k_pi / 180.0f`
(`9370165 * 2^-29`, the float nearest to `π / 180`) and `180.0f / (float)k_pi`
(`15019744 * 2^-18`, within a unit in the last place of `180 / π`). -/
theorem C13_half_turn :
    FP.cvt binary32 (ofRat binary64 180) = f180 ∧
    scalar_deg_to_rad f180 = FP.cvt binary32 k_pi ∧
    scalar_near_equal (FP.cvt binary64 (scalar_deg_to_rad f180)) k_pi default_threshold = true ∧
    |(((scalar_deg_to_rad f180).toRat : ℚ) : ℝ) - Real.pi| < 1 / 100000 ∧
    scalar_rad_to_deg (FP.cvt binary32 k_pi) = f180 ∧
    scalar_near_equal (FP.cvt binary64 (scalar_rad_to_deg (FP.cvt binary32 k_pi)))
      (ofRat binary64 180) default_threshold = true ∧
    (∀ deg, scalar_deg_to_rad deg = FP.mul binary32 deg (FP.fin false 9370165 (-29))) ∧
    (∀ rad, scalar_rad_to_deg rad = FP.mul binary32 rad (FP.fin false 15019744 (-18))) := by
  have e1 : scalar_deg_to_rad f180 = FP.cvt binary32 k_pi := by decide!
  refine ⟨by decide!, e1, by decide!, ?_, by decide!, by decide!, fun deg => ?_, fun rad => ?_⟩
  · have h : (scalar_deg_to_rad f180).toRat = 13176795 / 2 ^ 22 := by
      rw [e1, k_pi_float, FP.toRat_fin]; simp [sgn]; norm_num
    have h1 := Real.pi_gt_d6
    have h2 := Real.pi_lt_d6
    rw [h, abs_lt]
    push_cast
    constructor <;> norm_num at h1 h2 ⊢ <;> linarith
  · unfold scalar_deg_to_rad; rw [deg_to_rad_const]
  · unfold scalar_rad_to_deg; rw [rad_to_deg_const]

/-- C14: `scalar_is_finite(x)` is false when `x` is NaN, `+Inf` or `-Inf`, and only then; it
is true for every other double, that is for every finite number, whose magnitude is below
`2^1024`; the largest double and the smallest subnormal are finite. -/
theorem C14_is_finite (x : FP) :
    (scalar_is_finite x = false ↔ x = FP.nan ∨ x = FP.inf false ∨ x = FP.inf true) ∧
    (scalar_is_finite x = true ↔ ∃ s m e, x = FP.fin s m e) ∧
    (x.valid binary64 → scalar_is_finite x = true → |x.toRat| < 2 ^ 1024) ∧
    scalar_is_finite (FP.fin false (2 ^ 53 - 1) 971) = true ∧
    scalar_is_finite (FP.fin true 1 (-1074)) = true := by
  refine ⟨?_, FP.isFinite_iff x, fun hv _ => ?_, rfl, rfl⟩
  · cases x with
    | nan => simp [scalar_is_finite, FP.isFinite]
    | inf s => cases s <;> simp [scalar_is_finite, FP.isFinite]
    | fin s m e => simp [scalar_is_finite, FP.isFinite]
  · have h := FP.valid.abs_lt hv
    have h2 : binary64.emax + (binary64.prec : ℤ) = ((1024 : ℕ) : ℤ) := by decide
    rw [h2, zpow_natCast] at h
    exact h

/-- C14 at NaN, at both infinities, at `0.5` and at the overflowing product
`2^1023 * 2^1023 = +Inf`. -/
theorem C14_is_finite_witness :
    scalar_is_finite FP.nan = false ∧ scalar_is_finite (FP.inf false) = false ∧
      scalar_is_finite (FP.inf true) = false ∧ scalar_is_finite half = true ∧
      scalar_is_finite
        (FP.mul binary64 (FP.fin false (2 ^ 52) 971) (FP.fin false (2 ^ 52) 971)) = false :=
  ⟨(C14_is_finite FP.nan).1.mpr (Or.inl rfl), (C14_is_finite (FP.inf false)).1.mpr (Or.inr (Or.inl rfl)),
    (C14_is_finite (FP.inf true)).1.mpr (Or.inr (Or.inr rfl)),
    (C14_is_finite half).2.1.mpr ⟨false, 2 ^ 52, -53, half_eq⟩, by decide!⟩

/-- C15: for every angle `a`, after `scalar_sincos(a, out_sin, out_cos)` with two distinct
output objects, `out_sin` holds the very double that `scalar_sin(a)` returns and `out_cos`
the very double that `scalar_cos(a)` returns, so that `out_sin == scalar_sin(a)` and
`out_cos == scalar_cos(a)` whenever these are not NaN; no other object is written. (When one
object is passed for both outputs it ends holding the cosine.) -/
theorem C15_sincos (L : Libm) (a : FP) (out_sin out_cos : Nat) (σ : Store)
    (h : out_sin ≠ out_cos) :
    (scalar_sincos L a out_sin out_cos σ).read out_sin = scalar_sin L a ∧
    (scalar_sincos L a out_sin out_cos σ).read out_cos = scalar_cos L a ∧
    ((scalar_sin L a).isNaN = false →
      FP.eq ((scalar_sincos L a out_sin out_cos σ).read out_sin) (scalar_sin L a) = true) ∧
    ((scalar_cos L a).isNaN = false →
      FP.eq ((scalar_sincos L a out_sin out_cos σ).read out_cos) (scalar_cos L a) = true) ∧
    (∀ q, q ≠ out_sin → q ≠ out_cos → (scalar_sincos L a out_sin out_cos σ).read q = σ.read q) ∧
    (scalar_sincos L a out_cos out_cos σ).read out_cos = scalar_cos L a := by
  have h1 : (scalar_sincos L a out_sin out_cos σ).read out_sin = scalar_sin L a := by
    simp [scalar_sincos, Store.read, Store.write, h]
  have h2 : (scalar_sincos L a out_sin out_cos σ).read out_cos = scalar_cos L a := by
    simp [scalar_sincos, Store.read, Store.write]
  refine ⟨h1, h2, fun hn => ?_, fun hn => ?_, fun q hq1 hq2 => ?_, ?_⟩
  · rw [h1]; exact FP.eq_self hn
  · rw [h2]; exact FP.eq_self hn
  · simp [scalar_sincos, Store.read, Store.write, hq1, hq2]
  · simp [scalar_sincos, Store.read, Store.write]

/-- C15 at the angle `0.0`, for a library with `sin(0.0) = 0.0` and `cos(0.0) = 1.0`, the
outputs being the objects at addresses `0` and `1`. -/
theorem C15_sincos_witness :
    (0 : Nat) ≠ 1 ∧
      (scalar_sincos ⟨fun _ => zero, fun _ => one⟩ zero 0 1 (fun _ => FP.nan)).read 0 = zero ∧
      (scalar_sincos ⟨fun _ => zero, fun _ => one⟩ zero 0 1 (fun _ => FP.nan)).read 1 = one :=
  have h := C15_sincos ⟨fun _ => zero, fun _ => one⟩ zero 0 1 (fun _ => FP.nan) (by decide)
  ⟨by decide, h.1, h.2.1⟩

/-- C16: the angle wrapper stores the single value `m_radians`, from which both accessors
derive. For every degree value `d`, `degrees(d).as_radians()` is the float product
`d * ((float)k_pi / 180.0f)`, whose multiplier `9370165 * 2^-29` is the float nearest to
`π / 180`; for every angle `a`, in particular one produced by `radians` or `degrees`,
`a.as_degrees()` is the float product `a.as_radians() * (180.0f / (float)k_pi)`, whose
multiplier `15019744 * 2^-18` is within a unit in the last place of `180 / π`; and the
default-constructed angle has `as_radians() == 0`. The comparisons `==` hold whenever the
value is not NaN. -/
theorem C16_angle_accessors (d r : FP) (a : anglef) :
    (degrees d).as_radians = FP.mul binary32 d (FP.div binary32 (FP.cvt binary32 k_pi) f180) ∧
    ((degrees d).as_radians.isNaN = false →
      FP.eq (degrees d).as_radians
        (FP.mul binary32 d (FP.div binary32 (FP.cvt binary32 k_pi) f180)) = true) ∧
    a.as_radians = a.m_radians ∧
    a.as_degrees = FP.mul binary32 a.as_radians (FP.div binary32 f180 (FP.cvt binary32 k_pi)) ∧
    (a.as_degrees.isNaN = false →
      FP.eq a.as_degrees
        (FP.mul binary32 a.as_radians (FP.div binary32 f180 (FP.cvt binary32 k_pi))) = true) ∧
    (radians r).as_degrees = FP.mul binary32 r (FP.fin false 15019744 (-18)) ∧
    (degrees d).as_degrees =
      FP.mul binary32 (FP.mul binary32 d (FP.fin false 9370165 (-29)))
        (FP.fin false 15019744 (-18)) ∧
    anglef.ctor.as_radians = FP.fin false 0 (-149) ∧
    FP.eq anglef.ctor.as_radians (ofRat binary32 0) = true ∧
    |(((FP.div binary32 (FP.cvt binary32 k_pi) f180).toRat : ℚ) : ℝ) - Real.pi / 180|
      < 1 / 2 ^ 30 ∧
    |(((FP.div binary32 f180 (FP.cvt binary32 k_pi)).toRat : ℚ) : ℝ) - 180 / Real.pi|
      < 1 / 2 ^ 18 := by
  refine ⟨rfl, fun h => FP.eq_self h, rfl, rfl, fun h => FP.eq_self h, ?_, ?_, by decide!,
    by decide!, deg_to_rad_const_near, rad_to_deg_const_near⟩
  · show FP.mul binary32 r (FP.div binary32 f180 (FP.cvt binary32 k_pi)) = _
    rw [rad_to_deg_const]
  · show FP.mul binary32 (FP.mul binary32 d (FP.div binary32 (FP.cvt binary32 k_pi) f180))
      (FP.div binary32 f180 (FP.cvt binary32 k_pi)) = _
    rw [rad_to_deg_const, deg_to_rad_const]

/-- C16 at `d = 90.0f`, at `r` the float nearest to `π` and at the default-constructed
angle. -/
theorem C16_angle_accessors_witness :
    (degrees (ofRat binary32 90)).as_radians = FP.fin false 13176795 (-23) ∧
      (radians (FP.cvt binary32 k_pi)).as_degrees = f180 ∧
      anglef.ctor.as_degrees = FP.fin false 0 (-149) :=
  have h := C16_angle_accessors (ofRat binary32 90) (FP.cvt binary32 k_pi) anglef.ctor
  ⟨h.1.trans (by decide!), h.2.2.2.2.2.1.trans (by decide!), h.2.2.2.1.trans (by decide!)⟩

/-- C17: when the bounds are inverted (`lo > hi`), `scalar_clamp(x, lo, hi)` returns `hi` for
every input `x` that is not NaN, wherever `x` lies relative to `lo` and `hi`. -/
theorem C17_clamp_inverted (x lo hi : FP) (h : FP.gt lo hi = true) (hx : x.isNaN = false) :
    scalar_clamp x lo hi = hi := by
  simp only [FP.gt] at h
  obtain ⟨_, hlo⟩ := FP.not_nan_of_lt h
  simp only [scalar_clamp, FP.min, FP.max]
  cases h1 : FP.lt x lo with
  | true => simp only [if_true, h]
  | false =>
    simp only [Bool.false_eq_true, if_false]
    have h2 : FP.lt hi x = true := FP.lt_of_lt_of_le h (FP.le_of_lt_eq_false hlo hx h1)
    simp only [h2, if_true]

/-- C17 with the inverted bounds `lo = 1.0 > hi = 0.0`: below both (`x = -0.5`), between
them (`x = 0.5`) and above both (`x = +Inf`) the result is `hi = 0.0`. -/
theorem C17_clamp_inverted_witness :
    FP.gt one zero = true ∧ scalar_clamp (FP.neg half) one zero = zero ∧
      scalar_clamp half one zero = zero ∧ scalar_clamp (FP.inf false) one zero = zero :=
  ⟨by decide!, C17_clamp_inverted (FP.neg half) one zero (by decide!) (by decide!),
    C17_clamp_inverted half one zero (by decide!) (by decide!),
    C17_clamp_inverted (FP.inf false) one zero (by decide!) (by decide!)⟩

/-- C18, witness against the claim as stated: at `x = NaN` both
`scalar_symmetric_round(-x)` and `-scalar_symmetric_round(x)` are NaN, and the comparison
`==` of two NaN is false. -/
theorem C18_counterexample :
    scalar_symmetric_round (FP.neg FP.nan) = FP.nan ∧
      FP.neg (scalar_symmetric_round FP.nan) = FP.nan ∧
      FP.eq (scalar_symmetric_round (FP.neg FP.nan)) (FP.neg (scalar_symmetric_round FP.nan))
        = false := by
  decide!

/-- C18 (amended): for every double `x` that is not NaN, the infinities included,
`scalar_symmetric_round(-x) == -scalar_symmetric_round(x)`; for `x > 0` the two sides take
the two branches, `floor(x + 0.5)` for `x` and `ceil(-x - 0.5)` for `-x`, and give opposite
doubles; at the zeros both sides are zero (`+0` and `-0`, which compare equal). -/
theorem C18_symmetric_round_odd (x : FP) (hx : x.isNaN = false) :
    FP.eq (scalar_symmetric_round (FP.neg x)) (FP.neg (scalar_symmetric_round x)) = true ∧
    (FP.gt x zero = true →
      scalar_symmetric_round x = scalar_floor (FP.add binary64 x half) ∧
      scalar_symmetric_round (FP.neg x) = scalar_ceil (FP.sub binary64 (FP.neg x) half) ∧
      scalar_symmetric_round (FP.neg x) = FP.neg (scalar_symmetric_round x)) := by
  cases x with
  | nan => simp [FP.isNaN] at hx
  | inf s => cases s <;> decide!
  | fin s m e =>
    have hfin : (FP.fin s m e).isFinite = true := rfl
    have hgt : FP.gt (FP.fin s m e) zero = decide (0 < (FP.fin s m e).toRat) := by
      unfold FP.gt
      rw [FP.lt_of_isFinite zero_isFinite hfin, zero_toRat]
    rw [hgt, decide_eq_true_eq]
    refine ⟨?_, fun hpos => symmetric_round_neg_of_pos _ hfin hpos⟩
    rcases lt_trichotomy (FP.fin s m e).toRat 0 with h | h | h
    · rw [(symmetric_round_neg_of_neg _ hfin h).2.2]
      exact FP.eq_self (by rw [FP.neg_isNaN]; exact symmetric_round_isNaN _ hfin)
    · have hm : m = 0 := by
        rw [FP.toRat_fin] at h
        have h2 : sgn s ≠ 0 := by cases s <;> simp [sgn]
        have h3 := (mul_eq_zero.mp h).resolve_left h2
        have h4 := (mul_eq_zero.mp h3).resolve_right (two_zpow_pos e).ne'
        exact_mod_cast h4
      subst hm
      show FP.eq (scalar_symmetric_round (FP.fin (!s) 0 e))
        (FP.neg (scalar_symmetric_round (FP.fin s 0 e))) = true
      rw [symmetric_round_zero, symmetric_round_zero]
      decide!
    · rw [(symmetric_round_neg_of_pos _ hfin h).2.2]
      exact FP.eq_self (by rw [FP.neg_isNaN]; exact symmetric_round_isNaN _ hfin)

/-- C18, the amended claim at `x = 1.5` (`round(-1.5) = -2.0 = -round(1.5)`) and at
`x = 0.49999999999999994`, where `round(x) = 1.0` and `round(-x) = -1.0`. -/
theorem C18_symmetric_round_odd_witness :
    FP.eq (scalar_symmetric_round (FP.neg (ofRat binary64 (3 / 2))))
        (FP.neg (scalar_symmetric_round (ofRat binary64 (3 / 2)))) = true ∧
      scalar_symmetric_round (FP.neg (ofRat binary64 (3 / 2))) = ofRat binary64 (-2) ∧
      FP.eq (scalar_symmetric_round (FP.neg (FP.fin false (2 ^ 53 - 1) (-54))))
        (FP.neg (scalar_symmetric_round (FP.fin false (2 ^ 53 - 1) (-54)))) = true ∧
      scalar_symmetric_round (FP.neg (FP.fin false (2 ^ 53 - 1) (-54))) = ofRat binary64 (-1) :=
  ⟨(C18_symmetric_round_odd (ofRat binary64 (3 / 2)) (by decide!)).1, by decide!,
    (C18_symmetric_round_odd (FP.fin false (2 ^ 53 - 1) (-54)) (by decide!)).1, by decide!⟩

/-- C19: `scalar_near_equal` is symmetric in its first two arguments: for all doubles `a`,
`b` and every threshold `t`, NaN and the infinities included,
`scalar_near_equal(a, b, t) == scalar_near_equal(b, a, t)`; indeed the two magnitudes
`scalar_abs(a - b)` and `scalar_abs(b - a)` compared with `t` are the same double. -/
theorem C19_near_equal_symmetric (a b t : FP) :
    scalar_near_equal a b t = scalar_near_equal b a t ∧
      scalar_abs (FP.sub binary64 a b) = scalar_abs (FP.sub binary64 b a) := by
  have h : scalar_abs (FP.sub binary64 a b) = scalar_abs (FP.sub binary64 b a) :=
    FP.abs_sub_comm binary64 a b
  refine ⟨?_, h⟩
  unfold scalar_near_equal
  rw [h]

/-- C19 at `a = 0.5`, `b = 1.0` with the thresholds `1.0` (near-equal in both orders) and
`0.00001` (not near-equal in both orders). -/
theorem C19_near_equal_symmetric_witness :
    scalar_near_equal half one one = true ∧ scalar_near_equal one half one = true ∧
      scalar_near_equal half one default_threshold = false ∧
      scalar_near_equal one half default_threshold = false :=
  have h1 := (C19_near_equal_symmetric half one one).1
  have h2 := (C19_near_equal_symmetric half one default_threshold).1
  have e1 : scalar_near_equal half one one = true := by decide!
  have e2 : scalar_near_equal half one default_threshold = false := by decide!
  ⟨e1, h1.symm.trans e1, e2, h2.symm.trans e2⟩

end rtm
